import Mathlib

/-!
Count-Min Sketch crash-recovery harness (`scripts/error/est_err_batch.go`).

Shallow embedding of the sketch type `CMS` and of the scenario driver of `main`,
followed by the properties stated about them.

Modelling conventions.
* Go `int` is the 64-bit two's-complement integer: values are `Int`, and every
  addition or multiplication the program performs is followed by `wrap64`.
* `[]T` slices are `List T`.  An index that is out of range (a run-time panic in Go)
  is a no-op for writes and yields the zero value for reads; `CMS.WF` states that
  the slices have the lengths `New` gives them, and under `CMS.WF` no index is out
  of range (`Update_WF`, `Merge_WF`, `applyUpdates_WF`, `hash_lt`).
* The fields `d` and `w` of a sketch are positive in every sketch `New` returns; they
  are stored as natural numbers.
* `hash/maphash` is a library: `H seed key` stands for the `Sum64` of a `maphash.Hash`
  that was given `seed` and then `key`; `maphash.MakeSeed` is a supplied function of
  the row index.  `math.Log` is a library function and a parameter as well.
* `float32` and `float64` arithmetic is modelled exactly on the values involved
  (section "Floating point").
* The input file is the list of the lines `bufio.Scanner` returns.  A loop that can
  no longer exit is recorded in the state (`Status.spinning`) instead of being run.
-/

namespace MeasureTraces

/-! ## Definitions -/

/-- The constant `math.MaxInt` on a 64-bit target. -/
def MaxInt : Int := 9223372036854775807

/-- The constant `math.MinInt` on a 64-bit target. -/
def MinInt : Int := -9223372036854775808

/-- Reduction of a mathematical integer to the Go `int` it is stored as. -/
def wrap64 (x : Int) : Int :=
  (x + 9223372036854775808) % 18446744073709551616 - 9223372036854775808

/-- A value of `maphash.Seed`. -/
abbrev Seed := Nat

/-- The struct `CMS`: `d` rows of `w` counters and one seed per row. -/
structure CMS where
  d : Nat
  w : Nat
  count : List (List Int)
  seeds : List Seed
deriving DecidableEq

/-- The slices of a sketch have the lengths given by `New`. -/
def CMS.WF (cms : CMS) : Prop :=
  cms.count.length = cms.d ∧ (∀ row ∈ cms.count, row.length = cms.w) ∧
    cms.seeds.length = cms.d

/-- The read `count[i][j]`. -/
def cell (count : List (List Int)) (i j : Nat) : Int :=
  (count.getD i []).getD j 0

/-- The write `count[i][j] = f(count[i][j])`. -/
def modCell (count : List (List Int)) (i j : Nat) (f : Int → Int) : List (List Int) :=
  count.modify (fun row => row.modify f j) i

/-- A counter matrix has `d` rows of `w` counters each. -/
def Shape (count : List (List Int)) (d w : Nat) : Prop :=
  count.length = d ∧ ∀ row ∈ count, row.length = w

/-- The constructor `New(d, w)`; `mkSeed i` is the seed `maphash.MakeSeed()` returns
for row `i`. -/
def New (mkSeed : Nat → Seed) (d w : Int) : Except String CMS :=
  if d ≤ 0 ∨ w ≤ 0 then
    Except.error "CMS: d and w must be greater than 0"
  else
    Except.ok
      { d := d.toNat
        w := w.toNat
        count := List.replicate d.toNat (List.replicate w.toNat 0)
        seeds := (List.range d.toNat).map mkSeed }

/-- The method `hash(key, row)`: `int(h.Sum64() % uint64(cms.w))` with the row seed. -/
def hash (H : Seed → String → Nat) (cms : CMS) (key : String) (row : Nat) : Nat :=
  H (cms.seeds.getD row 0) key % cms.w

/-- The method `Update(key, cnt)`. -/
def Update (H : Seed → String → Nat) (cms : CMS) (key : String) (cnt : Int) : CMS :=
  { cms with
    count := (List.range cms.d).foldl
      (fun c i => modCell c i (hash H cms key i) (fun v => wrap64 (v + cnt))) cms.count }

/-- The method `Estimate(key)`. -/
def Estimate (H : Seed → String → Nat) (cms : CMS) (key : String) : Int :=
  (List.range cms.d).foldl
    (fun min i =>
      let value := cell cms.count i (hash H cms key i)
      if value < min then value else min) MaxInt

/-- The method `curr.Merge(other)`.  The result is the pair of sketches after the call
(receiver first) and the returned error, `none` standing for `nil`. -/
def Merge (curr other : CMS) : (CMS × CMS) × Option String :=
  if curr.d ≠ other.d ∨ curr.w ≠ other.w then
    ((curr, other), some "CMS: matrix dimensions must match")
  else
    (({ curr with
        count := (List.range curr.d).foldl
          (fun c i => (List.range curr.w).foldl
            (fun c j => modCell c i j (fun v => wrap64 (v + cell other.count i j))) c)
          curr.count }, other), none)

/-- The method `curr.CopySeeds(other)`. -/
def CopySeeds (curr other : CMS) : CMS :=
  { curr with
    seeds := (List.range curr.d).foldl
      (fun s i =>
        match other.seeds[i]? with
        | some x => s.set i x
        | none => s) curr.seeds }

/-- The method `Clear()`. -/
def Clear (cms : CMS) : CMS :=
  { cms with
    count := (List.range cms.d).foldl
      (fun c i => (List.range cms.w).foldl (fun c j => modCell c i j (fun _ => 0)) c)
      cms.count }

/-- A sequence of `Update` calls applied in order. -/
def applyUpdates (H : Seed → String → Nat) (cms : CMS) (us : List (String × Int)) : CMS :=
  us.foldl (fun s u => Update H s u.1 u.2) cms

/-- The sum of the amounts a sequence of updates applies to `key`. -/
def keyTotal (us : List (String × Int)) (key : String) : Int :=
  ((us.filter (fun u => u.1 = key)).map (fun u => u.2)).sum

/-- The sum of all amounts of a sequence of updates. -/
def allTotal (us : List (String × Int)) : Int :=
  (us.map (fun u => u.2)).sum

/-- The sum of the amounts that a sequence of updates sends to column `j` of row `i`. -/
def load (H : Seed → String → Nat) (seeds : List Seed) (w : Nat)
    (us : List (String × Int)) (i j : Nat) : Int :=
  ((us.filter (fun u => H (seeds.getD i 0) u.1 % w = j)).map (fun u => u.2)).sum

/-! ### Floating point

A finite binary floating-point value is a sign, a mantissa and an exponent.  Every
operation computes the exact result and rounds it once to the precision of its type
(24 bits for `float32`, 53 bits for `float64`), to nearest with ties to even, as IEEE
754 prescribes.  Exponent range (overflow, subnormals) is not modelled. -/

/-- A finite floating-point value `(-1)^neg * m * 2^e`. -/
structure Flt where
  neg : Bool
  m : Nat
  e : Int
deriving DecidableEq

/-- The rational number a floating-point value denotes. -/
def Flt.toRat (x : Flt) : ℚ :=
  (if x.neg then -1 else 1) * (x.m : ℚ) * (2 : ℚ) ^ x.e

/-- The number of binary digits of `n`; the first argument bounds the recursion and
`bitLen n n` is the full count. -/
def bitLen : Nat → Nat → Nat
  | 0, _ => 0
  | f + 1, n => if n = 0 then 0 else bitLen f (n / 2) + 1

/-- The integer nearest to `a / b`, ties to the even one. -/
def rne (a b : Nat) : Nat :=
  if 2 * (a % b) < b then a / b
  else if b < 2 * (a % b) then a / b + 1
  else if (a / b) % 2 = 0 then a / b else a / b + 1

/-- The rational `a / b` (`a, b > 0`) rounded to `p` significant bits: mantissa and
exponent of the nearest value, ties to even. -/
def roundRat (p a b : Nat) : Nat × Int :=
  if a * 2 ^ (p + bitLen b b) < b * 2 ^ bitLen a a * 2 ^ p then
    (rne (a * 2 ^ (p + bitLen b b)) (b * 2 ^ bitLen a a),
      (bitLen a a : Int) - (bitLen b b : Int) - (p : Int))
  else
    (rne (a * 2 ^ (p + bitLen b b)) (2 * (b * 2 ^ bitLen a a)),
      (bitLen a a : Int) - (bitLen b b : Int) - (p : Int) + 1)

/-- The value `± a / b` rounded to `p` significant bits. -/
def fltRound (p : Nat) (neg : Bool) (a b : Nat) : Flt :=
  if a = 0 then ⟨neg, 0, 0⟩ else ⟨neg, (roundRat p a b).1, (roundRat p a b).2⟩

/-- The conversion `float32(n)` of an `int`. -/
def float32 (n : Int) : Flt :=
  fltRound 24 (decide (n < 0)) n.natAbs 1

/-- The product `x * y` of two `float32` values. -/
def mul32 (x y : Flt) : Flt :=
  ⟨xor x.neg y.neg, (fltRound 24 false (x.m * y.m) 1).m,
    (fltRound 24 false (x.m * y.m) 1).e + x.e + y.e⟩

/-- The quotient `x / y` of two `float64` values, `y` non-zero. -/
def div64 (x y : Flt) : Flt :=
  ⟨xor x.neg y.neg, (fltRound 53 false x.m y.m).m,
    (fltRound 53 false x.m y.m).e + x.e - y.e⟩

/-- The conversion `float64(n)` of an `int`. -/
def float64 (n : Int) : Flt :=
  fltRound 53 (decide (n < 0)) n.natAbs 1

/-- The mantissa of `x`, with its sign, as a multiple of `2^e`, for an exponent `e` at
or below the exponent of `x`. -/
def Flt.scaled (x : Flt) (e : Int) : Int :=
  if x.neg then -((x.m * 2 ^ (x.e - e).toNat : Nat) : Int)
  else ((x.m * 2 ^ (x.e - e).toNat : Nat) : Int)

/-- The sum `x + y` of two `float64` values.  An exact zero is negative only as the
sum of two negative zeros. -/
def add64 (x y : Flt) : Flt :=
  if x.scaled (min x.e y.e) + y.scaled (min x.e y.e) = 0 then
    ⟨x.neg && y.neg, 0, 0⟩
  else
    ⟨decide (x.scaled (min x.e y.e) + y.scaled (min x.e y.e) < 0),
      (fltRound 53 false (x.scaled (min x.e y.e) + y.scaled (min x.e y.e)).natAbs 1).m,
      (fltRound 53 false (x.scaled (min x.e y.e) + y.scaled (min x.e y.e)).natAbs 1).e
        + min x.e y.e⟩

/-- The conversion `int(x)` of a floating-point value: truncation toward zero (for a
value within the range of `int`). -/
def toInt (x : Flt) : Int :=
  if x.neg then
    -(((if 0 ≤ x.e then x.m * 2 ^ x.e.toNat else x.m / 2 ^ (-x.e).toNat : Nat)) : Int)
  else
    (((if 0 ≤ x.e then x.m * 2 ^ x.e.toNat else x.m / 2 ^ (-x.e).toNat : Nat)) : Int)

/-- The expression `int(math.Ceil(x))` (for a value within the range of `int`). -/
def ceilInt (x : Flt) : Int :=
  if x.neg then
    -(((if 0 ≤ x.e then x.m * 2 ^ x.e.toNat else x.m / 2 ^ (-x.e).toNat : Nat)) : Int)
  else
    (((if 0 ≤ x.e then x.m * 2 ^ x.e.toNat
      else (x.m + 2 ^ (-x.e).toNat - 1) / 2 ^ (-x.e).toNat : Nat)) : Int)

/-- The constant `math.E` as a `float64`: the double nearest to
2.71828182845904523536028747135266249775724709369995957496696763. -/
def mathE : Flt := ⟨false, 6121026514868073, -51⟩

/-- The function `dimensions(epsilon, delta)`; `logF` stands for the library function
`math.Log`. -/
def dimensions (logF : Flt → Flt) (epsilon delta : Flt) : Int × Int :=
  (ceilInt (logF (div64 ⟨false, 1, 0⟩ delta)), ceilInt (div64 mathE epsilon))

/-- The comparison `x <= 0` of a floating-point value. -/
def Flt.lez (x : Flt) : Bool :=
  x.neg || x.m == 0

/-- The comparison `x >= 1` of a floating-point value. -/
def Flt.ge1 (x : Flt) : Bool :=
  !x.neg && (if 0 ≤ x.e then 1 ≤ x.m else 2 ^ (-x.e).toNat ≤ x.m)

/-- The constructor `NewWithEstimates(epsilon, delta)`. -/
def NewWithEstimates (logF : Flt → Flt) (mkSeed : Nat → Seed) (epsilon delta : Flt) :
    Except String CMS :=
  if epsilon.lez ∨ epsilon.ge1 then
    Except.error "CMS: epsilon must be in range of (0, 1)"
  else if delta.lez ∨ delta.ge1 then
    Except.error "CMS: delta must be in range of (0, 1)"
  else
    New mkSeed (dimensions logF epsilon delta).1 (dimensions logF epsilon delta).2

/-- The value `epsilon / 2`, exact in binary floating point. -/
def Flt.half (x : Flt) : Flt := ⟨x.neg, x.m, x.e - 1⟩

/-! ### Scenario parameters of `main` -/

/-- The slice `failed_batches`: the `float32` values of `1 / 3.0`, `0.5`, `2 / 3.0`. -/
def failed_batches : List Flt :=
  [fltRound 24 false 1 3, fltRound 24 false 1 2, fltRound 24 false 2 3]

/-- The slice `failed_items`: the `float32` values of `0.1`, `0.5`, `0.9`. -/
def failed_items : List Flt :=
  [fltRound 24 false 1 10, fltRound 24 false 1 2, fltRound 24 false 9 10]

/-- The assignments `q := N / B; t := int(float32(q) * fb); Nt := t * B`. -/
def NtOf (N B : Int) (fb : Flt) : Int :=
  wrap64 (toInt (mul32 (float32 (Int.tdiv N B)) fb) * B)

/-- The assignment `Ni := Nt + int(float32(B) * fi)`. -/
def NiOf (Nt B : Int) (fi : Flt) : Int :=
  wrap64 (Nt + toInt (mul32 (float32 B) fi))

/-- The pairs `(Nt, Ni)` of the scenario sequence, in the order of the two nested
loops of `main` (`B` non-zero). -/
def scenarios (N B : Int) : List (Int × Int) :=
  failed_batches.flatMap
    (fun fb => failed_items.map (fun fi => (NtOf N B fb, NiOf (NtOf N B fb) B fi)))

/-! ### The simulation pass of `main`

The input file is the list of its lines, in the order `bufio.Scanner` returns them.
The `float64` accumulators `rec_cms`, `rec_true`, `cms_true` and `hist_true` are
quotients of the integers computed per flow; a row of the model records those
integers, and `cms_true` and `cms_true_written` compute the accumulator `cms_true` and
the value written for it from the row.  The replay loops are given twice: run on the
remaining lines (`replayHist`, `replayCurr`) and pass by pass (`histPasses`,
`currPasses`); `replayHist_passes` and `replayCurr_passes` relate the two. -/

/-- The predicate `unicode.IsSpace`. -/
def isSpace (c : Char) : Bool :=
  c.toNat == 9 || c.toNat == 10 || c.toNat == 11 || c.toNat == 12 || c.toNat == 13 ||
  c.toNat == 32 || c.toNat == 133 || c.toNat == 160 || c.toNat == 5760 ||
  (decide (8192 ≤ c.toNat) && decide (c.toNat ≤ 8202)) || c.toNat == 8232 ||
  c.toNat == 8233 || c.toNat == 8239 || c.toNat == 8287 || c.toNat == 12288

/-- The test `len(strings.TrimSpace(id)) > 0`. -/
def nonBlank (id : String) : Bool :=
  id.data.any (fun c => !isSpace c)

/-- A `map[string]int`, as the list of its entries (in an arbitrary order). -/
abbrev FlowMap := List (String × Int)

/-- The statement `m[id]++`. -/
def incr : FlowMap → String → FlowMap
  | [], id => [(id, 1)]
  | (k, v) :: m, id => if k = id then (k, wrap64 (v + 1)) :: m else (k, v) :: incr m id

/-- The integers computed for one flow `x` in the `EVALUATE ERROR` loop. -/
structure FlowEval where
  x : String
  c_x : Int
  history_c_x : Int
  hat_c_x : Int
  recovery_c_x : Int
deriving DecidableEq

/-- One row handed to the CSV writer, with the per-flow integers behind its means. -/
structure Row where
  N : Int
  n : Int
  Nt : Int
  Ni : Int
  flows : List FlowEval
deriving DecidableEq

/-- Whether the pass is still executing statements. -/
inductive Status where
  | running
  | spinning
  | crashed
deriving DecidableEq

/-- The variables of the simulation pass.  `rest` holds the lines the scanner has not
returned yet and `out` the rows written so far.  `status` is `spinning` once a replay
loop has found the scanner exhausted (`scanner.Scan()` is false from then on and the
loop never exits) and `crashed` after a run-time panic.  `cms_curr` is declared inside
the outer loop; its value in the initial state is never read. -/
structure Sim where
  item_idx : Int
  flow_map : FlowMap
  curr_map : FlowMap
  cms_hist : CMS
  cms_curr : CMS
  rest : List String
  out : List Row
  status : Status

/-- The loop `for item_idx < Nt` (fill the CMS up to the latest backup), run on the
lines `rest`. -/
def replayHist (H : Seed → String → Nat) (Nt : Int) : List String → Sim → Sim
  | [], st =>
    if st.item_idx < Nt then { st with rest := [], status := Status.spinning }
    else { st with rest := [] }
  | id :: tl, st =>
    if st.item_idx < Nt then
      if nonBlank id then
        replayHist H Nt tl
          { st with
            flow_map := incr st.flow_map id
            cms_hist := Update H st.cms_hist id 1
            item_idx := wrap64 (st.item_idx + 1) }
      else replayHist H Nt tl st
    else { st with rest := id :: tl }

/-- The loop `for item_idx < Ni` (this is a failed batch), run on the lines `rest`. -/
def replayCurr (H : Seed → String → Nat) (Ni : Int) : List String → Sim → Sim
  | [], st =>
    if st.item_idx < Ni then { st with rest := [], status := Status.spinning }
    else { st with rest := [] }
  | id :: tl, st =>
    if st.item_idx < Ni then
      if nonBlank id then
        replayCurr H Ni tl
          { st with
            flow_map := incr st.flow_map id
            curr_map := incr st.curr_map id
            cms_curr := Update H st.cms_curr id 1
            item_idx := wrap64 (st.item_idx + 1) }
      else replayCurr H Ni tl st
    else { st with rest := id :: tl }

/-- One test of the condition of the loop `for item_idx < Nt` followed by one pass
through its body: `none` when the condition is false and the loop is left.  At the end
of the input `scanner.Scan()` is false and the pass changes nothing. -/
def histPass (H : Seed → String → Nat) (Nt : Int) (st : Sim) : Option Sim :=
  if st.item_idx < Nt then
    match st.rest with
    | [] => some st
    | id :: tl =>
      if nonBlank id then
        some { st with
          flow_map := incr st.flow_map id
          cms_hist := Update H st.cms_hist id 1
          item_idx := wrap64 (st.item_idx + 1)
          rest := tl }
      else some { st with rest := tl }
  else none

/-- The state after `k` passes through the loop `for item_idx < Nt`; `none` when the
loop is left before. -/
def histPasses (H : Seed → String → Nat) (Nt : Int) : Nat → Sim → Option Sim
  | 0, st => some st
  | k + 1, st => (histPass H Nt st).bind (histPasses H Nt k)

/-- One test of the condition of the loop `for item_idx < Ni` followed by one pass
through its body: `none` when the condition is false and the loop is left.  At the end
of the input `scanner.Scan()` is false and the pass changes nothing. -/
def currPass (H : Seed → String → Nat) (Ni : Int) (st : Sim) : Option Sim :=
  if st.item_idx < Ni then
    match st.rest with
    | [] => some st
    | id :: tl =>
      if nonBlank id then
        some { st with
          flow_map := incr st.flow_map id
          curr_map := incr st.curr_map id
          cms_curr := Update H st.cms_curr id 1
          item_idx := wrap64 (st.item_idx + 1)
          rest := tl }
      else some { st with rest := tl }
  else none

/-- The state after `k` passes through the loop `for item_idx < Ni`; `none` when the
loop is left before. -/
def currPasses (H : Seed → String → Nat) (Ni : Int) : Nat → Sim → Option Sim
  | 0, st => some st
  | k + 1, st => (currPass H Ni st).bind (currPasses H Ni k)

/-- The body of the loop `for x, c_x := range flow_map`, integers only. -/
def evalFlow (H : Seed → String → Nat) (B : Int) (st : Sim) (e : String × Int) : FlowEval :=
  { x := e.1
    c_x := e.2
    history_c_x := Estimate H st.cms_hist e.1
    hat_c_x := wrap64 (Estimate H st.cms_hist e.1 + Estimate H st.cms_curr e.1)
    recovery_c_x := wrap64 (Estimate H st.cms_hist e.1 + B) }

/-- The block `EVALUATE ERROR` with the row it writes. -/
def evaluate (H : Seed → String → Nat) (N B Nt Ni : Int) (st : Sim) : Row :=
  { N := N
    n := st.flow_map.foldl (fun n _ => wrap64 (n + 1)) 0
    Nt := Nt
    Ni := Ni
    flows := st.flow_map.map (evalFlow H B st) }

/-- The term `float64(hat_c_x-c_x) / float64(c_x)` a flow adds to the accumulator
`cms_true` (for `c_x ≠ 0`). -/
def cms_true_term (f : FlowEval) : Flt :=
  div64 (float64 (wrap64 (f.hat_c_x - f.c_x))) (float64 f.c_x)

/-- The accumulator `cms_true` after the loop over the flows of a row, from `0.0`, the
flows taken in the order of the row. -/
def cms_true (r : Row) : Flt :=
  r.flows.foldl (fun acc f => add64 acc (cms_true_term f)) ⟨false, 0, 0⟩

/-- The quotient `cms_true / flows` written to the row, where `flows := float64(n)`;
`none` when `flows` is zero, where the quotient is not a finite number (`0.0 / 0.0` is
NaN). -/
def cms_true_written (r : Row) : Option Flt :=
  if (float64 r.n).m = 0 then none else some (div64 (cms_true r) (float64 r.n))

/-- One iteration of the loop `for _, fi := range failed_items`. -/
def innerStep (H : Seed → String → Nat) (N B Nt : Int) (st : Sim) (fi : Flt) : Sim :=
  if st.status ≠ Status.running then st
  else if (replayCurr H (NiOf Nt B fi) st.rest st).status ≠ Status.running then
    replayCurr H (NiOf Nt B fi) st.rest st
  else
    { replayCurr H (NiOf Nt B fi) st.rest st with
      out := (replayCurr H (NiOf Nt B fi) st.rest st).out ++
        [evaluate H N B Nt (NiOf Nt B fi) (replayCurr H (NiOf Nt B fi) st.rest st)] }

/-- The statements `cms_curr, _ := New(depth, width); cms_curr.CopySeeds(cms_hist)`;
a failed `New` leaves a nil sketch, whose use panics. -/
def newCurr (mkSeed : Nat → Seed) (st : Sim) : Sim :=
  match New mkSeed (st.cms_hist.d : Int) (st.cms_hist.w : Int) with
  | Except.ok c => { st with cms_curr := CopySeeds c st.cms_hist }
  | Except.error _ => { st with status := Status.crashed }

/-- The statements after the inner loop: `cms_hist.Merge(cms_curr)`,
`cms_curr.Clear()` and the deletion of every key of `curr_map`. -/
def catchUp (st : Sim) : Sim :=
  if st.status ≠ Status.running then st
  else
    { st with
      cms_hist := (Merge st.cms_hist st.cms_curr).1.1
      cms_curr := Clear (Merge st.cms_hist st.cms_curr).1.2
      curr_map := [] }

/-- One iteration of the loop `for _, fb := range failed_batches`; `mkCurr fb` gives the
seeds `New` draws in this iteration. -/
def outerStep (H : Seed → String → Nat) (mkCurr : Flt → Nat → Seed) (N B : Int)
    (st : Sim) (fb : Flt) : Sim :=
  if st.status ≠ Status.running then st
  else if (replayHist H (NtOf N B fb) st.rest st).status ≠ Status.running then
    replayHist H (NtOf N B fb) st.rest st
  else
    catchUp (failed_items.foldl (innerStep H N B (NtOf N B fb))
      (newCurr (mkCurr fb) (replayHist H (NtOf N B fb) st.rest st)))

/-- The statements after the outer loop: the deletion of every key of `flow_map`. -/
def finish (st : Sim) : Sim :=
  if st.status ≠ Status.running then st else { st with flow_map := [] }

/-- The number `N` of non-empty lines found by the first pass. -/
def countItems (lines : List String) : Int :=
  ((lines.filter nonBlank).length : Int)

/-- The simulation pass of `main` for batch size `B` on the file `lines`, with
`cms_hist` the sketch `NewWithEstimates` returned.  No row is written for an empty
file (`N == 0`), and `q := N / B` panics for `B == 0`. -/
def simulate (H : Seed → String → Nat) (mkCurr : Flt → Nat → Seed) (cms_hist : CMS)
    (lines : List String) (B : Int) : Sim :=
  if countItems lines = 0 then
    { item_idx := 0, flow_map := [], curr_map := [], cms_hist := cms_hist,
      cms_curr := cms_hist, rest := lines, out := [], status := Status.running }
  else if B = 0 then
    { item_idx := 0, flow_map := [], curr_map := [], cms_hist := cms_hist,
      cms_curr := cms_hist, rest := lines, out := [], status := Status.crashed }
  else
    finish (failed_batches.foldl (outerStep H mkCurr (countItems lines) B)
      { item_idx := 0, flow_map := [], curr_map := [], cms_hist := cms_hist,
        cms_curr := cms_hist, rest := lines, out := [], status := Status.running })

/-- The number of occurrences of `x` among the items `l`. -/
def occ (l : List String) (x : String) : Int :=
  ((l.filter (fun y => y = x)).length : Int)

/-- The exact frequency map of the items `l`: one entry per distinct item, holding its
number of occurrences. -/
def IsFreqMap (m : FlowMap) (l : List String) : Prop :=
  (m.map (fun e => e.1)).Nodup ∧ (∀ e ∈ m, e.2 = occ l e.1 ∧ 1 ≤ e.2) ∧
    ∀ x ∈ l, x ∈ m.map (fun e => e.1)

/-- The updates `Update(x, 1)` for the items `l`, in order. -/
def unitUpdates (l : List String) : List (String × Int) :=
  l.map (fun x => (x, 1))

/-- The state of the pass after the items `hist ++ cur` were read, `hist` into
`cms_hist` and `cur` into `cms_curr`, with the lines `rest` still to be read;
`cms0` is the sketch `cms_hist` started as, `items` the non-empty lines of the file
and `N` their number. -/
def Core (H : Seed → String → Nat) (cms0 : CMS) (N : Int) (items : List String) (st : Sim)
    (hist cur rest : List String) : Prop :=
  st.cms_hist = applyUpdates H cms0 (unitUpdates hist) ∧
  st.cms_curr = applyUpdates H cms0 (unitUpdates cur) ∧
  IsFreqMap st.flow_map (hist ++ cur) ∧
  st.item_idx = ((hist ++ cur).length : Int) ∧
  (((hist ++ cur).length + (rest.filter nonBlank).length : Nat) : Int) = N ∧
  (hist ++ cur) ++ rest.filter nonBlank = items

/-- A zero-collision configuration of the sketch `cms` for the items of a stream: in
every row, distinct identifiers of the stream hash to distinct columns. -/
def ZeroCollision (H : Seed → String → Nat) (cms : CMS) (items : List String) : Prop :=
  ∀ i, i < cms.d → ∀ x ∈ items, ∀ y ∈ items, x ≠ y → hash H cms x i ≠ hash H cms y i

/-- The estimate at the crash of every flow of a row is its true count. -/
def RowExact (r : Row) : Prop :=
  ∀ f ∈ r.flows, f.hat_c_x = f.c_x

/-- What the properties of the evaluator say about one row. -/
def RowOK (N B : Int) (r : Row) : Prop :=
  ∀ f ∈ r.flows, 1 ≤ f.c_x ∧ 1 ≤ f.hat_c_x ∧ f.c_x ≤ f.hat_c_x ∧
    (1 ≤ B → B ≤ MaxInt → 4 * N ≤ MaxInt →
      f.recovery_c_x = f.history_c_x + B ∧ f.c_x ≤ f.recovery_c_x)

/-- The bounds that hold inside the iteration of the outer loop with checkpoint `Nt`,
for a batch size `B ≥ 1`. -/
def BatchOK (N B Nt : Int) (st : Sim) (hist : List String) : Prop :=
  1 ≤ B → B ≤ MaxInt →
    Nt ≤ (hist.length : Int) ∧ st.item_idx ≤ (hist.length : Int) + B ∧
      (hist = [] ∨ B ≤ 3 * N)

/-- The true counts of a row are the exact frequency map of the first `k` items of the
file, for a `k` at or past the crash index `Ni` of the row, and `n` is the number of
flows. -/
def RowTruth (N : Int) (items : List String) (r : Row) : Prop :=
  ∃ k : Nat, r.Ni ≤ (k : Int) ∧ (k : Int) ≤ N ∧
    IsFreqMap (r.flows.map (fun f => (f.x, f.c_x))) (items.take k) ∧
    r.n = (r.flows.length : Int)

/-- What the state at an Evaluate phase guarantees for the row written there: `P`
holds of every row evaluated in a state that read `hist` into `cms_hist` and `cur`
into `cms_curr`, with the cursor at or past the crash index `Ni` and, for a batch size
`B ≥ 1`, at most `B` items in `cur`. -/
def EvalSound (H : Seed → String → Nat) (cms0 : CMS) (N B : Int) (items : List String)
    (P : Row → Prop) : Prop :=
  ∀ (st : Sim) (hist cur rest : List String) (Nt Ni : Int),
    Core H cms0 N items st hist cur rest →
    (1 ≤ B → B ≤ MaxInt → (cur.length : Int) ≤ B ∧ (hist = [] ∨ B ≤ 3 * N)) →
    Ni ≤ st.item_idx →
    P (evaluate H N B Nt Ni st)

/-- The invariant of the loop over `failed_items`; `P` is a property of rows. -/
def InnerInv (H : Seed → String → Nat) (cms0 : CMS) (N B Nt : Int) (items : List String)
    (P : Row → Prop) (st : Sim) : Prop :=
  (∀ r ∈ st.out, P r) ∧
    ∃ hist cur, Core H cms0 N items st hist cur st.rest ∧ BatchOK N B Nt st hist

/-- The invariant of the loop over `failed_batches`; `P` is a property of rows. -/
def OuterInv (H : Seed → String → Nat) (cms0 : CMS) (N B : Int) (items : List String)
    (P : Row → Prop) (st : Sim) : Prop :=
  (∀ r ∈ st.out, P r) ∧
    (st.status = Status.running →
      ∃ hist, Core H cms0 N items st hist [] st.rest ∧
        (1 ≤ B → B ≤ MaxInt → (hist = [] ∨ B ≤ 3 * N)))

/-! ## Theorems -/

theorem failed_batches_eq :
    failed_batches = [⟨false, 11184811, -25⟩, ⟨false, 8388608, -24⟩, ⟨false, 11184811, -24⟩] := by
  decide

theorem failed_items_eq :
    failed_items = [⟨false, 13421773, -27⟩, ⟨false, 8388608, -24⟩, ⟨false, 15099494, -24⟩] := by
  decide

set_option maxRecDepth 100000 in
set_option exponentiation.threshold 1000 in
theorem mathE_eq :
    fltRound 53 false 271828182845904523536028747135266249775724709369995957496696763
      100000000000000000000000000000000000000000000000000000000000000 = mathE := by
  decide

theorem wrap64_add_wrap64 (x y : Int) : wrap64 (wrap64 x + y) = wrap64 (x + y) := by
  unfold wrap64
  have h : (x + 9223372036854775808) % 18446744073709551616 - 9223372036854775808 + y
      + 9223372036854775808 = (x + 9223372036854775808) % 18446744073709551616 + y := by ring
  rw [h, Int.emod_add_emod]
  congr 2
  ring

theorem wrap64_add_wrap64_right (x y : Int) : wrap64 (x + wrap64 y) = wrap64 (x + y) := by
  rw [add_comm, wrap64_add_wrap64, add_comm]

theorem wrap64_of_range (x : Int) (h0 : MinInt ≤ x) (h1 : x ≤ MaxInt) : wrap64 x = x := by
  unfold wrap64
  unfold MinInt at h0
  unfold MaxInt at h1
  rw [Int.emod_eq_of_lt (by omega) (by omega)]
  omega

theorem wrap64_zero : wrap64 0 = 0 := by decide

/-! ### Counter matrices -/

theorem shape_row {M : List (List Int)} {d w : Nat} (h : Shape M d w) {i : Nat}
    (hi : i < d) : ∃ r, M[i]? = some r ∧ r.length = w := by
  have hl : i < M.length := by rw [h.1]; exact hi
  exact ⟨M[i], List.getElem?_eq_getElem hl, h.2 _ (List.getElem_mem hl)⟩

theorem cell_of_row {M : List (List Int)} {i : Nat} {r : List Int} (hr : M[i]? = some r)
    (j : Nat) : cell M i j = r.getD j 0 := by
  simp [cell, List.getD_eq_getElem?_getD, hr]

theorem shape_ext {M M' : List (List Int)} {d w : Nat} (h : Shape M d w)
    (h' : Shape M' d w) (hc : ∀ i, i < d → ∀ j, j < w → cell M i j = cell M' i j) :
    M = M' := by
  apply List.ext_getElem (by rw [h.1, h'.1])
  intro i h1 h2
  have hi : i < d := by rw [← h.1]; exact h1
  have e1 : M[i]? = some M[i] := List.getElem?_eq_getElem h1
  have e2 : M'[i]? = some M'[i] := List.getElem?_eq_getElem h2
  have l1 : (M[i]).length = w := h.2 _ (List.getElem_mem h1)
  have l2 : (M'[i]).length = w := h'.2 _ (List.getElem_mem h2)
  apply List.ext_getElem (by rw [l1, l2])
  intro j g1 g2
  have hj : j < w := by rw [← l1]; exact g1
  have := hc i hi j hj
  rw [cell_of_row e1, cell_of_row e2] at this
  simpa [List.getD_eq_getElem?_getD, List.getElem?_eq_getElem g1,
    List.getElem?_eq_getElem g2] using this

theorem modCell_shape {M : List (List Int)} {d w : Nat} (h : Shape M d w) (i j : Nat)
    (f : Int → Int) : Shape (modCell M i j f) d w := by
  refine ⟨by simp [modCell, h.1], ?_⟩
  intro row hrow
  obtain ⟨n, hn⟩ := List.mem_iff_getElem?.mp hrow
  simp only [modCell, List.getElem?_modify] at hn
  cases hcn : M[n]? with
  | none => simp [hcn] at hn
  | some a =>
    have ha : a.length = w := h.2 _ (List.mem_iff_getElem?.mpr ⟨n, hcn⟩)
    simp only [hcn, Option.map_eq_map, Option.map_some', Option.some.injEq] at hn
    by_cases hin : i = n
    · simp only [hin, if_true] at hn
      rw [← hn, List.length_modify, ha]
    · simp only [hin, if_false] at hn
      rw [← hn, ha]

theorem getD_modify (l : List Int) (f : Int → Int) (j k : Nat) :
    (l.modify f j).getD k 0 = if j = k ∧ k < l.length then f (l.getD k 0) else l.getD k 0 := by
  simp only [List.getD_eq_getElem?_getD, List.getElem?_modify]
  by_cases hk : k < l.length
  · simp [List.getElem?_eq_getElem hk, hk]
  · simp [List.getElem?_eq_none (not_lt.mp hk), hk]

theorem cell_modCell {M : List (List Int)} {d w : Nat} (h : Shape M d w) (i j : Nat)
    (f : Int → Int) {i' j' : Nat} (hi : i' < d) (hj : j' < w) :
    cell (modCell M i j f) i' j' =
      if i = i' ∧ j = j' then f (cell M i' j') else cell M i' j' := by
  obtain ⟨r, hr, hlen⟩ := shape_row h hi
  have hm : (modCell M i j f)[i']? = some (if i = i' then r.modify f j else r) := by
    simp only [modCell, List.getElem?_modify, hr, Option.map_eq_map, Option.map_some']
  rw [cell_of_row hm, cell_of_row hr]
  by_cases hii : i = i'
  · simp only [hii, if_true, true_and, getD_modify, hlen, hj, and_true]
  · simp [hii]

theorem rowLoop_shape {M : List (List Int)} {d w : Nat} (h : Shape M d w)
    (col : Nat → Nat) (f : Nat → Int → Int) (n : Nat) :
    Shape ((List.range n).foldl (fun c i => modCell c i (col i) (f i)) M) d w := by
  induction n with
  | zero => simpa using h
  | succ n ih =>
    rw [List.range_succ, List.foldl_append]
    exact modCell_shape ih _ _ _

theorem rowLoop_cell {M : List (List Int)} {d w : Nat} (h : Shape M d w)
    (col : Nat → Nat) (f : Nat → Int → Int) (n : Nat) {i' j' : Nat} (hi : i' < d)
    (hj : j' < w) :
    cell ((List.range n).foldl (fun c i => modCell c i (col i) (f i)) M) i' j' =
      if i' < n ∧ col i' = j' then f i' (cell M i' j') else cell M i' j' := by
  induction n with
  | zero => simp
  | succ n ih =>
    rw [List.range_succ, List.foldl_append]
    simp only [List.foldl_cons, List.foldl_nil]
    rw [cell_modCell (rowLoop_shape h col f n) _ _ _ hi hj, ih]
    by_cases hn : n = i'
    · subst hn
      by_cases hc : col n = j'
      · simp [hc]
      · simp [hc]
    · have h1 : (i' < n + 1) ↔ (i' < n) := by omega
      simp only [hn, false_and, if_false, h1]

theorem colLoop_shape {M : List (List Int)} {d w : Nat} (h : Shape M d w)
    (i : Nat) (g : Nat → Int → Int) (n : Nat) :
    Shape ((List.range n).foldl (fun c j => modCell c i j (g j)) M) d w := by
  induction n with
  | zero => simpa using h
  | succ n ih =>
    rw [List.range_succ, List.foldl_append]
    exact modCell_shape ih _ _ _

theorem colLoop_cell {M : List (List Int)} {d w : Nat} (h : Shape M d w)
    (i : Nat) (g : Nat → Int → Int) (n : Nat) {i' j' : Nat} (hi : i' < d) (hj : j' < w) :
    cell ((List.range n).foldl (fun c j => modCell c i j (g j)) M) i' j' =
      if i = i' ∧ j' < n then g j' (cell M i' j') else cell M i' j' := by
  induction n with
  | zero => simp
  | succ n ih =>
    rw [List.range_succ, List.foldl_append]
    simp only [List.foldl_cons, List.foldl_nil]
    rw [cell_modCell (colLoop_shape h i g n) _ _ _ hi hj, ih]
    by_cases hii : i = i'
    · subst hii
      by_cases hn : n = j'
      · subst hn
        simp
      · have h1 : (j' < n + 1) ↔ (j' < n) := by omega
        simp only [hn, and_false, if_false, h1]
    · simp [hii]

theorem matLoop_shape {M : List (List Int)} {d w : Nat} (h : Shape M d w)
    (g : Nat → Nat → Int → Int) (m n : Nat) :
    Shape ((List.range n).foldl
      (fun c i => (List.range m).foldl (fun c j => modCell c i j (g i j)) c) M) d w := by
  induction n with
  | zero => simpa using h
  | succ n ih =>
    rw [List.range_succ, List.foldl_append]
    exact colLoop_shape ih _ _ _

theorem matLoop_cell {M : List (List Int)} {d w : Nat} (h : Shape M d w)
    (g : Nat → Nat → Int → Int) (n : Nat) {i' j' : Nat} (hi : i' < d) (hj : j' < w) :
    cell ((List.range n).foldl
      (fun c i => (List.range w).foldl (fun c j => modCell c i j (g i j)) c) M) i' j' =
      if i' < n then g i' j' (cell M i' j') else cell M i' j' := by
  induction n with
  | zero => simp
  | succ n ih =>
    rw [List.range_succ, List.foldl_append]
    simp only [List.foldl_cons, List.foldl_nil]
    rw [colLoop_cell (matLoop_shape h g w n) _ _ _ hi hj, ih]
    by_cases hn : n = i'
    · subst hn
      simp [hj]
    · have h1 : (i' < n + 1) ↔ (i' < n) := by omega
      simp only [hn, false_and, if_false, h1]

/-! ### The sketch operations -/

theorem CMS_eq {a b : CMS} (hd : a.d = b.d) (hw : a.w = b.w) (hc : a.count = b.count)
    (hs : a.seeds = b.seeds) : a = b := by
  cases a
  cases b
  simp only [CMS.mk.injEq]
  exact ⟨hd, hw, hc, hs⟩

theorem WF_shape {cms : CMS} (h : cms.WF) : Shape cms.count cms.d cms.w :=
  ⟨h.1, h.2.1⟩

theorem replicate_shape (d w : Nat) :
    Shape (List.replicate d (List.replicate w (0 : Int))) d w := by
  refine ⟨by simp, ?_⟩
  intro row hrow
  rw [(List.mem_replicate.mp hrow).2]
  simp

theorem cell_replicate (d w : Nat) {i j : Nat} (hi : i < d) (hj : j < w) :
    cell (List.replicate d (List.replicate w (0 : Int))) i j = 0 := by
  have hr : (List.replicate d (List.replicate w (0 : Int)))[i]? =
      some (List.replicate w (0 : Int)) := by
    simp [List.getElem?_replicate, hi]
  rw [cell_of_row hr]
  simp [List.getD_eq_getElem?_getD, List.getElem?_replicate, hj]

theorem New_ok (mk : Nat → Seed) {d w : Int} (hd : 0 < d) (hw : 0 < w) :
    New mk d w = Except.ok
      { d := d.toNat
        w := w.toNat
        count := List.replicate d.toNat (List.replicate w.toNat 0)
        seeds := (List.range d.toNat).map mk } := by
  unfold New
  rw [if_neg (by omega)]

theorem New_inv {mk : Nat → Seed} {d w : Int} {cms : CMS}
    (h : New mk d w = Except.ok cms) :
    0 < d ∧ 0 < w ∧ cms.d = d.toNat ∧ cms.w = w.toNat ∧
      cms.count = List.replicate d.toNat (List.replicate w.toNat 0) ∧
      cms.seeds = (List.range d.toNat).map mk := by
  unfold New at h
  by_cases hdw : d ≤ 0 ∨ w ≤ 0
  · rw [if_pos hdw] at h
    cases h
  · rw [if_neg hdw] at h
    injection h with h
    subst h
    exact ⟨by omega, by omega, rfl, rfl, rfl, rfl⟩

theorem New_WF {mk : Nat → Seed} {d w : Int} {cms : CMS}
    (h : New mk d w = Except.ok cms) : cms.WF := by
  obtain ⟨_, _, hd, hw, hc, hs⟩ := New_inv h
  refine ⟨?_, ?_, ?_⟩
  · rw [hc, hd]; simp
  · rw [hc, hw]; exact (replicate_shape _ _).2
  · rw [hs, hd]; simp

theorem Update_WF {H : Seed → String → Nat} {cms : CMS} (h : cms.WF) (key : String)
    (cnt : Int) : (Update H cms key cnt).WF := by
  have hs := rowLoop_shape (WF_shape h) (fun i => hash H cms key i)
    (fun _ v => wrap64 (v + cnt)) cms.d
  exact ⟨hs.1, hs.2, h.2.2⟩

theorem Update_cell {H : Seed → String → Nat} {cms : CMS} (h : cms.WF) (key : String)
    (cnt : Int) {i j : Nat} (hi : i < cms.d) (hj : j < cms.w) :
    cell (Update H cms key cnt).count i j =
      if hash H cms key i = j then wrap64 (cell cms.count i j + cnt)
      else cell cms.count i j := by
  have := rowLoop_cell (WF_shape h) (fun i => hash H cms key i)
    (fun _ v => wrap64 (v + cnt)) cms.d hi hj
  simp only [hi, true_and] at this
  exact this

theorem applyUpdates_d (H : Seed → String → Nat) (cms : CMS) (us : List (String × Int)) :
    (applyUpdates H cms us).d = cms.d := by
  induction us generalizing cms with
  | nil => rfl
  | cons u us ih => exact (ih (Update H cms u.1 u.2)).trans rfl

theorem applyUpdates_w (H : Seed → String → Nat) (cms : CMS) (us : List (String × Int)) :
    (applyUpdates H cms us).w = cms.w := by
  induction us generalizing cms with
  | nil => rfl
  | cons u us ih => exact (ih (Update H cms u.1 u.2)).trans rfl

theorem applyUpdates_seeds (H : Seed → String → Nat) (cms : CMS)
    (us : List (String × Int)) : (applyUpdates H cms us).seeds = cms.seeds := by
  induction us generalizing cms with
  | nil => rfl
  | cons u us ih => exact (ih (Update H cms u.1 u.2)).trans rfl

theorem applyUpdates_WF {H : Seed → String → Nat} {cms : CMS} (h : cms.WF)
    (us : List (String × Int)) : (applyUpdates H cms us).WF := by
  induction us generalizing cms with
  | nil => exact h
  | cons u us ih => exact ih (Update_WF h u.1 u.2)

theorem load_cons (H : Seed → String → Nat) (seeds : List Seed) (w : Nat)
    (u : String × Int) (us : List (String × Int)) (i j : Nat) :
    load H seeds w (u :: us) i j =
      (if H (seeds.getD i 0) u.1 % w = j then u.2 else 0) + load H seeds w us i j := by
  unfold load
  generalize seeds.getD i 0 = sd
  by_cases hu : H sd u.1 % w = j
  · simp [List.filter_cons, hu]
  · simp [List.filter_cons, hu]

theorem applyUpdates_cell {H : Seed → String → Nat} {cms : CMS} (h : cms.WF)
    (us : List (String × Int)) {i j : Nat} (hi : i < cms.d) (hj : j < cms.w) (x : Int)
    (hx : cell cms.count i j = wrap64 x) :
    cell (applyUpdates H cms us).count i j =
      wrap64 (x + load H cms.seeds cms.w us i j) := by
  induction us generalizing cms x with
  | nil => simpa [applyUpdates, load] using hx
  | cons u us ih =>
    have hstep : cell (Update H cms u.1 u.2).count i j =
        wrap64 (x + (if H (cms.seeds.getD i 0) u.1 % cms.w = j then u.2 else 0)) := by
      rw [Update_cell h u.1 u.2 hi hj, hx]
      unfold hash
      by_cases hu : H (cms.seeds.getD i 0) u.1 % cms.w = j
      · simp only [hu, if_true, wrap64_add_wrap64]
      · simp only [hu, if_false, add_zero]
    have := ih (Update_WF h u.1 u.2) hi hj _ hstep
    rw [load_cons, ← add_assoc]
    exact this

theorem minLoop_ge (v : Nat → Int) (n : Nat) (m0 x : Int) (h0 : x ≤ m0)
    (hv : ∀ i, i < n → x ≤ v i) :
    x ≤ (List.range n).foldl (fun min i => if v i < min then v i else min) m0 := by
  induction n with
  | zero => simpa using h0
  | succ n ih =>
    rw [List.range_succ, List.foldl_append]
    simp only [List.foldl_cons, List.foldl_nil]
    have h1 := ih (fun i hi => hv i (by omega))
    have h2 := hv n (by omega)
    split
    · exact h2
    · exact h1

theorem minLoop_le_init (v : Nat → Int) (n : Nat) (m0 : Int) :
    (List.range n).foldl (fun min i => if v i < min then v i else min) m0 ≤ m0 := by
  induction n with
  | zero => simp
  | succ n ih =>
    rw [List.range_succ, List.foldl_append]
    simp only [List.foldl_cons, List.foldl_nil]
    split
    · omega
    · exact ih

theorem minLoop_le_val (v : Nat → Int) (n : Nat) (m0 : Int) {i : Nat} (hi : i < n) :
    (List.range n).foldl (fun min i => if v i < min then v i else min) m0 ≤ v i := by
  induction n with
  | zero => omega
  | succ n ih =>
    rw [List.range_succ, List.foldl_append]
    simp only [List.foldl_cons, List.foldl_nil]
    by_cases hn : i = n
    · subst hn
      split
      · exact le_refl _
      · omega
    · have := ih (by omega)
      split
      · omega
      · exact this

theorem Estimate_ge (H : Seed → String → Nat) (cms : CMS) (key : String) (x : Int)
    (h0 : x ≤ MaxInt) (hv : ∀ i, i < cms.d → x ≤ cell cms.count i (hash H cms key i)) :
    x ≤ Estimate H cms key :=
  minLoop_ge (fun i => cell cms.count i (hash H cms key i)) cms.d MaxInt x h0 hv

theorem Estimate_le_MaxInt (H : Seed → String → Nat) (cms : CMS) (key : String) :
    Estimate H cms key ≤ MaxInt :=
  minLoop_le_init (fun i => cell cms.count i (hash H cms key i)) cms.d MaxInt

theorem Estimate_le_cell (H : Seed → String → Nat) (cms : CMS) (key : String) {i : Nat}
    (hi : i < cms.d) : Estimate H cms key ≤ cell cms.count i (hash H cms key i) :=
  minLoop_le_val (fun i => cell cms.count i (hash H cms key i)) cms.d MaxInt hi

theorem hash_lt (H : Seed → String → Nat) (cms : CMS) (key : String) (row : Nat)
    (hw : 0 < cms.w) : hash H cms key row < cms.w :=
  Nat.mod_lt _ hw

theorem Merge_eq {curr other : CMS} (hd : curr.d = other.d) (hw : curr.w = other.w) :
    Merge curr other =
      (({ curr with
          count := (List.range curr.d).foldl
            (fun c i => (List.range curr.w).foldl
              (fun c j => modCell c i j (fun v => wrap64 (v + cell other.count i j))) c)
            curr.count }, other), none) := by
  unfold Merge
  rw [if_neg (by simp [hd, hw])]

theorem Merge_err {curr other : CMS} (h : curr.d ≠ other.d ∨ curr.w ≠ other.w) :
    Merge curr other = ((curr, other), some "CMS: matrix dimensions must match") := by
  unfold Merge
  rw [if_pos h]

theorem Merge_WF {curr other : CMS} (h : curr.WF) : (Merge curr other).1.1.WF := by
  by_cases hdw : curr.d ≠ other.d ∨ curr.w ≠ other.w
  · rw [Merge_err hdw]
    exact h
  · have hd : curr.d = other.d := by
      by_contra hne
      exact hdw (Or.inl hne)
    have hw : curr.w = other.w := by
      by_contra hne
      exact hdw (Or.inr hne)
    rw [Merge_eq hd hw]
    have hs := matLoop_shape (WF_shape h)
      (fun i j v => wrap64 (v + cell other.count i j)) curr.w curr.d
    exact ⟨hs.1, hs.2, h.2.2⟩

theorem Merge_cell {curr other : CMS} (h : curr.WF) (hd : curr.d = other.d)
    (hw : curr.w = other.w) {i j : Nat} (hi : i < curr.d) (hj : j < curr.w) :
    cell (Merge curr other).1.1.count i j =
      wrap64 (cell curr.count i j + cell other.count i j) := by
  rw [Merge_eq hd hw]
  have := matLoop_cell (WF_shape h)
    (fun i j v => wrap64 (v + cell other.count i j)) curr.d hi hj
  simp only [hi, if_true] at this
  exact this

theorem Clear_count {cms : CMS} (h : cms.WF) :
    (Clear cms).count = List.replicate cms.d (List.replicate cms.w 0) := by
  have hs := matLoop_shape (WF_shape h) (fun _ _ _ => (0 : Int)) cms.w cms.d
  apply shape_ext hs (replicate_shape _ _)
  intro i hi j hj
  have := matLoop_cell (WF_shape h) (fun _ _ _ => (0 : Int)) cms.d hi hj
  simp only [hi, if_true] at this
  rw [cell_replicate _ _ hi hj]
  exact this

theorem seedLoop_length (o s : List Seed) (n : Nat) :
    ((List.range n).foldl
      (fun s i =>
        match o[i]? with
        | some x => s.set i x
        | none => s) s).length = s.length := by
  induction n with
  | zero => simp
  | succ n ih =>
    rw [List.range_succ, List.foldl_append]
    simp only [List.foldl_cons, List.foldl_nil]
    split
    · rw [List.length_set, ih]
    · exact ih

theorem seedLoop_getElem? (o s : List Seed) (hl : o.length = s.length) (n k : Nat) :
    ((List.range n).foldl
      (fun s i =>
        match o[i]? with
        | some x => s.set i x
        | none => s) s)[k]? = if k < n then o[k]? else s[k]? := by
  induction n with
  | zero => simp
  | succ n ih =>
    rw [List.range_succ, List.foldl_append]
    simp only [List.foldl_cons, List.foldl_nil]
    by_cases hn : n < o.length
    · have ho : o[n]? = some o[n] := List.getElem?_eq_getElem hn
      simp only [ho, List.getElem?_set, seedLoop_length]
      by_cases hk : n = k
      · subst hk
        simp [← hl, hn]
      · have h1 : (k < n + 1) ↔ (k < n) := by omega
        simp only [hk, if_false, h1]
        exact ih
    · have ho : o[n]? = none := List.getElem?_eq_none (not_lt.mp hn)
      simp only [ho]
      rw [ih]
      by_cases hk : n = k
      · subst hk
        have hs : s[n]? = none := List.getElem?_eq_none (by omega)
        simp [ho, hs]
      · have h1 : (k < n + 1) ↔ (k < n) := by omega
        simp only [h1]

theorem CopySeeds_seeds {curr other : CMS} (hc : curr.seeds.length = curr.d)
    (ho : other.seeds.length = curr.d) : (CopySeeds curr other).seeds = other.seeds := by
  unfold CopySeeds
  simp only
  apply List.ext_getElem?
  intro k
  rw [seedLoop_getElem? _ _ (by rw [hc, ho])]
  by_cases hk : k < curr.d
  · simp [hk]
  · simp only [hk, if_false]
    rw [List.getElem?_eq_none (by omega), List.getElem?_eq_none (by omega)]

/-! ### Bucket loads -/

theorem load_nonneg (H : Seed → String → Nat) (seeds : List Seed) (w : Nat)
    (us : List (String × Int)) (hnn : ∀ u ∈ us, 0 ≤ u.2) (i j : Nat) :
    0 ≤ load H seeds w us i j := by
  induction us with
  | nil => simp [load]
  | cons u us ih =>
    rw [load_cons]
    have h1 := ih (fun v hv => hnn v (List.mem_cons_of_mem _ hv))
    have h2 := hnn u (List.mem_cons_self _ _)
    split <;> omega

theorem load_le_allTotal (H : Seed → String → Nat) (seeds : List Seed) (w : Nat)
    (us : List (String × Int)) (hnn : ∀ u ∈ us, 0 ≤ u.2) (i j : Nat) :
    load H seeds w us i j ≤ allTotal us := by
  induction us with
  | nil => simp [load, allTotal]
  | cons u us ih =>
    rw [load_cons]
    have h1 := ih (fun v hv => hnn v (List.mem_cons_of_mem _ hv))
    have h2 := hnn u (List.mem_cons_self _ _)
    have h3 : allTotal (u :: us) = u.2 + allTotal us := by simp [allTotal]
    rw [h3]
    split <;> omega

theorem keyTotal_le_load (H : Seed → String → Nat) (seeds : List Seed) (w : Nat)
    (us : List (String × Int)) (hnn : ∀ u ∈ us, 0 ≤ u.2) (key : String) (i : Nat) :
    keyTotal us key ≤ load H seeds w us i (H (seeds.getD i 0) key % w) := by
  induction us with
  | nil => simp [load, keyTotal]
  | cons u us ih =>
    rw [load_cons]
    have h1 := ih (fun v hv => hnn v (List.mem_cons_of_mem _ hv))
    have h2 := hnn u (List.mem_cons_self _ _)
    have h3 : keyTotal (u :: us) key = (if u.1 = key then u.2 else 0) + keyTotal us key := by
      unfold keyTotal
      by_cases hk : u.1 = key
      · simp [List.filter_cons, hk]
      · simp [List.filter_cons, hk]
    rw [h3]
    by_cases hk : u.1 = key
    · rw [if_pos hk, if_pos (by rw [hk])]
      omega
    · rw [if_neg hk]
      split <;> omega

theorem load_append (H : Seed → String → Nat) (seeds : List Seed) (w : Nat)
    (us vs : List (String × Int)) (i j : Nat) :
    load H seeds w (us ++ vs) i j = load H seeds w us i j + load H seeds w vs i j := by
  simp [load, List.filter_append, List.sum_append]

theorem load_perm (H : Seed → String → Nat) (seeds : List Seed) (w : Nat)
    {us vs : List (String × Int)} (h : us.Perm vs) (i j : Nat) :
    load H seeds w us i j = load H seeds w vs i j := by
  unfold load
  exact ((h.filter _).map _).sum_eq

theorem fresh_cell {H : Seed → String → Nat} {mk : Nat → Seed} {d w : Int} {cms : CMS}
    (hnew : New mk d w = Except.ok cms) (us : List (String × Int)) {i j : Nat}
    (hi : i < cms.d) (hj : j < cms.w) :
    cell (applyUpdates H cms us).count i j = wrap64 (load H cms.seeds cms.w us i j) := by
  obtain ⟨_, _, hd, hw, hc, _⟩ := New_inv hnew
  have h0 : cell cms.count i j = wrap64 0 := by
    rw [hc, wrap64_zero]
    exact cell_replicate _ _ (by omega) (by omega)
  have := @applyUpdates_cell H cms (New_WF hnew) us i j hi hj 0 h0
  simpa using this

/-! ### Claims about the sketch -/

/-- C1 (as stated, refuted): on the sketch `New(1, 1)` the two calls
`Update("a", 9223372036854775807)` and `Update("a", 1)` have non-negative amounts
that sum to `9223372036854775808`, while `Estimate("a")` returns
`-9223372036854775808`: the Go `int` counter has wrapped around. -/
theorem C1_counterexample :
    ∃ cms, New (fun i => i) 1 1 = Except.ok cms ∧
      (∀ u ∈ [("a", (9223372036854775807 : Int)), ("a", 1)], 0 ≤ u.2) ∧
      keyTotal [("a", 9223372036854775807), ("a", 1)] "a" = 9223372036854775808 ∧
      Estimate (fun _ _ => 0)
        (applyUpdates (fun _ _ => 0) cms [("a", 9223372036854775807), ("a", 1)]) "a"
        = -9223372036854775808 ∧
      ¬ keyTotal [("a", 9223372036854775807), ("a", 1)] "a" ≤
        Estimate (fun _ _ => 0)
          (applyUpdates (fun _ _ => 0) cms [("a", 9223372036854775807), ("a", 1)]) "a" :=
  ⟨_, rfl, by decide, by decide, by decide, by decide⟩

theorem allTotal_cons (u : String × Int) (us : List (String × Int)) :
    allTotal (u :: us) = u.2 + allTotal us := by
  simp [allTotal]

theorem keyTotal_le_allTotal (us : List (String × Int)) (hnn : ∀ u ∈ us, 0 ≤ u.2)
    (key : String) : keyTotal us key ≤ allTotal us := by
  have h1 := keyTotal_le_load (fun _ _ => 0) [] 1 us hnn key 0
  have h2 := load_le_allTotal (fun _ _ => 0) [] 1 us hnn 0
    ((fun _ _ => 0) (([] : List Seed).getD 0 0) key % 1)
  exact le_trans h1 h2

theorem fresh_hash_cell {H : Seed → String → Nat} {mk : Nat → Seed} {d w : Int} {cms : CMS}
    (hnew : New mk d w = Except.ok cms) (us : List (String × Int))
    (hnn : ∀ u ∈ us, 0 ≤ u.2) (htot : allTotal us ≤ MaxInt) (key : String) {i : Nat}
    (hi : i < cms.d) :
    cell (applyUpdates H cms us).count i (hash H (applyUpdates H cms us) key i) =
      load H cms.seeds cms.w us i (H (cms.seeds.getD i 0) key % cms.w) := by
  have hwpos : 0 < cms.w := by
    rw [(New_inv hnew).2.2.2.1]
    have := (New_inv hnew).2.1
    omega
  have hh : hash H (applyUpdates H cms us) key i = H (cms.seeds.getD i 0) key % cms.w := by
    unfold hash
    rw [applyUpdates_seeds, applyUpdates_w]
  rw [hh, fresh_cell hnew us hi (Nat.mod_lt _ hwpos)]
  have h2 := load_le_allTotal H cms.seeds cms.w us hnn i (H (cms.seeds.getD i 0) key % cms.w)
  have h3 := load_nonneg H cms.seeds cms.w us hnn i (H (cms.seeds.getD i 0) key % cms.w)
  exact wrap64_of_range _ (by unfold MinInt; omega) (le_trans h2 htot)

theorem Estimate_ge_keyTotal {H : Seed → String → Nat} {mk : Nat → Seed} {d w : Int}
    {cms : CMS} (hnew : New mk d w = Except.ok cms) (us : List (String × Int))
    (hnn : ∀ u ∈ us, 0 ≤ u.2) (htot : allTotal us ≤ MaxInt) (key : String) :
    keyTotal us key ≤ Estimate H (applyUpdates H cms us) key := by
  apply Estimate_ge
  · exact le_trans (keyTotal_le_allTotal us hnn key) htot
  · intro i hi
    rw [applyUpdates_d] at hi
    rw [fresh_hash_cell hnew us hnn htot key hi]
    exact keyTotal_le_load H cms.seeds cms.w us hnn key i

theorem Estimate_le_allTotal {H : Seed → String → Nat} {mk : Nat → Seed} {d w : Int}
    {cms : CMS} (hnew : New mk d w = Except.ok cms) (us : List (String × Int))
    (hnn : ∀ u ∈ us, 0 ≤ u.2) (htot : allTotal us ≤ MaxInt) (key : String) :
    Estimate H (applyUpdates H cms us) key ≤ allTotal us := by
  have hd : 0 < cms.d := by
    rw [(New_inv hnew).2.2.1]
    have := (New_inv hnew).1
    omega
  have h1 := Estimate_le_cell H (applyUpdates H cms us) key
    (show 0 < (applyUpdates H cms us).d by rw [applyUpdates_d]; exact hd)
  rw [fresh_hash_cell hnew us hnn htot key hd] at h1
  exact le_trans h1 (load_le_allTotal H cms.seeds cms.w us hnn 0 _)

/-- C1 (amended): for every sketch created by `New(d, w)` with `d ≥ 1` and `w ≥ 1`,
every row-hash function and every sequence of `Update` calls with non-negative
amounts whose overall sum does not exceed `math.MaxInt`, `Estimate(k)` is at least
the sum of the amounts applied to `k`, for every key `k`. -/
theorem C1_estimate_never_undercounts (H : Seed → String → Nat) (mk : Nat → Seed)
    (d w : Int) (us : List (String × Int)) (key : String)
    (hd : 1 ≤ d) (hw : 1 ≤ w) (hnn : ∀ u ∈ us, 0 ≤ u.2) (htot : allTotal us ≤ MaxInt) :
    ∃ cms, New mk d w = Except.ok cms ∧
      keyTotal us key ≤ Estimate H (applyUpdates H cms us) key := by
  obtain ⟨cms, hnew⟩ : ∃ cms, New mk d w = Except.ok cms :=
    ⟨_, New_ok mk (by omega) (by omega)⟩
  exact ⟨cms, hnew, Estimate_ge_keyTotal hnew us hnn htot key⟩

/-- Witness of C1 (amended): three updates on a 2 x 3 sketch. -/
theorem C1_estimate_never_undercounts_witness :
    ∃ cms, New (fun i => i + 7) 2 3 = Except.ok cms ∧
      keyTotal [("a", 2), ("b", 5), ("a", 1)] "a" ≤
        Estimate (fun s k => s + k.length)
          (applyUpdates (fun s k => s + k.length) cms [("a", 2), ("b", 5), ("a", 1)]) "a" :=
  C1_estimate_never_undercounts (fun s k => s + k.length) (fun i => i + 7) 2 3
    [("a", 2), ("b", 5), ("a", 1)] "a" (by decide) (by decide) (by decide) (by decide)

theorem CopySeeds_fresh {mkA mkB : Nat → Seed} {d w : Int} {A B : CMS}
    (hA : New mkA d w = Except.ok A) (hB : New mkB d w = Except.ok B) :
    CopySeeds B A = A := by
  obtain ⟨_, _, hdA, hwA, hcA, _⟩ := New_inv hA
  obtain ⟨_, _, hdB, hwB, hcB, _⟩ := New_inv hB
  have hs : (CopySeeds B A).seeds = A.seeds :=
    CopySeeds_seeds (New_WF hB).2.2 (by rw [(New_WF hA).2.2, hdA, hdB])
  apply CMS_eq
  · show B.d = A.d
    rw [hdA, hdB]
  · show B.w = A.w
    rw [hwA, hwB]
  · show B.count = A.count
    rw [hcA, hcB]
  · exact hs

theorem CopySeeds_onto_fresh {mkA mkB : Nat → Seed} {d w : Int} {A B X : CMS}
    (hA : New mkA d w = Except.ok A) (hB : New mkB d w = Except.ok B)
    (hX : X.seeds = A.seeds) : CopySeeds B X = A := by
  obtain ⟨_, _, hdA, hwA, hcA, _⟩ := New_inv hA
  obtain ⟨_, _, hdB, hwB, hcB, _⟩ := New_inv hB
  have hs : (CopySeeds B X).seeds = X.seeds :=
    CopySeeds_seeds (New_WF hB).2.2 (by rw [hX, (New_WF hA).2.2, hdA, hdB])
  apply CMS_eq
  · show B.d = A.d
    rw [hdA, hdB]
  · show B.w = A.w
    rw [hwA, hwB]
  · show B.count = A.count
    rw [hcA, hcB]
  · rw [hs, hX]

theorem Clear_applyUpdates {H : Seed → String → Nat} {mk : Nat → Seed} {d w : Int}
    {cms : CMS} (hnew : New mk d w = Except.ok cms) (us : List (String × Int)) :
    Clear (applyUpdates H cms us) = cms := by
  obtain ⟨_, _, hd', hw', hc', _⟩ := New_inv hnew
  apply CMS_eq
  · show (applyUpdates H cms us).d = cms.d
    rw [applyUpdates_d]
  · show (applyUpdates H cms us).w = cms.w
    rw [applyUpdates_w]
  · rw [Clear_count (applyUpdates_WF (New_WF hnew) us), applyUpdates_d, applyUpdates_w, hc',
      hd', hw']
  · show (applyUpdates H cms us).seeds = cms.seeds
    rw [applyUpdates_seeds]

theorem Merge_applyUpdates {H : Seed → String → Nat} {mk : Nat → Seed} {d w : Int}
    {A : CMS} (hA : New mk d w = Except.ok A) (uA uB us : List (String × Int))
    (hperm : us.Perm (uA ++ uB)) :
    Merge (applyUpdates H A uA) (applyUpdates H A uB) =
      ((applyUpdates H A us, applyUpdates H A uB), none) := by
  have hd : (applyUpdates H A uA).d = (applyUpdates H A uB).d := by
    rw [applyUpdates_d, applyUpdates_d]
  have hw : (applyUpdates H A uA).w = (applyUpdates H A uB).w := by
    rw [applyUpdates_w, applyUpdates_w]
  have hWA := @applyUpdates_WF H A (New_WF hA) uA
  have h1 : (Merge (applyUpdates H A uA) (applyUpdates H A uB)).1.1 = applyUpdates H A us := by
    apply CMS_eq
    · rw [Merge_eq hd hw, applyUpdates_d, applyUpdates_d]
    · rw [Merge_eq hd hw, applyUpdates_w, applyUpdates_w]
    · have hm := WF_shape (@Merge_WF _ (applyUpdates H A uB) hWA)
      have hm' : (Merge (applyUpdates H A uA) (applyUpdates H A uB)).1.1.d = A.d := by
        rw [Merge_eq hd hw, applyUpdates_d]
      have hm'' : (Merge (applyUpdates H A uA) (applyUpdates H A uB)).1.1.w = A.w := by
        rw [Merge_eq hd hw, applyUpdates_w]
      rw [hm', hm''] at hm
      have hu := WF_shape (@applyUpdates_WF H A (New_WF hA) us)
      rw [applyUpdates_d, applyUpdates_w] at hu
      apply shape_ext hm hu
      intro i hi j hj
      rw [Merge_cell hWA hd hw (by rw [applyUpdates_d]; exact hi)
        (by rw [applyUpdates_w]; exact hj)]
      rw [fresh_cell hA uA hi hj, fresh_cell hA uB hi hj, fresh_cell hA us hi hj,
        wrap64_add_wrap64, wrap64_add_wrap64_right, load_perm H _ _ hperm, load_append]
    · rw [Merge_eq hd hw, applyUpdates_seeds, applyUpdates_seeds]
  have h2 : (Merge (applyUpdates H A uA) (applyUpdates H A uB)).1.2 = applyUpdates H A uB := by
    rw [Merge_eq hd hw]
  have h3 : (Merge (applyUpdates H A uA) (applyUpdates H A uB)).2 = none := by
    rw [Merge_eq hd hw]
  exact Prod.ext (Prod.ext h1 h2) h3

/-- C2 (as stated, refuted): `A = New(1, 1)` and `B = New(1, 2)` have identical seeds
after `B.CopySeeds(A)`, performed before any update.  With no update on `A` and the
single update `Update("a", 1)` on `B`, `A.Merge(B)` returns the dimension error and
leaves `A` as it was, so `A.Estimate("a")` is `0`, while a single sketch with the same
seeds that received the update (of the width of `A` or of the width of `B`) estimates
`1`. -/
theorem C2_counterexample :
    ∃ A B, New (fun i => i) 1 1 = Except.ok A ∧ New (fun i => i + 5) 1 2 = Except.ok B ∧
      (CopySeeds B A).seeds = A.seeds ∧
      (Merge (applyUpdates (fun _ _ => 0) A [])
        (applyUpdates (fun _ _ => 0) (CopySeeds B A) [("a", 1)])).2 ≠ none ∧
      Estimate (fun _ _ => 0) (Merge (applyUpdates (fun _ _ => 0) A [])
        (applyUpdates (fun _ _ => 0) (CopySeeds B A) [("a", 1)])).1.1 "a" = 0 ∧
      Estimate (fun _ _ => 0) (applyUpdates (fun _ _ => 0) A ([] ++ [("a", 1)])) "a" = 1 ∧
      Estimate (fun _ _ => 0)
        (applyUpdates (fun _ _ => 0) (CopySeeds B A) ([] ++ [("a", 1)])) "a" = 1 :=
  ⟨_, _, rfl, rfl, by decide, by decide, by decide, by decide, by decide⟩

/-- C2 (amended): for two sketches `A` and `B` created with the same depth and the same
width, with identical seeds (`B.CopySeeds(A)` performed before any update), after any
update sequence `uA` applied to `A` and any update sequence `uB` applied to `B`,
`A.Merge(B)` returns no error and `A.Estimate(k)` afterwards equals, for every key `k`,
the `Estimate(k)` of a single sketch with the same seeds to which all updates of `uA`
and `uB` were applied, in any order `us`. -/
theorem C2_merge_equals_single_sketch (H : Seed → String → Nat) (mkA mkB : Nat → Seed)
    (d w : Int) (uA uB us : List (String × Int)) (key : String)
    (hd : 1 ≤ d) (hw : 1 ≤ w) (hperm : us.Perm (uA ++ uB)) :
    ∃ A B, New mkA d w = Except.ok A ∧ New mkB d w = Except.ok B ∧
      (CopySeeds B A).seeds = A.seeds ∧
      (Merge (applyUpdates H A uA) (applyUpdates H (CopySeeds B A) uB)).2 = none ∧
      Estimate H (Merge (applyUpdates H A uA) (applyUpdates H (CopySeeds B A) uB)).1.1 key
        = Estimate H (applyUpdates H A us) key := by
  obtain ⟨A, hA⟩ : ∃ cms, New mkA d w = Except.ok cms :=
    ⟨_, New_ok mkA (by omega) (by omega)⟩
  obtain ⟨B, hB⟩ : ∃ cms, New mkB d w = Except.ok cms :=
    ⟨_, New_ok mkB (by omega) (by omega)⟩
  refine ⟨A, B, hA, hB, ?_, ?_, ?_⟩
  · rw [CopySeeds_fresh hA hB]
  · rw [CopySeeds_fresh hA hB, Merge_applyUpdates hA uA uB us hperm]
  · rw [CopySeeds_fresh hA hB, Merge_applyUpdates hA uA uB us hperm]

/-- Witness of C2 (amended): two 2 x 3 sketches and an interleaving of their updates. -/
theorem C2_merge_equals_single_sketch_witness :
    ∃ A B, New (fun i => i) 2 3 = Except.ok A ∧ New (fun i => i + 9) 2 3 = Except.ok B ∧
      (CopySeeds B A).seeds = A.seeds ∧
      (Merge (applyUpdates (fun s k => s + k.length) A [("a", 2), ("bb", 1)])
        (applyUpdates (fun s k => s + k.length) (CopySeeds B A) [("a", 4)])).2 = none ∧
      Estimate (fun s k => s + k.length)
        (Merge (applyUpdates (fun s k => s + k.length) A [("a", 2), ("bb", 1)])
          (applyUpdates (fun s k => s + k.length) (CopySeeds B A) [("a", 4)])).1.1 "a"
        = Estimate (fun s k => s + k.length)
          (applyUpdates (fun s k => s + k.length) A [("a", 2), ("a", 4), ("bb", 1)]) "a" :=
  C2_merge_equals_single_sketch (fun s k => s + k.length) (fun i => i) (fun i => i + 9) 2 3
    [("a", 2), ("bb", 1)] [("a", 4)] [("a", 2), ("a", 4), ("bb", 1)] "a"
    (by decide) (by decide) (by decide)

/-- C3 (as stated, refuted): `A = New(1, 1)` and `B = New(1, 2)` are freshly
constructed; after `B.CopySeeds(A)` the same call `Update("a", 1)` on both leaves the
counter matrix `[[1]]` in `A` and `[[1, 0]]` in `B`. -/
theorem C3_counterexample :
    ∃ A B, New (fun i => i) 1 1 = Except.ok A ∧ New (fun i => i + 5) 1 2 = Except.ok B ∧
      (applyUpdates (fun _ _ => 0) A [("a", 1)]).count = [[1]] ∧
      (applyUpdates (fun _ _ => 0) (CopySeeds B A) [("a", 1)]).count = [[1, 0]] ∧
      (applyUpdates (fun _ _ => 0) (CopySeeds B A) [("a", 1)]).count ≠
        (applyUpdates (fun _ _ => 0) A [("a", 1)]).count :=
  ⟨_, _, rfl, rfl, by decide, by decide, by decide⟩

/-- C3 (amended): for any two freshly constructed sketches `A` and `B` of the same depth
and width, after `B.CopySeeds(A)`, applying the same sequence of `Update` calls to `A`
and to `B` leaves the two sketches with identical counter matrices. -/
theorem C3_copySeeds_same_updates (H : Seed → String → Nat) (mkA mkB : Nat → Seed)
    (d w : Int) (us : List (String × Int)) (hd : 1 ≤ d) (hw : 1 ≤ w) :
    ∃ A B, New mkA d w = Except.ok A ∧ New mkB d w = Except.ok B ∧
      (applyUpdates H (CopySeeds B A) us).count = (applyUpdates H A us).count := by
  obtain ⟨A, hA⟩ : ∃ cms, New mkA d w = Except.ok cms :=
    ⟨_, New_ok mkA (by omega) (by omega)⟩
  obtain ⟨B, hB⟩ : ∃ cms, New mkB d w = Except.ok cms :=
    ⟨_, New_ok mkB (by omega) (by omega)⟩
  exact ⟨A, B, hA, hB, by rw [CopySeeds_fresh hA hB]⟩

/-- Witness of C3 (amended): two 2 x 3 sketches with different fresh seeds. -/
theorem C3_copySeeds_same_updates_witness :
    ∃ A B, New (fun i => i) 2 3 = Except.ok A ∧ New (fun i => i + 9) 2 3 = Except.ok B ∧
      (applyUpdates (fun s k => s + k.length) (CopySeeds B A) [("a", 2), ("bb", 1)]).count
        = (applyUpdates (fun s k => s + k.length) A [("a", 2), ("bb", 1)]).count :=
  C3_copySeeds_same_updates (fun s k => s + k.length) (fun i => i) (fun i => i + 9) 2 3
    [("a", 2), ("bb", 1)] (by decide) (by decide)

/-- C4: for sketches whose slices have the lengths `New` gives them, `Merge` returns an
error exactly when the two sketches differ in depth or in width, and then neither
sketch is changed; otherwise it returns no error, the other sketch and the seeds,
depth and width of the receiver are unchanged, and every counter `[i][j]` of the
receiver becomes its old value plus (Go addition on `int`) the counter `[i][j]` of the
other sketch, which is the mathematical sum whenever that sum is a Go `int`. -/
theorem C4_merge_contract (curr other : CMS) (hc : curr.WF) (ho : other.WF) :
    ((Merge curr other).2 ≠ none ↔ (curr.d ≠ other.d ∨ curr.w ≠ other.w)) ∧
    ((Merge curr other).2 ≠ none → (Merge curr other).1 = (curr, other)) ∧
    ((Merge curr other).2 = none →
      (Merge curr other).1.2 = other ∧
      (Merge curr other).1.1.seeds = curr.seeds ∧
      (Merge curr other).1.1.d = curr.d ∧
      (Merge curr other).1.1.w = curr.w ∧
      Shape (Merge curr other).1.1.count curr.d curr.w ∧
      ∀ i j, i < curr.d → j < curr.w →
        cell (Merge curr other).1.1.count i j =
          wrap64 (cell curr.count i j + cell other.count i j) ∧
        (MinInt ≤ cell curr.count i j + cell other.count i j →
          cell curr.count i j + cell other.count i j ≤ MaxInt →
          cell (Merge curr other).1.1.count i j =
            cell curr.count i j + cell other.count i j)) := by
  by_cases hdw : curr.d ≠ other.d ∨ curr.w ≠ other.w
  · rw [Merge_err hdw]
    simp [hdw]
  · have hd : curr.d = other.d := by
      by_contra hne
      exact hdw (Or.inl hne)
    have hw : curr.w = other.w := by
      by_contra hne
      exact hdw (Or.inr hne)
    have hwf := WF_shape (@Merge_WF curr other hc)
    have hcell := fun i j (hi : i < curr.d) (hj : j < curr.w) =>
      @Merge_cell curr other hc hd hw i j hi hj
    rw [Merge_eq hd hw] at hwf hcell ⊢
    refine ⟨by simp [hdw], by simp, ?_⟩
    intro _
    refine ⟨rfl, rfl, rfl, rfl, hwf, ?_⟩
    intro i j hi hj
    refine ⟨hcell i j hi hj, ?_⟩
    intro h0 h1
    rw [hcell i j hi hj, wrap64_of_range _ h0 h1]

/-- Witness of C4: a 1 x 2 receiver merged with a 1 x 2 sketch. -/
theorem C4_merge_contract_witness :
    ((Merge ⟨1, 2, [[3, 4]], [7]⟩ ⟨1, 2, [[10, 20]], [8]⟩).2 ≠ none ↔
      ((1 : Nat) ≠ 1 ∨ (2 : Nat) ≠ 2)) ∧
    (Merge ⟨1, 2, [[3, 4]], [7]⟩ ⟨1, 2, [[10, 20]], [8]⟩).1.1.count = [[13, 24]] := by
  have h := C4_merge_contract ⟨1, 2, [[3, 4]], [7]⟩ ⟨1, 2, [[10, 20]], [8]⟩
    ⟨rfl, by decide, rfl⟩ ⟨rfl, by decide, rfl⟩
  exact ⟨h.1, by decide⟩

/-- C5: for every sketch obtained from a freshly constructed one by an update sequence
`us`, with counter matrix `M`, `Clear()` sets every counter to zero and leaves the
seeds, depth and width unchanged, and re-applying `us` afterwards reproduces exactly
`M`. -/
theorem C5_clear_then_replay (H : Seed → String → Nat) (mk : Nat → Seed) (d w : Int)
    (us : List (String × Int)) (hd : 1 ≤ d) (hw : 1 ≤ w) :
    ∃ cms, New mk d w = Except.ok cms ∧
      (Clear (applyUpdates H cms us)).count =
        List.replicate d.toNat (List.replicate w.toNat 0) ∧
      (Clear (applyUpdates H cms us)).seeds = (applyUpdates H cms us).seeds ∧
      (Clear (applyUpdates H cms us)).d = (applyUpdates H cms us).d ∧
      (Clear (applyUpdates H cms us)).w = (applyUpdates H cms us).w ∧
      (applyUpdates H (Clear (applyUpdates H cms us)) us).count =
        (applyUpdates H cms us).count := by
  obtain ⟨cms, hnew⟩ : ∃ cms, New mk d w = Except.ok cms :=
    ⟨_, New_ok mk (by omega) (by omega)⟩
  obtain ⟨_, _, hd', hw', hc', _⟩ := New_inv hnew
  have hcl : (Clear (applyUpdates H cms us)).count =
      List.replicate d.toNat (List.replicate w.toNat 0) := by
    rw [Clear_count (applyUpdates_WF (New_WF hnew) us), applyUpdates_d, applyUpdates_w,
      hd', hw']
  have heq : Clear (applyUpdates H cms us) = cms := by
    apply CMS_eq
    · show (applyUpdates H cms us).d = cms.d
      rw [applyUpdates_d]
    · show (applyUpdates H cms us).w = cms.w
      rw [applyUpdates_w]
    · rw [hcl, hc']
    · show (applyUpdates H cms us).seeds = cms.seeds
      rw [applyUpdates_seeds]
  exact ⟨cms, hnew, hcl, rfl, rfl, rfl, by rw [heq]⟩

/-- Witness of C5: a 2 x 3 sketch with two updates. -/
theorem C5_clear_then_replay_witness :
    ∃ cms, New (fun i => i) 2 3 = Except.ok cms ∧
      (Clear (applyUpdates (fun s k => s + k.length) cms [("a", 2), ("bb", 1)])).count =
        List.replicate (2 : Int).toNat (List.replicate (3 : Int).toNat 0) ∧
      (Clear (applyUpdates (fun s k => s + k.length) cms [("a", 2), ("bb", 1)])).seeds =
        (applyUpdates (fun s k => s + k.length) cms [("a", 2), ("bb", 1)]).seeds ∧
      (Clear (applyUpdates (fun s k => s + k.length) cms [("a", 2), ("bb", 1)])).d =
        (applyUpdates (fun s k => s + k.length) cms [("a", 2), ("bb", 1)]).d ∧
      (Clear (applyUpdates (fun s k => s + k.length) cms [("a", 2), ("bb", 1)])).w =
        (applyUpdates (fun s k => s + k.length) cms [("a", 2), ("bb", 1)]).w ∧
      (applyUpdates (fun s k => s + k.length)
        (Clear (applyUpdates (fun s k => s + k.length) cms [("a", 2), ("bb", 1)]))
        [("a", 2), ("bb", 1)]).count =
        (applyUpdates (fun s k => s + k.length) cms [("a", 2), ("bb", 1)]).count :=
  C5_clear_then_replay (fun s k => s + k.length) (fun i => i) 2 3 [("a", 2), ("bb", 1)]
    (by decide) (by decide)

/-! ### Sketch dimensions -/

theorem ceil_div_double (m D : Nat) (hD : 0 < D) :
    2 * ((m + 2 * D - 1) / (2 * D)) ≤ (m + D - 1) / D + 1 ∧
      (m + D - 1) / D ≤ 2 * ((m + 2 * D - 1) / (2 * D)) := by
  have h1 := Nat.div_mul_le_self (m + 2 * D - 1) (2 * D)
  have h2 := @Nat.lt_div_mul_add (m + 2 * D - 1) (2 * D) (by omega)
  have h3 := Nat.div_mul_le_self (m + D - 1) D
  have h4 := @Nat.lt_div_mul_add (m + D - 1) D hD
  generalize (m + 2 * D - 1) / (2 * D) = c at h1 h2 ⊢
  generalize (m + D - 1) / D = c' at h3 h4 ⊢
  have e1 : c * (2 * D) = 2 * (c * D) := by ring
  rw [e1] at h1 h2
  constructor
  · by_contra hcon
    have h5 : c' + 2 ≤ 2 * c := by omega
    have h6 : (c' + 2) * D ≤ 2 * c * D := Nat.mul_le_mul_right D h5
    have e2 : (c' + 2) * D = c' * D + 2 * D := by ring
    have e3 : 2 * c * D = 2 * (c * D) := by ring
    rw [e2, e3] at h6
    generalize c * D = X at h1 h2 h6
    generalize c' * D = Y at h3 h4 h6
    omega
  · by_contra hcon
    have h5 : 2 * c + 1 ≤ c' := by omega
    have h6 : (2 * c + 1) * D ≤ c' * D := Nat.mul_le_mul_right D h5
    have e2 : (2 * c + 1) * D = 2 * (c * D) + D := by ring
    rw [e2] at h6
    generalize c * D = X at h1 h2 h6
    generalize c' * D = Y at h3 h4 h6
    omega

theorem ceilInt_double (m : Nat) (e : Int) :
    2 * ceilInt ⟨false, m, e⟩ - 1 ≤ ceilInt ⟨false, m, e + 1⟩ ∧
      ceilInt ⟨false, m, e + 1⟩ ≤ 2 * ceilInt ⟨false, m, e⟩ := by
  unfold ceilInt
  simp only [Bool.false_eq_true, if_false]
  by_cases he : 0 ≤ e
  · have he' : 0 ≤ e + 1 := by omega
    have hk : (e + 1).toNat = e.toNat + 1 := by omega
    simp only [he, he', if_true, hk, pow_succ]
    push_cast
    constructor <;> nlinarith
  · by_cases he1 : e = -1
    · subst he1
      simp only [show ¬ (0 : Int) ≤ -1 by omega, if_false, show (0 : Int) ≤ -1 + 1 by omega,
        if_true]
      norm_num
      omega
    · have he' : ¬ 0 ≤ e + 1 := by omega
      have hk : (-e).toNat = (-(e + 1)).toNat + 1 := by omega
      simp only [he, he', if_false, hk]
      generalize (-(e + 1)).toNat = k
      have hD : 0 < 2 ^ k := Nat.pow_pos (by omega)
      have h2 : 2 ^ (k + 1) = 2 * 2 ^ k := by rw [pow_succ]; ring
      rw [h2]
      have := ceil_div_double m (2 ^ k) hD
      omega

/-- C9 (as stated, refuted): for `epsilon = 0.5` the width computed by `dimensions` is
`ceil(e / 0.5) = 6`, and for the halved `epsilon = 0.25` it is `ceil(e / 0.25) = 11`,
which is less than `2 * 6`. -/
theorem C9_counterexample :
    Flt.toRat ⟨false, 1, -1⟩ = 1 / 2 ∧
    Flt.toRat (Flt.half ⟨false, 1, -1⟩) = 1 / 4 ∧
    (dimensions (fun x => x) ⟨false, 1, -1⟩ ⟨false, 1, -1⟩).2 = 6 ∧
    (dimensions (fun x => x) (Flt.half ⟨false, 1, -1⟩) ⟨false, 1, -1⟩).2 = 11 ∧
    ¬ 2 * (dimensions (fun x => x) ⟨false, 1, -1⟩ ⟨false, 1, -1⟩).2 ≤
      (dimensions (fun x => x) (Flt.half ⟨false, 1, -1⟩) ⟨false, 1, -1⟩).2 := by
  refine ⟨?_, ?_, by decide, by decide, by decide⟩
  · norm_num [Flt.toRat]
  · norm_num [Flt.toRat, Flt.half]

/-- C9 (amended): for every `epsilon` in (0,1) whose halved value still gives a width
within the range of `int`, halving `epsilon` doubles the width computed by
`dimensions` up to one unit: `2 * width(eps) - 1 ≤ width(eps / 2) ≤ 2 * width(eps)`. -/
theorem C9_halving_epsilon (logF : Flt → Flt) (epsilon delta : Flt)
    (h0 : epsilon.lez = false) (h1 : epsilon.ge1 = false)
    (hr : (dimensions logF epsilon.half delta).2 ≤ MaxInt) :
    2 * (dimensions logF epsilon delta).2 - 1 ≤ (dimensions logF epsilon.half delta).2 ∧
      (dimensions logF epsilon.half delta).2 ≤ 2 * (dimensions logF epsilon delta).2 := by
  have hneg : epsilon.neg = false := by
    unfold Flt.lez at h0
    cases hn : epsilon.neg
    · rfl
    · simp [hn] at h0
  have hd : div64 mathE epsilon.half =
      ⟨false, (fltRound 53 false mathE.m epsilon.m).m,
        ((fltRound 53 false mathE.m epsilon.m).e + mathE.e - epsilon.e) + 1⟩ := by
    unfold div64 Flt.half
    simp only [hneg, mathE, Bool.xor_false, Flt.mk.injEq, true_and]
    ring
  have hd' : div64 mathE epsilon =
      ⟨false, (fltRound 53 false mathE.m epsilon.m).m,
        (fltRound 53 false mathE.m epsilon.m).e + mathE.e - epsilon.e⟩ := by
    unfold div64
    simp only [hneg, mathE, Bool.xor_false]
  unfold dimensions
  simp only [hd, hd']
  exact ceilInt_double _ _

/-- Witness of C9 (amended): `epsilon = 0.375`, widths 8 and 15. -/
theorem C9_halving_epsilon_witness :
    2 * (dimensions (fun x => x) ⟨false, 3, -3⟩ ⟨false, 1, -1⟩).2 - 1 ≤
        (dimensions (fun x => x) (Flt.half ⟨false, 3, -3⟩) ⟨false, 1, -1⟩).2 ∧
      (dimensions (fun x => x) (Flt.half ⟨false, 3, -3⟩) ⟨false, 1, -1⟩).2 ≤
        2 * (dimensions (fun x => x) ⟨false, 3, -3⟩ ⟨false, 1, -1⟩).2 :=
  C9_halving_epsilon (fun x => x) ⟨false, 3, -3⟩ ⟨false, 1, -1⟩ (by decide) (by decide)
    (by decide)

/-! ### Rounding -/

theorem bitLen_spec (f n : Nat) (hn : 0 < n) (hf : n < 2 ^ f) :
    ∃ k, bitLen f n = k + 1 ∧ 2 ^ k ≤ n ∧ n < 2 ^ (k + 1) := by
  induction f generalizing n with
  | zero =>
    simp at hf
    omega
  | succ f ih =>
    have hne : n ≠ 0 := by omega
    simp only [bitLen, hne, if_false]
    by_cases h2 : n / 2 = 0
    · refine ⟨0, ?_, ?_, ?_⟩
      · rw [h2]
        cases f <;> simp [bitLen]
      · simpa using hn
      · simp
        omega
    · have hlt : n / 2 < 2 ^ f := by
        rw [pow_succ] at hf
        omega
      obtain ⟨k, hk, h1, h3⟩ := ih (n / 2) (by omega) hlt
      refine ⟨k + 1, by rw [hk], ?_, ?_⟩
      · rw [pow_succ]
        omega
      · rw [pow_succ] at h3 ⊢
        omega

theorem bitLen_self (n : Nat) (hn : 0 < n) :
    ∃ k, bitLen n n = k + 1 ∧ 2 ^ k ≤ n ∧ n < 2 ^ (k + 1) :=
  bitLen_spec n n hn (Nat.lt_two_pow n)

theorem rne_spec (a b : Nat) (hb : 0 < b) :
    2 * (b * rne a b) ≤ 2 * a + b ∧ 2 * a ≤ 2 * (b * rne a b) + b := by
  have h := Nat.div_add_mod a b
  have hm := Nat.mod_lt a hb
  unfold rne
  generalize a / b = q at h ⊢
  generalize a % b = r at h hm ⊢
  have e : b * (q + 1) = b * q + b := by ring
  split_ifs <;> rw [← h] <;> try rw [e]
  all_goals generalize b * q = x
  all_goals omega

theorem round_core (A Bd m p : Nat) (hB : 0 < Bd) (h1 : 2 * (Bd * m) ≤ 2 * A + Bd)
    (h2 : 2 * A ≤ 2 * (Bd * m) + Bd) (h3 : Bd * 2 ^ p ≤ 2 * A) :
    ((A : ℚ) / Bd) * (1 - 1 / 2 ^ p) ≤ m ∧ (m : ℚ) ≤ ((A : ℚ) / Bd) * (1 + 1 / 2 ^ p) := by
  have hBq : (0 : ℚ) < Bd := by exact_mod_cast hB
  have hP : (0 : ℚ) < 2 ^ p := by positivity
  have h1q : 2 * ((Bd : ℚ) * m) ≤ 2 * A + Bd := by exact_mod_cast h1
  have h2q : 2 * (A : ℚ) ≤ 2 * ((Bd : ℚ) * m) + Bd := by exact_mod_cast h2
  have h3q : (Bd : ℚ) * 2 ^ p ≤ 2 * A := by exact_mod_cast h3
  have hz : (Bd : ℚ) ≤ 2 * ((A : ℚ) / 2 ^ p) := by
    rw [← mul_div_assoc, le_div_iff₀ hP]
    exact h3q
  have e1 : ((A : ℚ) / Bd) * (1 - 1 / 2 ^ p) = ((A : ℚ) - (A : ℚ) / 2 ^ p) / Bd := by
    field_simp
    ring
  have e2 : ((A : ℚ) / Bd) * (1 + 1 / 2 ^ p) = ((A : ℚ) + (A : ℚ) / 2 ^ p) / Bd := by
    field_simp
    ring
  rw [e1, e2]
  constructor
  · rw [div_le_iff₀ hBq]
    linarith
  · rw [le_div_iff₀ hBq]
    linarith

theorem roundRat_spec (p a b : Nat) (ha : 0 < a) (hb : 0 < b) :
    ((a : ℚ) / b) * (1 - 1 / 2 ^ p) ≤
        ((roundRat p a b).1 : ℚ) * 2 ^ (roundRat p a b).2 ∧
      ((roundRat p a b).1 : ℚ) * 2 ^ (roundRat p a b).2 ≤
        ((a : ℚ) / b) * (1 + 1 / 2 ^ p) := by
  have key : ∀ (A Bd : Nat) (e : Int), 0 < Bd → Bd * 2 ^ p ≤ 2 * A →
      ((A : ℚ) / Bd) * 2 ^ e = (a : ℚ) / b →
      ((a : ℚ) / b) * (1 - 1 / 2 ^ p) ≤ (rne A Bd : ℚ) * 2 ^ e ∧
        (rne A Bd : ℚ) * 2 ^ e ≤ ((a : ℚ) / b) * (1 + 1 / 2 ^ p) := by
    intro A Bd e hBd h3 hx
    obtain ⟨r1, r2⟩ := rne_spec A Bd hBd
    obtain ⟨c1, c2⟩ := round_core A Bd (rne A Bd) p hBd r1 r2 h3
    have hs : (0 : ℚ) < 2 ^ e := zpow_pos (by norm_num) e
    rw [← hx]
    constructor
    · calc (A : ℚ) / Bd * 2 ^ e * (1 - 1 / 2 ^ p)
          = ((A : ℚ) / Bd * (1 - 1 / 2 ^ p)) * 2 ^ e := by ring
        _ ≤ (rne A Bd : ℚ) * 2 ^ e := mul_le_mul_of_nonneg_right c1 hs.le
    · calc (rne A Bd : ℚ) * 2 ^ e
          ≤ ((A : ℚ) / Bd * (1 + 1 / 2 ^ p)) * 2 ^ e := mul_le_mul_of_nonneg_right c2 hs.le
        _ = (A : ℚ) / Bd * 2 ^ e * (1 + 1 / 2 ^ p) := by ring
  obtain ⟨ka, hka, la1, la2⟩ := bitLen_self a ha
  obtain ⟨kb, hkb, lb1, lb2⟩ := bitLen_self b hb
  have hbq : (b : ℚ) ≠ 0 := by
    have : (0 : ℚ) < b := by exact_mod_cast hb
    exact ne_of_gt this
  have h2 : (2 : ℚ) ≠ 0 := by norm_num
  unfold roundRat
  rw [hka, hkb]
  split
  · apply key
    · exact Nat.mul_pos hb (Nat.pow_pos (by omega))
    · calc b * 2 ^ (ka + 1) * 2 ^ p
          ≤ 2 ^ (kb + 1) * 2 ^ (ka + 1) * 2 ^ p :=
            Nat.mul_le_mul_right _ (Nat.mul_le_mul_right _ lb2.le)
        _ = 2 * (2 ^ ka * 2 ^ (p + (kb + 1))) := by ring
        _ ≤ 2 * (a * 2 ^ (p + (kb + 1))) :=
            Nat.mul_le_mul_left _ (Nat.mul_le_mul_right _ la1)
    · push_cast
      rw [zpow_sub₀ h2, zpow_sub₀ h2]
      simp only [← Nat.cast_add_one, zpow_natCast]
      field_simp
      ring
  · rename_i hge
    apply key
    · exact Nat.mul_pos (by omega) (Nat.mul_pos hb (Nat.pow_pos (by omega)))
    · have := not_lt.mp hge
      calc 2 * (b * 2 ^ (ka + 1)) * 2 ^ p = 2 * (b * 2 ^ (ka + 1) * 2 ^ p) := by ring
        _ ≤ 2 * (a * 2 ^ (p + (kb + 1))) := Nat.mul_le_mul_left _ this
    · push_cast
      rw [zpow_add₀ h2, zpow_sub₀ h2, zpow_sub₀ h2]
      simp only [← Nat.cast_add_one, zpow_natCast, zpow_one]
      field_simp
      ring

theorem roundRat_mantissa (p a b : Nat) (hp : 1 ≤ p) (ha : 0 < a) (hb : 0 < b) :
    2 ^ (p - 1) ≤ (roundRat p a b).1 ∧ (roundRat p a b).1 ≤ 2 ^ p := by
  have key : ∀ (A Bd : Nat), 0 < Bd → Bd * 2 ^ p ≤ 2 * A → A < Bd * 2 ^ p →
      2 ^ (p - 1) ≤ rne A Bd ∧ rne A Bd ≤ 2 ^ p := by
    intro A Bd hBd h1 h2
    obtain ⟨r1, r2⟩ := rne_spec A Bd hBd
    have hpp : 2 ^ p = 2 * 2 ^ (p - 1) := by
      obtain ⟨k, rfl⟩ : ∃ k, p = k + 1 := ⟨p - 1, by omega⟩
      rw [pow_succ]
      simp
      ring
    constructor
    · by_contra hcon
      have h3 : rne A Bd + 1 ≤ 2 ^ (p - 1) := by omega
      have h4 : Bd * (rne A Bd + 1) ≤ Bd * 2 ^ (p - 1) := Nat.mul_le_mul_left _ h3
      have e1 : Bd * (rne A Bd + 1) = Bd * rne A Bd + Bd := by ring
      have e2 : Bd * 2 ^ p = 2 * (Bd * 2 ^ (p - 1)) := by rw [hpp]; ring
      rw [e1] at h4
      rw [e2] at h1
      generalize Bd * rne A Bd = X at r1 r2 h4
      generalize Bd * 2 ^ (p - 1) = Y at h1 h4
      omega
    · by_contra hcon
      have h3 : 2 ^ p + 1 ≤ rne A Bd := by omega
      have h4 : Bd * (2 ^ p + 1) ≤ Bd * rne A Bd := Nat.mul_le_mul_left _ h3
      have e1 : Bd * (2 ^ p + 1) = Bd * 2 ^ p + Bd := by ring
      rw [e1] at h4
      generalize Bd * rne A Bd = X at r1 r2 h4
      generalize Bd * 2 ^ p = Y at h1 h2 h4
      omega
  obtain ⟨ka, hka, la1, la2⟩ := bitLen_self a ha
  obtain ⟨kb, hkb, lb1, lb2⟩ := bitLen_self b hb
  unfold roundRat
  rw [hka, hkb]
  split
  · rename_i hlt
    apply key _ _ (Nat.mul_pos hb (Nat.pow_pos (by omega))) _ hlt
    calc b * 2 ^ (ka + 1) * 2 ^ p
        ≤ 2 ^ (kb + 1) * 2 ^ (ka + 1) * 2 ^ p :=
          Nat.mul_le_mul_right _ (Nat.mul_le_mul_right _ lb2.le)
      _ = 2 * (2 ^ ka * 2 ^ (p + (kb + 1))) := by ring
      _ ≤ 2 * (a * 2 ^ (p + (kb + 1))) :=
          Nat.mul_le_mul_left _ (Nat.mul_le_mul_right _ la1)
  · rename_i hge
    apply key _ _ (Nat.mul_pos (by omega) (Nat.mul_pos hb (Nat.pow_pos (by omega))))
    · have := not_lt.mp hge
      calc 2 * (b * 2 ^ (ka + 1)) * 2 ^ p = 2 * (b * 2 ^ (ka + 1) * 2 ^ p) := by ring
        _ ≤ 2 * (a * 2 ^ (p + (kb + 1))) := Nat.mul_le_mul_left _ this
    · calc a * 2 ^ (p + (kb + 1))
          < 2 ^ (ka + 1) * 2 ^ (p + (kb + 1)) :=
            Nat.mul_lt_mul_of_pos_right la2 (Nat.pow_pos (by omega))
        _ = 2 * (2 ^ kb * 2 ^ (ka + 1)) * 2 ^ p := by ring
        _ ≤ 2 * (b * 2 ^ (ka + 1)) * 2 ^ p :=
            Nat.mul_le_mul_right _ (Nat.mul_le_mul_left _ (Nat.mul_le_mul_right _ lb1))

theorem fltRound_spec (p a b : Nat) (hb : 0 < b) :
    (fltRound p false a b).neg = false ∧
      ((a : ℚ) / b) * (1 - 1 / 2 ^ p) ≤ (fltRound p false a b).toRat ∧
      (fltRound p false a b).toRat ≤ ((a : ℚ) / b) * (1 + 1 / 2 ^ p) := by
  unfold fltRound
  by_cases ha : a = 0
  · subst ha
    simp [Flt.toRat]
  · rw [if_neg ha]
    have := roundRat_spec p a b (Nat.pos_of_ne_zero ha) hb
    simpa [Flt.toRat] using this

theorem float32_spec (n : Int) (hn : 0 ≤ n) :
    (float32 n).neg = false ∧
      (n : ℚ) * (1 - 1 / 2 ^ 24) ≤ (float32 n).toRat ∧
      (float32 n).toRat ≤ (n : ℚ) * (1 + 1 / 2 ^ 24) := by
  unfold float32
  have hd : decide (n < 0) = false := by simpa using hn
  rw [hd]
  have h := fltRound_spec 24 n.natAbs 1 (by omega)
  have hc : ((n.natAbs : ℕ) : ℚ) = (n : ℚ) := by
    obtain ⟨k, rfl⟩ := Int.eq_ofNat_of_zero_le hn
    simp
  rw [hc] at h
  simpa using h

theorem mul32_spec (x y : Flt) (hx : x.neg = false) (hy : y.neg = false) :
    (mul32 x y).neg = false ∧
      x.toRat * y.toRat * (1 - 1 / 2 ^ 24) ≤ (mul32 x y).toRat ∧
      (mul32 x y).toRat ≤ x.toRat * y.toRat * (1 + 1 / 2 ^ 24) := by
  obtain ⟨_, h1, h2⟩ := fltRound_spec 24 (x.m * y.m) 1 (by omega)
  have h2' : (2 : ℚ) ≠ 0 := by norm_num
  have hs : (0 : ℚ) < 2 ^ x.e * 2 ^ y.e :=
    mul_pos (zpow_pos (by norm_num) _) (zpow_pos (by norm_num) _)
  have ev : (mul32 x y).toRat =
      (fltRound 24 false (x.m * y.m) 1).toRat * ((2 : ℚ) ^ x.e * 2 ^ y.e) := by
    unfold mul32 Flt.toRat
    have hn : (fltRound 24 false (x.m * y.m) 1).neg = false :=
      (fltRound_spec 24 (x.m * y.m) 1 (by omega)).1
    simp only [hx, hy, hn, Bool.xor_false, Bool.false_eq_true, if_false, one_mul]
    rw [zpow_add₀ h2', zpow_add₀ h2']
    ring
  have ex : x.toRat * y.toRat = ((x.m * y.m : ℕ) : ℚ) / (1 : ℕ) * ((2 : ℚ) ^ x.e * 2 ^ y.e) := by
    unfold Flt.toRat
    simp only [hx, hy, Bool.false_eq_true, if_false, one_mul]
    push_cast
    ring
  refine ⟨by simp [mul32, hx, hy], ?_, ?_⟩
  · rw [ev, ex]
    calc ((x.m * y.m : ℕ) : ℚ) / (1 : ℕ) * ((2 : ℚ) ^ x.e * 2 ^ y.e) * (1 - 1 / 2 ^ 24)
        = (((x.m * y.m : ℕ) : ℚ) / (1 : ℕ) * (1 - 1 / 2 ^ 24)) * ((2 : ℚ) ^ x.e * 2 ^ y.e) := by
          ring
      _ ≤ _ := mul_le_mul_of_nonneg_right h1 hs.le
  · rw [ev, ex]
    calc (fltRound 24 false (x.m * y.m) 1).toRat * ((2 : ℚ) ^ x.e * 2 ^ y.e)
        ≤ (((x.m * y.m : ℕ) : ℚ) / (1 : ℕ) * (1 + 1 / 2 ^ 24)) * ((2 : ℚ) ^ x.e * 2 ^ y.e) :=
          mul_le_mul_of_nonneg_right h2 hs.le
      _ = _ := by ring

theorem toInt_spec (x : Flt) (hx : x.neg = false) :
    0 ≤ toInt x ∧ ((toInt x : Int) : ℚ) ≤ x.toRat ∧ x.toRat < ((toInt x : Int) : ℚ) + 1 := by
  unfold toInt Flt.toRat
  simp only [hx, Bool.false_eq_true, if_false, one_mul]
  by_cases he : 0 ≤ x.e
  · simp only [he, if_true]
    have hv : (x.m : ℚ) * 2 ^ x.e = ((x.m * 2 ^ x.e.toNat : ℕ) : ℚ) := by
      obtain ⟨k, hk⟩ := Int.eq_ofNat_of_zero_le he
      rw [hk]
      simp
    rw [hv]
    refine ⟨by positivity, ?_, ?_⟩
    · simp
    · simp
  · simp only [he, if_false]
    have hk : x.e = -((-x.e).toNat : ℤ) := by omega
    generalize (-x.e).toNat = k at hk
    have hD : (0 : ℚ) < 2 ^ k := by positivity
    have hv : (x.m : ℚ) * 2 ^ x.e = (x.m : ℚ) / 2 ^ k := by
      rw [hk, zpow_neg, zpow_natCast]
      rfl
    rw [hv]
    have hDn : 0 < 2 ^ k := Nat.pow_pos (by omega)
    have h1 := Nat.div_mul_le_self x.m (2 ^ k)
    have h2 := @Nat.lt_div_mul_add x.m (2 ^ k) hDn
    have h1q : ((x.m / 2 ^ k : ℕ) : ℚ) * 2 ^ k ≤ x.m := by exact_mod_cast h1
    have h2q : (x.m : ℚ) < ((x.m / 2 ^ k : ℕ) : ℚ) * 2 ^ k + 2 ^ k := by exact_mod_cast h2
    refine ⟨by positivity, ?_, ?_⟩
    · rw [Int.cast_natCast, le_div_iff₀ hD]
      exact h1q
    · rw [Int.cast_natCast, div_lt_iff₀ hD]
      linarith

theorem scale_spec (n : Int) (hn : 0 ≤ n) (c : Flt) (hc : c.neg = false) (r : ℚ)
    (hr : c.toRat = r) (hr0 : 0 ≤ r) :
    0 ≤ toInt (mul32 (float32 n) c) ∧
      ((toInt (mul32 (float32 n) c) : Int) : ℚ) ≤ n * r * (1 + 1 / 2 ^ 24) ^ 2 ∧
      (n : ℚ) * r * (1 - 1 / 2 ^ 24) ^ 2 < ((toInt (mul32 (float32 n) c) : Int) : ℚ) + 1 := by
  obtain ⟨q0, q1, q2⟩ := float32_spec n hn
  obtain ⟨p0, p1, p2⟩ := mul32_spec (float32 n) c q0 hc
  obtain ⟨t0, t1, t2⟩ := toInt_spec (mul32 (float32 n) c) p0
  rw [hr] at p1 p2
  have hu1 : (0 : ℚ) ≤ r * (1 + 1 / 2 ^ 24) := mul_nonneg hr0 (by norm_num)
  have hu2 : (0 : ℚ) ≤ r * (1 - 1 / 2 ^ 24) := mul_nonneg hr0 (by norm_num)
  have a1 : (float32 n).toRat * r * (1 + 1 / 2 ^ 24) ≤ n * r * (1 + 1 / 2 ^ 24) ^ 2 := by
    calc (float32 n).toRat * r * (1 + 1 / 2 ^ 24)
        = (float32 n).toRat * (r * (1 + 1 / 2 ^ 24)) := by ring
      _ ≤ ((n : ℚ) * (1 + 1 / 2 ^ 24)) * (r * (1 + 1 / 2 ^ 24)) :=
          mul_le_mul_of_nonneg_right q2 hu1
      _ = n * r * (1 + 1 / 2 ^ 24) ^ 2 := by ring
  have a2 : (n : ℚ) * r * (1 - 1 / 2 ^ 24) ^ 2 ≤ (float32 n).toRat * r * (1 - 1 / 2 ^ 24) := by
    calc (n : ℚ) * r * (1 - 1 / 2 ^ 24) ^ 2
        = ((n : ℚ) * (1 - 1 / 2 ^ 24)) * (r * (1 - 1 / 2 ^ 24)) := by ring
      _ ≤ (float32 n).toRat * (r * (1 - 1 / 2 ^ 24)) :=
          mul_le_mul_of_nonneg_right q1 hu2
      _ = (float32 n).toRat * r * (1 - 1 / 2 ^ 24) := by ring
  exact ⟨t0, by linarith, by linarith⟩

theorem batch_steps (q : Int) (hq : 0 ≤ q) :
    0 ≤ toInt (mul32 (float32 q) ⟨false, 11184811, -25⟩) ∧
      toInt (mul32 (float32 q) ⟨false, 11184811, -25⟩) ≤
        toInt (mul32 (float32 q) ⟨false, 8388608, -24⟩) ∧
      toInt (mul32 (float32 q) ⟨false, 8388608, -24⟩) ≤
        toInt (mul32 (float32 q) ⟨false, 11184811, -24⟩) ∧
      toInt (mul32 (float32 q) ⟨false, 11184811, -24⟩) ≤ q ∧
      (1 ≤ q → toInt (mul32 (float32 q) ⟨false, 11184811, -24⟩) + 1 ≤ q) := by
  have hqq : (0 : ℚ) ≤ q := by exact_mod_cast hq
  obtain ⟨a0, a1, a2⟩ := scale_spec q hq ⟨false, 11184811, -25⟩ rfl (11184811 / 2 ^ 25)
    (by norm_num [Flt.toRat]) (by norm_num)
  obtain ⟨b0, b1, b2⟩ := scale_spec q hq ⟨false, 8388608, -24⟩ rfl (1 / 2)
    (by norm_num [Flt.toRat]) (by norm_num)
  obtain ⟨c0, c1, c2⟩ := scale_spec q hq ⟨false, 11184811, -24⟩ rfl (11184811 / 2 ^ 24)
    (by norm_num [Flt.toRat]) (by norm_num)
  generalize toInt (mul32 (float32 q) ⟨false, 11184811, -25⟩) = t1 at a0 a1 a2 ⊢
  generalize toInt (mul32 (float32 q) ⟨false, 8388608, -24⟩) = t2 at b0 b1 b2 ⊢
  generalize toInt (mul32 (float32 q) ⟨false, 11184811, -24⟩) = t3 at c0 c1 c2 ⊢
  norm_num at a1 a2 b1 b2 c1 c2
  refine ⟨a0, ?_, ?_, ?_, ?_⟩
  · have : (t1 : ℚ) < t2 + 1 := by linarith
    have : t1 < t2 + 1 := by exact_mod_cast this
    omega
  · have : (t2 : ℚ) < t3 + 1 := by linarith
    have : t2 < t3 + 1 := by exact_mod_cast this
    omega
  · have : (t3 : ℚ) < q + 1 := by linarith
    have : t3 < q + 1 := by exact_mod_cast this
    omega
  · intro h1
    have h1q : (1 : ℚ) ≤ q := by exact_mod_cast h1
    have : (t3 : ℚ) < q := by linarith
    have : t3 < q := by exact_mod_cast this
    omega

theorem item_steps (B : Int) (hB : 0 ≤ B) (fi : Flt) (hfi : fi ∈ failed_items) :
    0 ≤ toInt (mul32 (float32 B) fi) ∧ toInt (mul32 (float32 B) fi) ≤ B := by
  have hBq : (0 : ℚ) ≤ B := by exact_mod_cast hB
  rw [failed_items_eq] at hfi
  simp only [List.mem_cons, List.mem_singleton, List.not_mem_nil, or_false] at hfi
  rcases hfi with h | h | h
  · subst h
    obtain ⟨a0, a1, _⟩ := scale_spec B hB ⟨false, 13421773, -27⟩ rfl (13421773 / 2 ^ 27)
      (by norm_num [Flt.toRat]) (by norm_num)
    generalize toInt (mul32 (float32 B) ⟨false, 13421773, -27⟩) = t at a0 a1 ⊢
    norm_num at a1
    have : (t : ℚ) < B + 1 := by linarith
    have : t < B + 1 := by exact_mod_cast this
    exact ⟨a0, by omega⟩
  · subst h
    obtain ⟨a0, a1, _⟩ := scale_spec B hB ⟨false, 8388608, -24⟩ rfl (1 / 2)
      (by norm_num [Flt.toRat]) (by norm_num)
    generalize toInt (mul32 (float32 B) ⟨false, 8388608, -24⟩) = t at a0 a1 ⊢
    norm_num at a1
    have : (t : ℚ) < B + 1 := by linarith
    have : t < B + 1 := by exact_mod_cast this
    exact ⟨a0, by omega⟩
  · subst h
    obtain ⟨a0, a1, _⟩ := scale_spec B hB ⟨false, 15099494, -24⟩ rfl (15099494 / 2 ^ 24)
      (by norm_num [Flt.toRat]) (by norm_num)
    generalize toInt (mul32 (float32 B) ⟨false, 15099494, -24⟩) = t at a0 a1 ⊢
    norm_num at a1
    have : (t : ℚ) < B + 1 := by linarith
    have : t < B + 1 := by exact_mod_cast this
    exact ⟨a0, by omega⟩

/-! ### Scenario parameters -/

theorem NtOf_spec (N B : Int) (hB : 1 ≤ B) (hN : 0 ≤ N) (hmax : N ≤ MaxInt) :
    0 ≤ NtOf N B ⟨false, 11184811, -25⟩ ∧
      NtOf N B ⟨false, 11184811, -25⟩ ≤ NtOf N B ⟨false, 8388608, -24⟩ ∧
      NtOf N B ⟨false, 8388608, -24⟩ ≤ NtOf N B ⟨false, 11184811, -24⟩ ∧
      NtOf N B ⟨false, 11184811, -24⟩ ≤ N ∧
      (B ≤ N → NtOf N B ⟨false, 11184811, -24⟩ + B ≤ N) ∧
      (N < B → NtOf N B ⟨false, 11184811, -24⟩ = 0) := by
  have hq : Int.tdiv N B = N / B := Int.tdiv_eq_ediv hN (by omega)
  have hq0 : 0 ≤ N / B := Int.ediv_nonneg hN (by omega)
  have hqB : N / B * B ≤ N := Int.ediv_mul_le N (by omega)
  obtain ⟨a0, a1, a2, a3, a4⟩ := batch_steps (N / B) hq0
  unfold NtOf
  rw [hq]
  generalize toInt (mul32 (float32 (N / B)) ⟨false, 11184811, -25⟩) = t1 at a0 a1 ⊢
  generalize toInt (mul32 (float32 (N / B)) ⟨false, 8388608, -24⟩) = t2 at a1 a2 ⊢
  generalize toInt (mul32 (float32 (N / B)) ⟨false, 11184811, -24⟩) = t3 at a2 a3 a4 ⊢
  have hB0 : 0 ≤ B := by omega
  have m12 : t1 * B ≤ t2 * B := mul_le_mul_of_nonneg_right a1 hB0
  have m23 : t2 * B ≤ t3 * B := mul_le_mul_of_nonneg_right a2 hB0
  have m3q : t3 * B ≤ N / B * B := mul_le_mul_of_nonneg_right a3 hB0
  have m0 : 0 ≤ t1 * B := mul_nonneg a0 hB0
  have hmin : MinInt ≤ 0 := by decide
  rw [wrap64_of_range (t1 * B) (by omega) (by omega),
    wrap64_of_range (t2 * B) (by omega) (by omega),
    wrap64_of_range (t3 * B) (by omega) (by omega)]
  refine ⟨m0, m12, m23, by omega, ?_, ?_⟩
  · intro hBN
    have h1 : 1 ≤ N / B := Int.le_ediv_of_mul_le (by omega) (by omega)
    have h4 := a4 h1
    have : (t3 + 1) * B ≤ N / B * B := mul_le_mul_of_nonneg_right h4 hB0
    have e : (t3 + 1) * B = t3 * B + B := by ring
    omega
  · intro hlt
    have hz : N / B = 0 := Int.ediv_eq_zero_of_lt hN hlt
    rw [hz] at m3q
    omega

theorem NiOf_spec (Nt B : Int) (hB : 0 ≤ B) (h0 : 0 ≤ Nt) (hmax : Nt + B ≤ MaxInt)
    (fi : Flt) (hfi : fi ∈ failed_items) :
    Nt ≤ NiOf Nt B fi ∧ NiOf Nt B fi ≤ Nt + B := by
  obtain ⟨u0, u1⟩ := item_steps B hB fi hfi
  unfold NiOf
  have hmin : MinInt ≤ 0 := by decide
  rw [wrap64_of_range _ (by omega) (by omega)]
  omega

theorem NiOf_eq (Nt B : Int) (hB : 0 ≤ B) (h0 : 0 ≤ Nt) (hmax : Nt + B ≤ MaxInt)
    (fi : Flt) (hfi : fi ∈ failed_items) :
    NiOf Nt B fi = Nt + toInt (mul32 (float32 B) fi) := by
  obtain ⟨u0, u1⟩ := item_steps B hB fi hfi
  unfold NiOf
  have hmin : MinInt ≤ 0 := by decide
  exact wrap64_of_range _ (by omega) (by omega)

theorem NtOf_facts (N B : Int) (hB : 1 ≤ B) (hBmax : B ≤ MaxInt) (hN : 0 ≤ N)
    (hmax : N ≤ MaxInt) (fb : Flt) (hfb : fb ∈ failed_batches) :
    0 ≤ NtOf N B fb ∧ NtOf N B fb + B ≤ MaxInt ∧ (0 < NtOf N B fb → B ≤ N) := by
  obtain ⟨n0, n12, n23, n3, n4, n5⟩ := NtOf_spec N B hB hN hmax
  have key : 0 ≤ NtOf N B fb ∧ NtOf N B fb ≤ NtOf N B ⟨false, 11184811, -24⟩ := by
    rw [failed_batches_eq] at hfb
    simp only [List.mem_cons, List.mem_singleton, List.not_mem_nil, or_false] at hfb
    rcases hfb with h | h | h <;> subst h <;> constructor <;> omega
  by_cases hBN : B ≤ N
  · have := n4 hBN
    exact ⟨key.1, by omega, fun _ => hBN⟩
  · have := n5 (by omega)
    exact ⟨key.1, by omega, fun h => by omega⟩

theorem scenarios_eq (N B : Int) :
    scenarios N B =
      [(NtOf N B ⟨false, 11184811, -25⟩,
          NiOf (NtOf N B ⟨false, 11184811, -25⟩) B ⟨false, 13421773, -27⟩),
        (NtOf N B ⟨false, 11184811, -25⟩,
          NiOf (NtOf N B ⟨false, 11184811, -25⟩) B ⟨false, 8388608, -24⟩),
        (NtOf N B ⟨false, 11184811, -25⟩,
          NiOf (NtOf N B ⟨false, 11184811, -25⟩) B ⟨false, 15099494, -24⟩),
        (NtOf N B ⟨false, 8388608, -24⟩,
          NiOf (NtOf N B ⟨false, 8388608, -24⟩) B ⟨false, 13421773, -27⟩),
        (NtOf N B ⟨false, 8388608, -24⟩,
          NiOf (NtOf N B ⟨false, 8388608, -24⟩) B ⟨false, 8388608, -24⟩),
        (NtOf N B ⟨false, 8388608, -24⟩,
          NiOf (NtOf N B ⟨false, 8388608, -24⟩) B ⟨false, 15099494, -24⟩),
        (NtOf N B ⟨false, 11184811, -24⟩,
          NiOf (NtOf N B ⟨false, 11184811, -24⟩) B ⟨false, 13421773, -27⟩),
        (NtOf N B ⟨false, 11184811, -24⟩,
          NiOf (NtOf N B ⟨false, 11184811, -24⟩) B ⟨false, 8388608, -24⟩),
        (NtOf N B ⟨false, 11184811, -24⟩,
          NiOf (NtOf N B ⟨false, 11184811, -24⟩) B ⟨false, 15099494, -24⟩)] := by
  unfold scenarios
  rw [failed_batches_eq, failed_items_eq]
  rfl

/-- C6 (as stated, refuted): for a stream of `N = 3` items and batch size `B = 5` every
scenario has `Nt = 0`, so `Nt + B = 5` exceeds `N = 3`. -/
theorem C6_counterexample :
    scenarios 3 5 =
      [(0, 0), (0, 2), (0, 4), (0, 0), (0, 2), (0, 4), (0, 0), (0, 2), (0, 4)] ∧
    ¬ ∀ r ∈ scenarios 3 5, r.1 ≤ r.2 ∧ r.2 ≤ r.1 + 5 ∧ r.1 + 5 ≤ 3 := by
  decide

/-- C6 (amended): for every batch size `B ≥ 1` and every stream length `N ≥ 0` (Go
`int` values), with `q = N / B`, `Nt = int(float32(q) * fb) * B` and
`Ni = Nt + int(float32(B) * fi)` computed for the failure-batch fractions
(1/3, 1/2, 2/3) and the failure-item fractions (0.1, 0.5, 0.9) in order: `Nt` is
non-decreasing across the nine scenarios and every scenario satisfies
`Nt ≤ Ni ≤ Nt + B`; when `N ≥ B`, every scenario also satisfies `Nt + B ≤ N`. -/
theorem C6_scenario_bounds (N B : Int) (hB : 1 ≤ B) (hBmax : B ≤ MaxInt) (hN : 0 ≤ N)
    (hmax : N ≤ MaxInt) :
    (scenarios N B).length = 9 ∧
    List.Pairwise (fun r s => r.1 ≤ s.1) (scenarios N B) ∧
    ∀ r ∈ scenarios N B, r.1 ≤ r.2 ∧ r.2 ≤ r.1 + B ∧ (B ≤ N → r.1 + B ≤ N) := by
  obtain ⟨n0, n12, n23, n3, n4, n5⟩ := NtOf_spec N B hB hN hmax
  have hrow : ∀ fb fi, 0 ≤ NtOf N B fb → NtOf N B fb ≤ NtOf N B ⟨false, 11184811, -24⟩ →
      fi ∈ failed_items →
      NtOf N B fb ≤ NiOf (NtOf N B fb) B fi ∧
        NiOf (NtOf N B fb) B fi ≤ NtOf N B fb + B ∧ (B ≤ N → NtOf N B fb + B ≤ N) := by
    intro fb fi h0 h1 hfi
    have hr : NtOf N B fb + B ≤ MaxInt := by
      by_cases hBN : B ≤ N
      · have := n4 hBN
        omega
      · have := n5 (by omega)
        omega
    obtain ⟨i0, i1⟩ := NiOf_spec (NtOf N B fb) B (by omega) h0 hr fi hfi
    refine ⟨i0, i1, ?_⟩
    intro hBN
    have := n4 hBN
    omega
  have f1 : (⟨false, 13421773, -27⟩ : Flt) ∈ failed_items := by
    rw [failed_items_eq]
    simp
  have f2 : (⟨false, 8388608, -24⟩ : Flt) ∈ failed_items := by
    rw [failed_items_eq]
    simp
  have f3 : (⟨false, 15099494, -24⟩ : Flt) ∈ failed_items := by
    rw [failed_items_eq]
    simp
  rw [scenarios_eq]
  refine ⟨rfl, ?_, ?_⟩
  · simp only [List.pairwise_cons, List.mem_cons, List.mem_singleton, List.not_mem_nil,
      forall_eq_or_imp, forall_eq, List.Pairwise.nil, and_true, IsEmpty.forall_iff,
      implies_true, le_refl, true_and]
    refine ⟨?_, ?_, ?_, ?_, ?_, ?_⟩ <;> omega
  · intro r hr
    simp only [List.mem_cons, List.mem_singleton, List.not_mem_nil, or_false] at hr
    rcases hr with h | h | h | h | h | h | h | h | h <;> subst h
    · exact hrow _ _ n0 (by omega) f1
    · exact hrow _ _ n0 (by omega) f2
    · exact hrow _ _ n0 (by omega) f3
    · exact hrow _ _ (by omega) (by omega) f1
    · exact hrow _ _ (by omega) (by omega) f2
    · exact hrow _ _ (by omega) (by omega) f3
    · exact hrow _ _ (by omega) (by omega) f1
    · exact hrow _ _ (by omega) (by omega) f2
    · exact hrow _ _ (by omega) (by omega) f3

/-- Witness of C6 (amended): a stream of 100 items with batch size 7. -/
theorem C6_scenario_bounds_witness :
    (scenarios 100 7).length = 9 ∧
    List.Pairwise (fun r s => r.1 ≤ s.1) (scenarios 100 7) ∧
    ∀ r ∈ scenarios 100 7, r.1 ≤ r.2 ∧ r.2 ≤ r.1 + 7 ∧ ((7 : Int) ≤ 100 → r.1 + 7 ≤ 100) :=
  C6_scenario_bounds 100 7 (by decide) (by decide) (by decide) (by decide)

/-! ### Exact frequency maps -/

theorem unit_nonneg (l : List String) : ∀ u ∈ unitUpdates l, 0 ≤ u.2 := by
  intro u hu
  unfold unitUpdates at hu
  obtain ⟨x, _, hx⟩ := List.mem_map.mp hu
  rw [← hx]
  exact Int.one_nonneg

theorem allTotal_unit (l : List String) : allTotal (unitUpdates l) = (l.length : Int) := by
  induction l with
  | nil => rfl
  | cons x l ih =>
    have : unitUpdates (x :: l) = (x, 1) :: unitUpdates l := rfl
    rw [this, allTotal_cons, ih]
    simp
    ring

theorem occ_cons (x : String) (l : List String) (y : String) :
    occ (x :: l) y = (if x = y then 1 else 0) + occ l y := by
  unfold occ
  by_cases h : x = y
  · simp [List.filter_cons, h]
    ring
  · simp [List.filter_cons, h]

theorem keyTotal_unit (l : List String) (y : String) :
    keyTotal (unitUpdates l) y = occ l y := by
  induction l with
  | nil => rfl
  | cons x l ih =>
    have e : unitUpdates (x :: l) = (x, 1) :: unitUpdates l := rfl
    rw [e, occ_cons, ← ih]
    unfold keyTotal
    by_cases h : x = y
    · simp [List.filter_cons, h]
    · simp [List.filter_cons, h]

theorem occ_append (l l' : List String) (y : String) :
    occ (l ++ l') y = occ l y + occ l' y := by
  unfold occ
  simp [List.filter_append]

theorem occ_nonneg (l : List String) (y : String) : 0 ≤ occ l y := by
  unfold occ
  exact Int.ofNat_nonneg _

theorem occ_le_length (l : List String) (y : String) : occ l y ≤ (l.length : Int) := by
  unfold occ
  exact_mod_cast List.length_filter_le _ l

theorem occ_eq_zero (l : List String) (y : String) (h : y ∉ l) : occ l y = 0 := by
  unfold occ
  have : l.filter (fun z => decide (z = y)) = [] := by
    rw [List.filter_eq_nil_iff]
    intro z hz hzy
    simp at hzy
    exact h (hzy ▸ hz)
  rw [this]
  rfl

theorem unitUpdates_append (l l' : List String) :
    unitUpdates (l ++ l') = unitUpdates l ++ unitUpdates l' := by
  simp [unitUpdates]

theorem applyUpdates_snoc (H : Seed → String → Nat) (cms : CMS) (l : List String)
    (x : String) :
    Update H (applyUpdates H cms (unitUpdates l)) x 1 =
      applyUpdates H cms (unitUpdates (l ++ [x])) := by
  rw [unitUpdates_append]
  unfold applyUpdates
  rw [List.foldl_append]
  rfl

theorem incr_spec (m : FlowMap) (x : String) (hnd : (m.map (fun e => e.1)).Nodup) :
    ((incr m x).map (fun e => e.1)).Nodup ∧
    (∀ k, k ∈ (incr m x).map (fun e => e.1) ↔ k ∈ m.map (fun e => e.1) ∨ k = x) ∧
    (∀ e ∈ incr m x,
      (e.1 ≠ x ∧ e ∈ m) ∨
      (e.1 = x ∧ ((x ∉ m.map (fun e => e.1) ∧ e.2 = 1) ∨
        ∃ v, (x, v) ∈ m ∧ e.2 = wrap64 (v + 1)))) := by
  induction m with
  | nil =>
    refine ⟨by simp [incr], by simp [incr], ?_⟩
    intro e he
    simp only [incr, List.mem_singleton] at he
    subst he
    exact Or.inr ⟨rfl, Or.inl ⟨by simp, rfl⟩⟩
  | cons kv m ih =>
    obtain ⟨k, v⟩ := kv
    simp only [List.map_cons, List.nodup_cons] at hnd
    obtain ⟨hk, hnd'⟩ := hnd
    obtain ⟨i1, i2, i3⟩ := ih hnd'
    by_cases hkx : k = x
    · subst hkx
      simp only [incr, if_true]
      refine ⟨List.nodup_cons.mpr ⟨hk, hnd'⟩, ?_, ?_⟩
      · intro k'
        simp only [List.map_cons, List.mem_cons]
        tauto
      · intro e he
        simp only [List.mem_cons] at he
        rcases he with he | he
        · subst he
          exact Or.inr ⟨rfl, Or.inr ⟨v, by simp, rfl⟩⟩
        · left
          refine ⟨?_, by simp [he]⟩
          intro h1
          apply hk
          rw [← h1]
          exact List.mem_map.mpr ⟨e, he, rfl⟩
    · simp only [incr, hkx, if_false]
      refine ⟨?_, ?_, ?_⟩
      · simp only [List.map_cons, List.nodup_cons]
        refine ⟨?_, i1⟩
        intro hmem
        rcases (i2 k).mp hmem with h | h
        · exact hk h
        · exact hkx h
      · intro k'
        simp only [List.map_cons, List.mem_cons]
        rw [i2 k']
        tauto
      · intro e he
        simp only [List.mem_cons] at he
        rcases he with he | he
        · subst he
          exact Or.inl ⟨hkx, by simp⟩
        · rcases i3 e he with ⟨h1, h2⟩ | ⟨h1, h2⟩
          · exact Or.inl ⟨h1, by simp [h2]⟩
          · right
            refine ⟨h1, ?_⟩
            rcases h2 with ⟨h3, h4⟩ | ⟨v', h3, h4⟩
            · left
              refine ⟨?_, h4⟩
              simp only [List.map_cons, List.mem_cons, not_or]
              exact ⟨fun h => hkx h.symm, h3⟩
            · exact Or.inr ⟨v', by simp [h3], h4⟩

theorem IsFreqMap_nil : IsFreqMap [] [] := by
  refine ⟨by simp, by simp, by simp⟩

theorem IsFreqMap_incr (m : FlowMap) (l : List String) (x : String) (h : IsFreqMap m l)
    (hlen : (l.length : Int) + 1 ≤ MaxInt) : IsFreqMap (incr m x) (l ++ [x]) := by
  obtain ⟨h1, h2, h3⟩ := h
  obtain ⟨i1, i2, i3⟩ := incr_spec m x h1
  have hx1 : occ [x] x = 1 := by simp [occ]
  refine ⟨i1, ?_, ?_⟩
  · intro e he
    rcases i3 e he with ⟨hne, hm⟩ | ⟨heq, hcase⟩
    · obtain ⟨a, b⟩ := h2 e hm
      refine ⟨?_, b⟩
      rw [occ_append, a]
      have : occ [x] e.1 = 0 := occ_eq_zero _ _ (by simpa using hne)
      omega
    · rw [heq, occ_append, hx1]
      rcases hcase with ⟨hnot, hv⟩ | ⟨v, hv, hev⟩
      · have : occ l x = 0 := occ_eq_zero l x (fun hxl => hnot (h3 x hxl))
        omega
      · obtain ⟨a, b⟩ := h2 (x, v) hv
        simp only at a b
        have hle := occ_le_length l x
        rw [hev, wrap64_of_range _ (by unfold MinInt; omega) (by omega)]
        omega
  · intro y hy
    rw [i2]
    simp only [List.mem_append, List.mem_singleton] at hy
    rcases hy with hy | hy
    · exact Or.inl (h3 y hy)
    · exact Or.inr hy

/-! ### The replay loops -/

theorem filter_cons_nonBlank {id : String} (tl : List String) (h : nonBlank id = true) :
    ((id :: tl).filter nonBlank).length = (tl.filter nonBlank).length + 1 := by
  simp [List.filter_cons, h]

theorem filter_cons_blank {id : String} (tl : List String) (h : ¬ nonBlank id = true) :
    (id :: tl).filter nonBlank = tl.filter nonBlank := by
  simp [List.filter_cons, h]

theorem replayCurr_spec (H : Seed → String → Nat) (cms0 : CMS) (N Ni : Int)
    (items : List String) (hN : N ≤ MaxInt) (rest : List String) :
    ∀ (st : Sim) (hist cur : List String), Core H cms0 N items st hist cur rest →
      ∃ cur', Core H cms0 N items (replayCurr H Ni rest st) hist cur'
          (replayCurr H Ni rest st).rest ∧
        (replayCurr H Ni rest st).out = st.out ∧
        (replayCurr H Ni rest st).item_idx ≤ max st.item_idx Ni ∧
        ((replayCurr H Ni rest st).status = Status.running →
          st.status = Status.running ∧ Ni ≤ (replayCurr H Ni rest st).item_idx) := by
  induction rest with
  | nil =>
    intro st hist cur hc
    refine ⟨cur, ?_, ?_, ?_, ?_⟩
    · unfold replayCurr
      split <;> exact hc
    · unfold replayCurr
      split <;> rfl
    · unfold replayCurr
      split <;> exact le_max_left _ _
    · unfold replayCurr
      split
      · intro h
        cases h
      · rename_i hlt
        intro h
        exact ⟨h, not_lt.mp hlt⟩
  | cons id tl ih =>
    intro st hist cur hc
    obtain ⟨c1, c2, c3, c4, c5, c6⟩ := hc
    by_cases hlt : st.item_idx < Ni
    · by_cases hnb : nonBlank id = true
      · have e : replayCurr H Ni (id :: tl) st =
            replayCurr H Ni tl
              { st with
                flow_map := incr st.flow_map id
                curr_map := incr st.curr_map id
                cms_curr := Update H st.cms_curr id 1
                item_idx := wrap64 (st.item_idx + 1) } := by
          simp only [replayCurr, hlt, hnb, if_true]
        have hlen : ((hist ++ cur).length : Int) + 1 ≤ MaxInt := by
          rw [filter_cons_nonBlank tl hnb] at c5
          push_cast at c5 ⊢
          omega
        have hidx : wrap64 (st.item_idx + 1) = st.item_idx + 1 := by
          rw [c4]
          exact wrap64_of_range _ (by unfold MinInt; omega) hlen
        have hc' : Core H cms0 N items
            { st with
              flow_map := incr st.flow_map id
              curr_map := incr st.curr_map id
              cms_curr := Update H st.cms_curr id 1
              item_idx := wrap64 (st.item_idx + 1) } hist (cur ++ [id]) tl := by
          refine ⟨c1, ?_, ?_, ?_, ?_, ?_⟩
          · show Update H st.cms_curr id 1 = _
            rw [c2, applyUpdates_snoc]
          · show IsFreqMap (incr st.flow_map id) (hist ++ (cur ++ [id]))
            rw [← List.append_assoc]
            exact IsFreqMap_incr _ _ _ c3 hlen
          · show wrap64 (st.item_idx + 1) = _
            rw [hidx, c4]
            simp only [List.length_append, List.length_singleton]
            push_cast
            ring
          · rw [filter_cons_nonBlank tl hnb] at c5
            rw [← c5]
            simp only [List.length_append, List.length_singleton]
            push_cast
            ring
          · rw [← c6]
            simp [List.filter_cons, hnb]
        obtain ⟨cur', r1, r2, r3, r4⟩ := ih _ hist (cur ++ [id]) hc'
        rw [e]
        refine ⟨cur', r1, r2, ?_, ?_⟩
        · refine le_trans r3 ?_
          show max (wrap64 (st.item_idx + 1)) Ni ≤ max st.item_idx Ni
          rw [hidx]
          exact max_le (le_trans (by omega) (le_max_right _ _)) (le_max_right _ _)
        · intro h
          exact r4 h
      · have e : replayCurr H Ni (id :: tl) st = replayCurr H Ni tl st := by
          simp only [replayCurr, hlt, hnb, if_true, if_false]
          rfl
        have hc' : Core H cms0 N items st hist cur tl := by
          refine ⟨c1, c2, c3, c4, ?_, ?_⟩
          · rw [← filter_cons_blank tl hnb]
            exact c5
          · rw [← filter_cons_blank tl hnb]
            exact c6
        rw [e]
        exact ih st hist cur hc'
    · have e : replayCurr H Ni (id :: tl) st = { st with rest := id :: tl } := by
        simp only [replayCurr, hlt, if_false]
      rw [e]
      exact ⟨cur, ⟨c1, c2, c3, c4, c5, c6⟩, rfl, le_max_left _ _,
        fun h => ⟨h, not_lt.mp hlt⟩⟩

theorem replayHist_spec (H : Seed → String → Nat) (cms0 : CMS) (N Nt : Int)
    (items : List String) (hN : N ≤ MaxInt) (rest : List String) :
    ∀ (st : Sim) (hist : List String), Core H cms0 N items st hist [] rest →
      ∃ hist', Core H cms0 N items (replayHist H Nt rest st) hist' []
          (replayHist H Nt rest st).rest ∧
        (replayHist H Nt rest st).out = st.out ∧
        (hist' = hist ∨ st.item_idx < Nt) ∧
        ((replayHist H Nt rest st).status = Status.running →
          st.status = Status.running ∧ Nt ≤ (replayHist H Nt rest st).item_idx) := by
  induction rest with
  | nil =>
    intro st hist hc
    refine ⟨hist, ?_, ?_, Or.inl rfl, ?_⟩
    · unfold replayHist
      split <;> exact hc
    · unfold replayHist
      split <;> rfl
    · unfold replayHist
      split
      · intro h
        cases h
      · rename_i hlt
        intro h
        exact ⟨h, not_lt.mp hlt⟩
  | cons id tl ih =>
    intro st hist hc
    obtain ⟨c1, c2, c3, c4, c5, c6⟩ := hc
    rw [List.append_nil] at c3 c4 c5 c6
    by_cases hlt : st.item_idx < Nt
    · by_cases hnb : nonBlank id = true
      · have e : replayHist H Nt (id :: tl) st =
            replayHist H Nt tl
              { st with
                flow_map := incr st.flow_map id
                cms_hist := Update H st.cms_hist id 1
                item_idx := wrap64 (st.item_idx + 1) } := by
          simp only [replayHist, hlt, hnb, if_true]
        have hlen : (hist.length : Int) + 1 ≤ MaxInt := by
          rw [filter_cons_nonBlank tl hnb] at c5
          push_cast at c5 ⊢
          omega
        have hidx : wrap64 (st.item_idx + 1) = st.item_idx + 1 := by
          rw [c4]
          exact wrap64_of_range _ (by unfold MinInt; omega) hlen
        have hc' : Core H cms0 N items
            { st with
              flow_map := incr st.flow_map id
              cms_hist := Update H st.cms_hist id 1
              item_idx := wrap64 (st.item_idx + 1) } (hist ++ [id]) [] tl := by
          refine ⟨?_, c2, ?_, ?_, ?_, ?_⟩
          · show Update H st.cms_hist id 1 = _
            rw [c1, applyUpdates_snoc]
          · show IsFreqMap (incr st.flow_map id) (hist ++ [id] ++ [])
            rw [List.append_nil]
            exact IsFreqMap_incr _ _ _ c3 hlen
          · show wrap64 (st.item_idx + 1) = _
            rw [hidx, c4]
            simp only [List.length_append, List.length_singleton, List.length_nil]
            push_cast
            ring
          · rw [filter_cons_nonBlank tl hnb] at c5
            rw [← c5]
            simp only [List.length_append, List.length_singleton, List.length_nil]
            push_cast
            ring
          · rw [← c6]
            simp [List.filter_cons, hnb]
        obtain ⟨hist', r1, r2, _, r4⟩ := ih _ (hist ++ [id]) hc'
        rw [e]
        exact ⟨hist', r1, r2, Or.inr hlt, fun h => r4 h⟩
      · have e : replayHist H Nt (id :: tl) st = replayHist H Nt tl st := by
          simp only [replayHist, hlt, hnb, if_true, if_false]
          rfl
        have hc' : Core H cms0 N items st hist [] tl := by
          refine ⟨c1, c2, ?_, ?_, ?_, ?_⟩
          · rw [List.append_nil]
            exact c3
          · rw [List.append_nil]
            exact c4
          · rw [List.append_nil, ← filter_cons_blank tl hnb]
            exact c5
          · rw [List.append_nil, ← filter_cons_blank tl hnb]
            exact c6
        rw [e]
        exact ih st hist hc'
    · have e : replayHist H Nt (id :: tl) st = { st with rest := id :: tl } := by
        simp only [replayHist, hlt, if_false]
      rw [e]
      refine ⟨hist, ⟨c1, c2, ?_, ?_, ?_, ?_⟩, rfl, Or.inl rfl,
        fun h => ⟨h, not_lt.mp hlt⟩⟩
      · rw [List.append_nil]
        exact c3
      · rw [List.append_nil]
        exact c4
      · rw [List.append_nil]
        exact c5
      · rw [List.append_nil]
        exact c6

/-! ### The evaluator -/

theorem evaluate_ok {H : Seed → String → Nat} {mk : Nat → Seed} {d w : Int} {cms0 : CMS}
    (hnew : New mk d w = Except.ok cms0) (N B : Int) (items : List String)
    (hN : N ≤ MaxInt) (st : Sim)
    (hist cur rest : List String) (hc : Core H cms0 N items st hist cur rest)
    (hb : 1 ≤ B → B ≤ MaxInt → (cur.length : Int) ≤ B ∧ (hist = [] ∨ B ≤ 3 * N))
    (Nt Ni : Int) : RowOK N B (evaluate H N B Nt Ni st) := by
  obtain ⟨c1, c2, c3, c4, c5, c6⟩ := hc
  intro f hf
  simp only [evaluate, List.mem_map] at hf
  obtain ⟨e, he, hfe⟩ := hf
  obtain ⟨ho, h1⟩ := c3.2.1 e he
  have hlen : (hist.length : Int) + (cur.length : Int) ≤ N := by
    rw [← c5]
    simp only [List.length_append]
    push_cast
    omega
  have hh0 := @Estimate_ge_keyTotal H mk d w cms0 hnew (unitUpdates hist) (unit_nonneg hist)
    (by rw [allTotal_unit]; omega) e.1
  have hh1 := @Estimate_le_allTotal H mk d w cms0 hnew (unitUpdates hist) (unit_nonneg hist)
    (by rw [allTotal_unit]; omega) e.1
  have hc0 := @Estimate_ge_keyTotal H mk d w cms0 hnew (unitUpdates cur) (unit_nonneg cur)
    (by rw [allTotal_unit]; omega) e.1
  have hc1 := @Estimate_le_allTotal H mk d w cms0 hnew (unitUpdates cur) (unit_nonneg cur)
    (by rw [allTotal_unit]; omega) e.1
  rw [keyTotal_unit] at hh0 hc0
  rw [allTotal_unit] at hh1 hc1
  rw [← c1] at hh0 hh1
  rw [← c2] at hc0 hc1
  rw [occ_append] at ho
  have n1 := occ_nonneg hist e.1
  have n2 := occ_nonneg cur e.1
  have l2 := occ_le_length cur e.1
  have hmin : MinInt ≤ 0 := by decide
  have hhat : wrap64 (Estimate H st.cms_hist e.1 + Estimate H st.cms_curr e.1) =
      Estimate H st.cms_hist e.1 + Estimate H st.cms_curr e.1 :=
    wrap64_of_range _ (by omega) (by omega)
  subst hfe
  simp only [evalFlow]
  rw [hhat]
  refine ⟨h1, by omega, by omega, ?_⟩
  intro hB1 hBmax h4
  obtain ⟨b1, b2⟩ := hb hB1 hBmax
  have hrec : wrap64 (Estimate H st.cms_hist e.1 + B) = Estimate H st.cms_hist e.1 + B := by
    apply wrap64_of_range _ (by omega)
    rcases b2 with b2 | b2
    · subst b2
      simp only [List.length_nil, Nat.cast_zero] at hh1
      omega
    · omega
  rw [hrec]
  exact ⟨rfl, by omega⟩

theorem item_last_step (B N : Int) (hB : 1 ≤ B) (hN : 1 ≤ N)
    (h : toInt (mul32 (float32 B) ⟨false, 15099494, -24⟩) ≤ N) : B ≤ 3 * N := by
  obtain ⟨_, _, a2⟩ := scale_spec B (by omega) ⟨false, 15099494, -24⟩ rfl
    (15099494 / 2 ^ 24) (by norm_num [Flt.toRat]) (by norm_num)
  generalize toInt (mul32 (float32 B) ⟨false, 15099494, -24⟩) = t at h a2
  norm_num at a2
  have hq : (t : ℚ) ≤ N := by exact_mod_cast h
  have hN1 : (1 : ℚ) ≤ N := by exact_mod_cast hN
  have : (B : ℚ) ≤ 3 * N := by linarith
  exact_mod_cast this

/-! ### The scenario loops -/

theorem evaluate_sound {H : Seed → String → Nat} {mk : Nat → Seed} {d w : Int} {cms0 : CMS}
    (hnew : New mk d w = Except.ok cms0) (N B : Int) (items : List String)
    (hN : N ≤ MaxInt) : EvalSound H cms0 N B items (RowOK N B) := by
  intro st hist cur rest Nt Ni hc hb _
  exact evaluate_ok hnew N B items hN st hist cur rest hc hb Nt Ni

theorem newCurr_spec {H : Seed → String → Nat} {mk : Nat → Seed} {d w : Int} {cms0 : CMS}
    (hnew : New mk d w = Except.ok cms0) (mk' : Nat → Seed) (N : Int)
    (items : List String) (st : Sim)
    (hist : List String) (hc : Core H cms0 N items st hist [] st.rest) :
    newCurr mk' st = { st with cms_curr := cms0 } := by
  obtain ⟨hd0, hw0, hd, hw, _, _⟩ := New_inv hnew
  have e1 : ((st.cms_hist.d : Nat) : Int) = d := by
    rw [hc.1, applyUpdates_d, hd]
    omega
  have e2 : ((st.cms_hist.w : Nat) : Int) = w := by
    rw [hc.1, applyUpdates_w, hw]
    omega
  obtain ⟨c, hcnew⟩ : ∃ c, New mk' d w = Except.ok c := ⟨_, New_ok mk' hd0 hw0⟩
  have hcopy : CopySeeds c st.cms_hist = cms0 :=
    CopySeeds_onto_fresh hnew hcnew (by rw [hc.1, applyUpdates_seeds])
  unfold newCurr
  rw [e1, e2, hcnew]
  simp only [hcopy]

theorem innerStep_spec {H : Seed → String → Nat} {cms0 : CMS} (N B Nt : Int)
    (items : List String) (P : Row → Prop) (hP : EvalSound H cms0 N B items P)
    (hN : N ≤ MaxInt) (hNt : 1 ≤ B → B ≤ MaxInt → 0 ≤ Nt ∧ Nt + B ≤ MaxInt)
    (st : Sim) (fi : Flt) (hfi : fi ∈ failed_items)
    (hinv : InnerInv H cms0 N B Nt items P st) :
    InnerInv H cms0 N B Nt items P (innerStep H N B Nt st fi) ∧
      ((innerStep H N B Nt st fi).status = Status.running →
        NiOf Nt B fi ≤ (innerStep H N B Nt st fi).item_idx) := by
  obtain ⟨hrows, hist, cur, hc, hb⟩ := hinv
  by_cases hrun : st.status ≠ Status.running
  · have e : innerStep H N B Nt st fi = st := by
      unfold innerStep
      rw [if_pos hrun]
    rw [e]
    exact ⟨⟨hrows, hist, cur, hc, hb⟩, fun h => absurd h hrun⟩
  · obtain ⟨cur', r1, r2, r3, r4⟩ :=
      replayCurr_spec H cms0 N (NiOf Nt B fi) items hN st.rest st hist cur hc
    have hb' : BatchOK N B Nt (replayCurr H (NiOf Nt B fi) st.rest st) hist := by
      intro hB1 hBmax
      obtain ⟨b1, b2, b3⟩ := hb hB1 hBmax
      obtain ⟨t0, t1⟩ := hNt hB1 hBmax
      obtain ⟨_, i1⟩ := NiOf_spec Nt B (by omega) t0 t1 fi hfi
      refine ⟨b1, ?_, b3⟩
      refine le_trans r3 (max_le b2 ?_)
      omega
    by_cases hrun' : (replayCurr H (NiOf Nt B fi) st.rest st).status ≠ Status.running
    · have e : innerStep H N B Nt st fi = replayCurr H (NiOf Nt B fi) st.rest st := by
        unfold innerStep
        rw [if_neg hrun, if_pos hrun']
      rw [e]
      refine ⟨⟨?_, hist, cur', r1, hb'⟩, fun h => absurd h hrun'⟩
      rw [r2]
      exact hrows
    · have e : innerStep H N B Nt st fi =
          { replayCurr H (NiOf Nt B fi) st.rest st with
            out := (replayCurr H (NiOf Nt B fi) st.rest st).out ++
              [evaluate H N B Nt (NiOf Nt B fi)
                (replayCurr H (NiOf Nt B fi) st.rest st)] } := by
        unfold innerStep
        rw [if_neg hrun, if_neg hrun']
      rw [e]
      refine ⟨⟨?_, hist, cur', r1, hb'⟩, fun _ => (r4 (not_not.mp hrun')).2⟩
      intro r hr
      simp only [List.mem_append, List.mem_singleton] at hr
      rcases hr with hr | hr
      · rw [r2] at hr
        exact hrows r hr
      · rw [hr]
        apply hP _ hist cur' _ Nt (NiOf Nt B fi) r1 _ (r4 (not_not.mp hrun')).2
        intro hB1 hBmax
        obtain ⟨_, b2, b3⟩ := hb' hB1 hBmax
        refine ⟨?_, b3⟩
        have := r1.2.2.2.1
        rw [this] at b2
        simp only [List.length_append] at b2
        push_cast at b2
        omega

theorem catchUp_spec {H : Seed → String → Nat} {mk : Nat → Seed} {d w : Int} {cms0 : CMS}
    (hnew : New mk d w = Except.ok cms0) (N B Nt : Int) (items : List String)
    (P : Row → Prop) (hN1 : 1 ≤ N)
    (hNt : 1 ≤ B → B ≤ MaxInt → 0 ≤ Nt ∧ Nt + B ≤ MaxInt)
    (st : Sim) (hinv : InnerInv H cms0 N B Nt items P st)
    (hlast : st.status = Status.running →
      NiOf Nt B ⟨false, 15099494, -24⟩ ≤ st.item_idx) :
    OuterInv H cms0 N B items P (catchUp st) := by
  obtain ⟨hrows, hist, cur, hc, hb⟩ := hinv
  by_cases hrun : st.status ≠ Status.running
  · have e : catchUp st = st := by
      unfold catchUp
      rw [if_pos hrun]
    rw [e]
    exact ⟨hrows, fun h => absurd h hrun⟩
  · have e : catchUp st =
        { st with
          cms_hist := (Merge st.cms_hist st.cms_curr).1.1
          cms_curr := Clear (Merge st.cms_hist st.cms_curr).1.2
          curr_map := [] } := by
      unfold catchUp
      rw [if_neg hrun]
    obtain ⟨c1, c2, c3, c4, c5, c6⟩ := hc
    have hm := @Merge_applyUpdates H mk d w cms0 hnew (unitUpdates hist) (unitUpdates cur)
      (unitUpdates hist ++ unitUpdates cur) (List.Perm.refl _)
    rw [← c1, ← c2, ← unitUpdates_append] at hm
    rw [e]
    refine ⟨hrows, fun _ => ⟨hist ++ cur, ⟨?_, ?_, ?_, ?_, ?_, ?_⟩, ?_⟩⟩
    · show (Merge st.cms_hist st.cms_curr).1.1 = _
      rw [hm]
    · show Clear (Merge st.cms_hist st.cms_curr).1.2 = _
      rw [hm]
      show Clear st.cms_curr = cms0
      rw [c2]
      exact Clear_applyUpdates hnew _
    · show IsFreqMap st.flow_map (hist ++ cur ++ [])
      rw [List.append_nil]
      exact c3
    · show st.item_idx = _
      rw [List.append_nil]
      exact c4
    · show _ = N
      rw [List.append_nil]
      exact c5
    · show _ = items
      rw [List.append_nil]
      exact c6
    · intro hB1 hBmax
      right
      obtain ⟨t0, t1⟩ := hNt hB1 hBmax
      have f3 : (⟨false, 15099494, -24⟩ : Flt) ∈ failed_items := by
        rw [failed_items_eq]
        simp
      have hl := hlast (not_not.mp hrun)
      rw [NiOf_eq Nt B (by omega) t0 t1 _ f3] at hl
      apply item_last_step B N hB1 hN1
      have hidx : st.item_idx ≤ N := by
        rw [c4, ← c5]
        push_cast
        omega
      omega

theorem outerStep_spec {H : Seed → String → Nat} {mk : Nat → Seed} {d w : Int} {cms0 : CMS}
    (hnew : New mk d w = Except.ok cms0) (mkCurr : Flt → Nat → Seed) (N B : Int)
    (items : List String) (P : Row → Prop) (hP : EvalSound H cms0 N B items P)
    (hN1 : 1 ≤ N) (hN : N ≤ MaxInt) (st : Sim) (fb : Flt) (hfb : fb ∈ failed_batches)
    (hinv : OuterInv H cms0 N B items P st) :
    OuterInv H cms0 N B items P (outerStep H mkCurr N B st fb) := by
  obtain ⟨hrows, hrest⟩ := hinv
  by_cases hrun : st.status ≠ Status.running
  · have e : outerStep H mkCurr N B st fb = st := by
      unfold outerStep
      rw [if_pos hrun]
    rw [e]
    exact ⟨hrows, hrest⟩
  · obtain ⟨hist, hc, hcond⟩ := hrest (not_not.mp hrun)
    obtain ⟨hist', r1, r2, r3, r4⟩ :=
      replayHist_spec H cms0 N (NtOf N B fb) items hN st.rest st hist hc
    by_cases hrun' : (replayHist H (NtOf N B fb) st.rest st).status ≠ Status.running
    · have e : outerStep H mkCurr N B st fb = replayHist H (NtOf N B fb) st.rest st := by
        unfold outerStep
        rw [if_neg hrun, if_pos hrun']
      rw [e]
      refine ⟨?_, fun h => absurd h hrun'⟩
      rw [r2]
      exact hrows
    · have e : outerStep H mkCurr N B st fb =
          catchUp (failed_items.foldl (innerStep H N B (NtOf N B fb))
            (newCurr (mkCurr fb) (replayHist H (NtOf N B fb) st.rest st))) := by
        unfold outerStep
        rw [if_neg hrun, if_neg hrun']
      have hNt : 1 ≤ B → B ≤ MaxInt → 0 ≤ NtOf N B fb ∧ NtOf N B fb + B ≤ MaxInt := by
        intro hB1 hBmax
        obtain ⟨a, b, _⟩ := NtOf_facts N B hB1 hBmax (by omega) hN fb hfb
        exact ⟨a, b⟩
      have hnc := newCurr_spec hnew (mkCurr fb) N items _ hist' r1
      have hidx := (r4 (not_not.mp hrun')).2
      have hinner : InnerInv H cms0 N B (NtOf N B fb) items P
          (newCurr (mkCurr fb) (replayHist H (NtOf N B fb) st.rest st)) := by
        rw [hnc]
        obtain ⟨c1, c2, c3, c4, c5, c6⟩ := r1
        refine ⟨?_, hist', [], ⟨c1, rfl, c3, c4, c5, c6⟩, ?_⟩
        · show ∀ r ∈ (replayHist H (NtOf N B fb) st.rest st).out, P r
          rw [r2]
          exact hrows
        · intro hB1 hBmax
          have c4' : (replayHist H (NtOf N B fb) st.rest st).item_idx = (hist'.length : Int) := by
            rw [c4, List.append_nil]
          have hb1 : NtOf N B fb ≤ (hist'.length : Int) := by
            rw [← c4']
            exact hidx
          refine ⟨hb1, ?_, ?_⟩
          · show (replayHist H (NtOf N B fb) st.rest st).item_idx ≤ _
            rw [c4']
            omega
          · rcases r3 with r3 | r3
            · rw [r3]
              exact hcond hB1 hBmax
            · right
              obtain ⟨_, _, c⟩ := NtOf_facts N B hB1 hBmax (by omega) hN fb hfb
              have h0 : 0 ≤ st.item_idx := by
                rw [hc.2.2.2.1]
                exact Int.ofNat_nonneg _
              have := c (by omega)
              omega
      have f1 : (⟨false, 13421773, -27⟩ : Flt) ∈ failed_items := by
        rw [failed_items_eq]
        simp
      have f2 : (⟨false, 8388608, -24⟩ : Flt) ∈ failed_items := by
        rw [failed_items_eq]
        simp
      have f3 : (⟨false, 15099494, -24⟩ : Flt) ∈ failed_items := by
        rw [failed_items_eq]
        simp
      obtain ⟨i1, _⟩ := innerStep_spec N B (NtOf N B fb) items P hP hN hNt _ _ f1 hinner
      obtain ⟨i2, _⟩ := innerStep_spec N B (NtOf N B fb) items P hP hN hNt _ _ f2 i1
      obtain ⟨i3, l3⟩ := innerStep_spec N B (NtOf N B fb) items P hP hN hNt _ _ f3 i2
      rw [e, failed_items_eq]
      simp only [List.foldl_cons, List.foldl_nil]
      exact catchUp_spec hnew N B (NtOf N B fb) items P hN1 hNt _ i3 l3

theorem simulate_sound {H : Seed → String → Nat} {mk : Nat → Seed} {d w : Int} {cms0 : CMS}
    (hnew : New mk d w = Except.ok cms0) (mkCurr : Flt → Nat → Seed) (lines : List String)
    (B : Int) (P : Row → Prop)
    (hP : EvalSound H cms0 (countItems lines) B (lines.filter nonBlank) P)
    (hN : countItems lines ≤ MaxInt) :
    ∀ r ∈ (simulate H mkCurr cms0 lines B).out, P r := by
  unfold simulate
  by_cases h0 : countItems lines = 0
  · rw [if_pos h0]
    intro r hr
    cases hr
  · rw [if_neg h0]
    by_cases hB0 : B = 0
    · rw [if_pos hB0]
      intro r hr
      cases hr
    · rw [if_neg hB0]
      have hN1 : 1 ≤ countItems lines := by
        have : 0 ≤ countItems lines := Int.ofNat_nonneg _
        omega
      have hinit : OuterInv H cms0 (countItems lines) B (lines.filter nonBlank) P
          { item_idx := 0, flow_map := [], curr_map := [], cms_hist := cms0,
            cms_curr := cms0, rest := lines, out := [], status := Status.running } := by
        refine ⟨fun r hr => absurd hr (List.not_mem_nil r),
          fun _ => ⟨[], ⟨rfl, rfl, IsFreqMap_nil, rfl, ?_, ?_⟩, fun _ _ => Or.inl rfl⟩⟩
        · simp [countItems]
        · simp
      have f1 : (⟨false, 11184811, -25⟩ : Flt) ∈ failed_batches := by
        rw [failed_batches_eq]
        simp
      have f2 : (⟨false, 8388608, -24⟩ : Flt) ∈ failed_batches := by
        rw [failed_batches_eq]
        simp
      have f3 : (⟨false, 11184811, -24⟩ : Flt) ∈ failed_batches := by
        rw [failed_batches_eq]
        simp
      have o1 := outerStep_spec hnew mkCurr (countItems lines) B _ P hP hN1 hN _ _ f1 hinit
      have o2 := outerStep_spec hnew mkCurr (countItems lines) B _ P hP hN1 hN _ _ f2 o1
      have o3 := outerStep_spec hnew mkCurr (countItems lines) B _ P hP hN1 hN _ _ f3 o2
      have hfin : ∀ st : Sim, (finish st).out = st.out := by
        intro st
        unfold finish
        split <;> rfl
      rw [hfin, failed_batches_eq]
      simp only [List.foldl_cons, List.foldl_nil]
      exact o3.1

theorem simulate_rows {H : Seed → String → Nat} {mk : Nat → Seed} {d w : Int} {cms0 : CMS}
    (hnew : New mk d w = Except.ok cms0) (mkCurr : Flt → Nat → Seed) (lines : List String)
    (B : Int) (hN : countItems lines ≤ MaxInt) :
    ∀ r ∈ (simulate H mkCurr cms0 lines B).out, RowOK (countItems lines) B r :=
  simulate_sound hnew mkCurr lines B _
    (evaluate_sound hnew (countItems lines) B (lines.filter nonBlank) hN) hN

theorem IsFreqMap_length (m : FlowMap) (l : List String) (h : IsFreqMap m l) :
    m.length ≤ l.length := by
  obtain ⟨h1, h2, _⟩ := h
  have hsub : m.map (fun e => e.1) ⊆ l := by
    intro x hx
    obtain ⟨e, he, rfl⟩ := List.mem_map.mp hx
    obtain ⟨a, b⟩ := h2 e he
    by_contra hnot
    have := occ_eq_zero l e.1 hnot
    omega
  have := (List.subperm_of_subset h1 hsub).length_le
  simpa using this

theorem countLoop (m : FlowMap) (n0 : Int) (h0 : 0 ≤ n0)
    (h : n0 + (m.length : Int) ≤ MaxInt) :
    m.foldl (fun n _ => wrap64 (n + 1)) n0 = n0 + (m.length : Int) := by
  induction m generalizing n0 with
  | nil => simp
  | cons e m ih =>
    simp only [List.foldl_cons, List.length_cons] at h ⊢
    push_cast at h ⊢
    rw [wrap64_of_range _ (by unfold MinInt; omega) (by omega), ih _ (by omega) (by omega)]
    ring

theorem evaluate_truth (H : Seed → String → Nat) (cms0 : CMS) (N B : Int)
    (items : List String) (hN : N ≤ MaxInt) : EvalSound H cms0 N B items (RowTruth N items) := by
  intro st hist cur rest Nt Ni hc _ hNi
  obtain ⟨_, _, c3, c4, c5, c6⟩ := hc
  have hflows : (evaluate H N B Nt Ni st).flows.map (fun f => (f.x, f.c_x)) = st.flow_map := by
    simp only [evaluate, List.map_map]
    have : ((fun f : FlowEval => (f.x, f.c_x)) ∘ evalFlow H B st) = id := by
      funext e
      simp [evalFlow]
    rw [this, List.map_id]
  have hlen := IsFreqMap_length _ _ c3
  have hk : (((hist ++ cur).length : Nat) : Int) ≤ N := by
    rw [← c5]
    push_cast
    omega
  refine ⟨(hist ++ cur).length, ?_, hk, ?_, ?_⟩
  · show Ni ≤ _
    rw [← c4]
    exact hNi
  · rw [hflows, ← c6, List.take_left]
    exact c3
  · show st.flow_map.foldl (fun n _ => wrap64 (n + 1)) 0 = _
    rw [countLoop _ 0 (le_refl _) (by omega)]
    simp [evaluate]

theorem simulate_truth {H : Seed → String → Nat} {mk : Nat → Seed} {d w : Int} {cms0 : CMS}
    (hnew : New mk d w = Except.ok cms0) (mkCurr : Flt → Nat → Seed) (lines : List String)
    (B : Int) (hN : countItems lines ≤ MaxInt) :
    ∀ r ∈ (simulate H mkCurr cms0 lines B).out,
      RowTruth (countItems lines) (lines.filter nonBlank) r :=
  simulate_sound hnew mkCurr lines B _
    (evaluate_truth H cms0 (countItems lines) B (lines.filter nonBlank) hN) hN

/-! ### Claims about the simulation -/

set_option maxRecDepth 100000 in
/-- C7 (the code departs from the claim): on the trace of ten lines `a` x 6 then `b` x 4
with batch size 5, the seventh row (failure-batch fraction 2/3, failure-item fraction
0.1) is written with `Nt = 5` and `Ni = 5`, while `flow_map` holds the counts of the
first nine items (`a`: 6, `b`: 3, so `n = 2`); among the first five items `a` occurs
five times and `b` does not occur. -/
theorem C7_stale_crash_index :
    New (fun i => i + 7) 1 1 = Except.ok ⟨1, 1, [[0]], [7]⟩ ∧
    (simulate (fun _ _ => 0) (fun _ i => i) ⟨1, 1, [[0]], [7]⟩
      ["a", "a", "a", "a", "a", "a", "b", "b", "b", "b"] 5).out[6]? =
      some ⟨10, 2, 5, 5, [⟨"a", 6, 9, 9, 14⟩, ⟨"b", 3, 9, 9, 14⟩]⟩ ∧
    (simulate (fun _ _ => 0) (fun _ i => i) ⟨1, 1, [[0]], [7]⟩
      ["a", "a", "a", "a", "a", "a", "b", "b", "b", "b"] 5).item_idx = 9 ∧
    occ ((["a", "a", "a", "a", "a", "a", "b", "b", "b", "b"].filter nonBlank).take 5) "a"
      = 5 ∧
    occ ((["a", "a", "a", "a", "a", "a", "b", "b", "b", "b"].filter nonBlank).take 5) "b"
      = 0 := by
  refine ⟨rfl, ?_, ?_, ?_, ?_⟩ <;> decide

/-- C8: at every Evaluate phase of the simulation, for every batch size `B ≥ 1` (a Go
`int`), every input stream (of fewer than 2^61 items) and every flow `x` in the Global
Truth Map, `recovery_est = cms_hist.Estimate(x) + B` is greater than or equal to the
true count `flow_map[x]`.  The historical sketch may have any depth and width
`d, w ≥ 1`. -/
theorem C8_recovery_one_sided (H : Seed → String → Nat) (mk : Nat → Seed)
    (mkCurr : Flt → Nat → Seed) (d w : Int) (lines : List String) (B : Int)
    (hd : 1 ≤ d) (hw : 1 ≤ w) (hB : 1 ≤ B) (hBmax : B ≤ MaxInt)
    (hN : 4 * countItems lines ≤ MaxInt) :
    ∃ cms0, New mk d w = Except.ok cms0 ∧
      ∀ r ∈ (simulate H mkCurr cms0 lines B).out, ∀ f ∈ r.flows,
        f.recovery_c_x = f.history_c_x + B ∧ f.c_x ≤ f.recovery_c_x := by
  obtain ⟨cms0, hnew⟩ : ∃ cms, New mk d w = Except.ok cms :=
    ⟨_, New_ok mk (by omega) (by omega)⟩
  refine ⟨cms0, hnew, ?_⟩
  intro r hr f hf
  have h0 : 0 ≤ countItems lines := Int.ofNat_nonneg _
  have := simulate_rows hnew mkCurr lines B (by omega) r hr f hf
  exact this.2.2.2 hB hBmax hN

/-- Witness of C8: a trace of eleven lines (two of them blank) with batch size 5 and a
2 x 3 sketch, on which nine rows are written. -/
theorem C8_recovery_one_sided_witness :
    (∃ cms0, New (fun i => i + 7) 2 3 = Except.ok cms0 ∧
      ∀ r ∈ (simulate (fun s k => s + k.length) (fun _ i => i) cms0
          ["a", "a", "", "bb", "a", " ", "a", "a", "bb", "bb", "bb"] 5).out,
        ∀ f ∈ r.flows, f.recovery_c_x = f.history_c_x + 5 ∧ f.c_x ≤ f.recovery_c_x) ∧
    New (fun i => i + 7) 2 3 = Except.ok ⟨2, 3, [[0, 0, 0], [0, 0, 0]], [7, 8]⟩ ∧
    (simulate (fun s k => s + k.length) (fun _ i => i) ⟨2, 3, [[0, 0, 0], [0, 0, 0]], [7, 8]⟩
      ["a", "a", "", "bb", "a", " ", "a", "a", "bb", "bb", "bb"] 5).out.length = 9 :=
  ⟨C8_recovery_one_sided (fun s k => s + k.length) (fun i => i + 7) (fun _ i => i) 2 3
    ["a", "a", "", "bb", "a", " ", "a", "a", "bb", "bb", "bb"] 5
    (by decide) (by decide) (by decide) (by decide) (by decide), rfl, by decide⟩

/-- C10: no per-flow division of the evaluator has a zero denominator: at every
Evaluate phase, for every flow `x` of the Global Truth Map, `true_count = flow_map[x]`
is at least 1 and `crash_est = cms_hist.Estimate(x) + cms_curr.Estimate(x)` is at
least 1 (and at least `true_count`).  This holds for every batch size, every input
stream whose length is a Go `int`, and every depth and width `d, w ≥ 1`. -/
theorem C10_no_zero_denominator (H : Seed → String → Nat) (mk : Nat → Seed)
    (mkCurr : Flt → Nat → Seed) (d w : Int) (lines : List String) (B : Int)
    (hd : 1 ≤ d) (hw : 1 ≤ w) (hN : countItems lines ≤ MaxInt) :
    ∃ cms0, New mk d w = Except.ok cms0 ∧
      ∀ r ∈ (simulate H mkCurr cms0 lines B).out, ∀ f ∈ r.flows,
        1 ≤ f.c_x ∧ 1 ≤ f.hat_c_x ∧ f.c_x ≤ f.hat_c_x := by
  obtain ⟨cms0, hnew⟩ : ∃ cms, New mk d w = Except.ok cms :=
    ⟨_, New_ok mk (by omega) (by omega)⟩
  refine ⟨cms0, hnew, ?_⟩
  intro r hr f hf
  have := simulate_rows hnew mkCurr lines B hN r hr f hf
  exact ⟨this.1, this.2.1, this.2.2.1⟩

/-- Witness of C10: a trace of eleven lines (two of them blank) with batch size 5 and
a 2 x 3 sketch, on which nine rows are written. -/
theorem C10_no_zero_denominator_witness :
    (∃ cms0, New (fun i => i + 7) 2 3 = Except.ok cms0 ∧
      ∀ r ∈ (simulate (fun s k => s + k.length) (fun _ i => i) cms0
          ["a", "a", "", "bb", "a", " ", "a", "a", "bb", "bb", "bb"] 5).out,
        ∀ f ∈ r.flows, 1 ≤ f.c_x ∧ 1 ≤ f.hat_c_x ∧ f.c_x ≤ f.hat_c_x) ∧
    (simulate (fun s k => s + k.length) (fun _ i => i) ⟨2, 3, [[0, 0, 0], [0, 0, 0]], [7, 8]⟩
      ["a", "a", "", "bb", "a", " ", "a", "a", "bb", "bb", "bb"] 5).out.map
        (fun r => r.flows.length) = [0, 1, 2, 2, 2, 2, 2, 2, 2] :=
  ⟨C10_no_zero_denominator (fun s k => s + k.length) (fun i => i + 7) (fun _ i => i) 2 3
    ["a", "a", "", "bb", "a", " ", "a", "a", "bb", "bb", "bb"] 5
    (by decide) (by decide) (by decide), by decide⟩

/-! ### Zero-collision configurations -/

theorem load_unit_exact (H : Seed → String → Nat) (seeds : List Seed) (w : Nat) (i : Nat)
    (x : String) (l : List String)
    (h : ∀ y ∈ l, H (seeds.getD i 0) y % w = H (seeds.getD i 0) x % w → y = x) :
    load H seeds w (unitUpdates l) i (H (seeds.getD i 0) x % w) = occ l x := by
  induction l with
  | nil => rfl
  | cons y l ih =>
    have e : unitUpdates (y :: l) = (y, 1) :: unitUpdates l := rfl
    rw [e, load_cons, occ_cons, ih (fun z hz => h z (List.mem_cons_of_mem _ hz))]
    by_cases hy : y = x
    · subst hy
      simp
    · have hne : ¬ H (seeds.getD i 0) y % w = H (seeds.getD i 0) x % w :=
        fun hh => hy (h y (List.mem_cons_self _ _) hh)
      rw [if_neg hne, if_neg hy]

theorem Estimate_exact {H : Seed → String → Nat} {mk : Nat → Seed} {d w : Int} {cms0 : CMS}
    (hnew : New mk d w = Except.ok cms0) (items : List String)
    (hZ : ZeroCollision H cms0 items) (l : List String) (hl : ∀ y ∈ l, y ∈ items)
    (hlen : (l.length : Int) ≤ MaxInt) (x : String) (hx : x ∈ items) :
    Estimate H (applyUpdates H cms0 (unitUpdates l)) x = occ l x := by
  have hcell : ∀ i, i < cms0.d →
      cell (applyUpdates H cms0 (unitUpdates l)).count i
        (hash H (applyUpdates H cms0 (unitUpdates l)) x i) = occ l x := by
    intro i hi
    rw [fresh_hash_cell hnew (unitUpdates l) (unit_nonneg l)
      (by rw [allTotal_unit]; exact hlen) x hi]
    apply load_unit_exact
    intro y hy hh
    by_contra hne
    exact hZ i hi y (hl y hy) x hx hne hh
  have hd : 0 < cms0.d := by
    rw [(New_inv hnew).2.2.1]
    have := (New_inv hnew).1
    omega
  apply le_antisymm
  · have h1 := Estimate_le_cell H (applyUpdates H cms0 (unitUpdates l)) x
      (show 0 < (applyUpdates H cms0 (unitUpdates l)).d by rw [applyUpdates_d]; exact hd)
    rw [hcell 0 hd] at h1
    exact h1
  · apply Estimate_ge
    · exact le_trans (occ_le_length l x) hlen
    · intro i hi
      rw [applyUpdates_d] at hi
      rw [hcell i hi]

theorem evaluate_exact {H : Seed → String → Nat} {mk : Nat → Seed} {d w : Int} {cms0 : CMS}
    (hnew : New mk d w = Except.ok cms0) (N B : Int) (items : List String)
    (hN : N ≤ MaxInt) (hZ : ZeroCollision H cms0 items) :
    EvalSound H cms0 N B items RowExact := by
  intro st hist cur rest Nt Ni hc _ _
  obtain ⟨c1, c2, c3, c4, c5, c6⟩ := hc
  intro f hf
  simp only [evaluate, List.mem_map] at hf
  obtain ⟨e, he, hfe⟩ := hf
  obtain ⟨ho, h1⟩ := c3.2.1 e he
  have hlen : (hist.length : Int) + (cur.length : Int) ≤ N := by
    rw [← c5]
    simp only [List.length_append]
    push_cast
    omega
  have hsub : ∀ y ∈ hist ++ cur, y ∈ items := by
    intro y hy
    rw [← c6]
    exact List.mem_append_left _ hy
  have hx : e.1 ∈ items := by
    apply hsub
    by_contra hnot
    have := occ_eq_zero _ _ hnot
    omega
  have e1 := Estimate_exact hnew items hZ hist
    (fun y hy => hsub y (List.mem_append_left _ hy)) (by omega) e.1 hx
  have e2 := Estimate_exact hnew items hZ cur
    (fun y hy => hsub y (List.mem_append_right _ hy)) (by omega) e.1 hx
  have n1 := occ_nonneg hist e.1
  have n2 := occ_nonneg cur e.1
  have l1 := occ_le_length hist e.1
  have l2 := occ_le_length cur e.1
  subst hfe
  simp only [evalFlow]
  rw [c1, c2, e1, e2, ho, occ_append]
  exact wrap64_of_range _ (by unfold MinInt; omega) (by omega)

theorem Flt.toRat_zero (x : Flt) (h : x.m = 0) : x.toRat = 0 := by
  simp [Flt.toRat, h]

theorem div64_zero (x y : Flt) (h : x.m = 0) : (div64 x y).m = 0 := by
  simp [div64, fltRound, h]

theorem add64_zero (x y : Flt) (hx : x.m = 0) (hy : y.m = 0) : (add64 x y).m = 0 := by
  unfold add64
  rw [if_pos (by simp [Flt.scaled, hx, hy])]

theorem cms_true_term_zero (f : FlowEval) (h : f.hat_c_x = f.c_x) :
    (cms_true_term f).m = 0 := by
  unfold cms_true_term
  apply div64_zero
  rw [h, sub_self, wrap64_zero]
  rfl

theorem cms_true_zero (r : Row) (h : RowExact r) : (cms_true r).m = 0 := by
  unfold cms_true
  unfold RowExact at h
  generalize hz : (⟨false, 0, 0⟩ : Flt) = z
  have hz0 : z.m = 0 := by rw [← hz]
  clear hz
  generalize r.flows = fl at h
  induction fl generalizing z with
  | nil => exact hz0
  | cons f fl ih =>
    simp only [List.foldl_cons]
    exact ih _ (add64_zero _ _ hz0 (cms_true_term_zero f (h f (List.mem_cons_self _ _))))
      (fun g hg => h g (List.mem_cons_of_mem _ hg))

theorem float64_mantissa (n : Int) (hn : n ≠ 0) : (float64 n).m ≠ 0 := by
  unfold float64 fltRound
  have ha : n.natAbs ≠ 0 := by omega
  rw [if_neg ha]
  have := (roundRat_mantissa 53 n.natAbs 1 (by omega) (by omega) (by omega)).1
  have hp : 0 < 2 ^ (53 - 1) := Nat.pow_pos (by omega)
  show (roundRat 53 n.natAbs 1).1 ≠ 0
  omega

theorem cms_true_written_zero (r : Row) (h : RowExact r) (hn : r.n ≠ 0) :
    ∃ z, cms_true_written r = some z ∧ z.toRat = 0 := by
  unfold cms_true_written
  rw [if_neg (float64_mantissa r.n hn)]
  exact ⟨_, rfl, Flt.toRat_zero _ (div64_zero _ _ (cms_true_zero r h))⟩

set_option maxRecDepth 100000 in
/-- C11 (counterexample): on the trace of ten lines `a` x 6 then `b` x 4 with batch
size 5 and a zero-collision 2 x 2 sketch, the first row (failure-batch fraction 1/3,
failure-item fraction 0.1) is evaluated with `Nt = 0` and `Ni = 0`, before any item is
read: the Global Truth Map is empty, `n = 0`, `flows = float64(0)` is `0.0`, and the
value written in the column `cms_true` is the quotient `0.0 / 0.0`, which is not 0. -/
theorem C11_counterexample :
    New (fun i => i + 7) 2 2 = Except.ok ⟨2, 2, [[0, 0], [0, 0]], [7, 8]⟩ ∧
    ZeroCollision (fun s k => s + (k.data.map Char.toNat).sum)
      ⟨2, 2, [[0, 0], [0, 0]], [7, 8]⟩
      (["a", "a", "a", "a", "a", "a", "b", "b", "b", "b"].filter nonBlank) ∧
    (simulate (fun s k => s + (k.data.map Char.toNat).sum) (fun _ i => i)
      ⟨2, 2, [[0, 0], [0, 0]], [7, 8]⟩
      ["a", "a", "a", "a", "a", "a", "b", "b", "b", "b"] 5).out[0]? =
      some ⟨10, 0, 0, 0, []⟩ ∧
    float64 0 = ⟨false, 0, 0⟩ ∧
    cms_true ⟨10, 0, 0, 0, []⟩ = ⟨false, 0, 0⟩ ∧
    cms_true_written ⟨10, 0, 0, 0, []⟩ = none := by
  refine ⟨rfl, ?_, ?_, rfl, rfl, rfl⟩
  · unfold ZeroCollision
    decide
  · decide

/-- C11 (amended): under a zero-collision sketch configuration (in every row of the
sketch, distinct flow identifiers of the stream hash to distinct columns), for an
input stream whose length is a Go `int`, at every Evaluate phase
`crash_est = cms_hist.Estimate(x) + cms_curr.Estimate(x)` equals the true count
`flow_map[x]` for every flow `x` in the Global Truth Map, so the sum accumulated in
`cms_true` is exactly 0, and the value `cms_true / flows` written to the row is exactly
0 in every row with at least one flow (`n ≠ 0`). -/
theorem C11_zero_collision_exact (H : Seed → String → Nat) (mk : Nat → Seed)
    (mkCurr : Flt → Nat → Seed) (d w : Int) (cms0 : CMS) (lines : List String) (B : Int)
    (hnew : New mk d w = Except.ok cms0) (hN : countItems lines ≤ MaxInt)
    (hZ : ZeroCollision H cms0 (lines.filter nonBlank)) :
    ∀ r ∈ (simulate H mkCurr cms0 lines B).out,
      (∀ f ∈ r.flows, f.hat_c_x = f.c_x) ∧ (cms_true r).toRat = 0 ∧
        (r.n ≠ 0 → ∃ z, cms_true_written r = some z ∧ z.toRat = 0) := by
  intro r hr
  have h : RowExact r :=
    simulate_sound hnew mkCurr lines B _
      (evaluate_exact hnew (countItems lines) B (lines.filter nonBlank) hN hZ) hN r hr
  exact ⟨h, Flt.toRat_zero _ (cms_true_zero r h), cms_true_written_zero r h⟩

set_option maxRecDepth 100000 in
/-- Witness of C11: the trace of ten lines `a` x 6 then `b` x 4 with batch size 5 and a
2 x 2 sketch whose rows send `a` and `b` to different columns; nine rows are written,
and the row with `Nt = 5`, `Ni = 7` has the flows `a` (true count 6, estimate at the
crash 5 + 1) and `b` (true count 1, estimate at the crash 0 + 1). -/
theorem C11_zero_collision_exact_witness :
    (∀ r ∈ (simulate (fun s k => s + (k.data.map Char.toNat).sum) (fun _ i => i)
        ⟨2, 2, [[0, 0], [0, 0]], [7, 8]⟩
        ["a", "a", "a", "a", "a", "a", "b", "b", "b", "b"] 5).out,
      (∀ f ∈ r.flows, f.hat_c_x = f.c_x) ∧ (cms_true r).toRat = 0 ∧
        (r.n ≠ 0 → ∃ z, cms_true_written r = some z ∧ z.toRat = 0)) ∧
    (simulate (fun s k => s + (k.data.map Char.toNat).sum) (fun _ i => i)
      ⟨2, 2, [[0, 0], [0, 0]], [7, 8]⟩
      ["a", "a", "a", "a", "a", "a", "b", "b", "b", "b"] 5).out.length = 9 ∧
    (simulate (fun s k => s + (k.data.map Char.toNat).sum) (fun _ i => i)
      ⟨2, 2, [[0, 0], [0, 0]], [7, 8]⟩
      ["a", "a", "a", "a", "a", "a", "b", "b", "b", "b"] 5).out[4]? =
      some ⟨10, 2, 5, 7, [⟨"a", 6, 5, 6, 10⟩, ⟨"b", 1, 0, 1, 5⟩]⟩ ∧
    (cms_true_written ⟨10, 2, 5, 7, [⟨"a", 6, 5, 6, 10⟩, ⟨"b", 1, 0, 1, 5⟩]⟩).map
      (fun z => (z.neg, z.m)) = some (false, 0) :=
  ⟨C11_zero_collision_exact (fun s k => s + (k.data.map Char.toNat).sum) (fun i => i + 7)
    (fun _ i => i) 2 2 ⟨2, 2, [[0, 0], [0, 0]], [7, 8]⟩
    ["a", "a", "a", "a", "a", "a", "b", "b", "b", "b"] 5 rfl (by decide)
    (by unfold ZeroCollision; decide), by decide, by decide, by decide⟩

/-! ### Termination of the replay loops -/

theorem replayCurr_rest (H : Seed → String → Nat) (Ni : Int) (tl : List String) :
    ∀ (st : Sim) (r : List String),
      replayCurr H Ni tl { st with rest := r } = replayCurr H Ni tl st := by
  induction tl with
  | nil =>
    intro st r
    simp only [replayCurr]
  | cons id tl ih =>
    intro st r
    simp only [replayCurr]
    split
    · split
      · exact ih { st with
          flow_map := incr st.flow_map id
          curr_map := incr st.curr_map id
          cms_curr := Update H st.cms_curr id 1
          item_idx := wrap64 (st.item_idx + 1) } r
      · exact ih st r
    · rfl

theorem replayHist_rest (H : Seed → String → Nat) (Nt : Int) (tl : List String) :
    ∀ (st : Sim) (r : List String),
      replayHist H Nt tl { st with rest := r } = replayHist H Nt tl st := by
  induction tl with
  | nil =>
    intro st r
    simp only [replayHist]
  | cons id tl ih =>
    intro st r
    simp only [replayHist]
    split
    · split
      · exact ih { st with
          flow_map := incr st.flow_map id
          cms_hist := Update H st.cms_hist id 1
          item_idx := wrap64 (st.item_idx + 1) } r
      · exact ih st r
    · rfl

theorem currPasses_stuck (H : Seed → String → Nat) (Ni : Int) (st : Sim)
    (hr : st.rest = []) (hlt : st.item_idx < Ni) :
    ∀ k, currPasses H Ni k st = some st := by
  have h1 : currPass H Ni st = some st := by
    simp only [currPass, hlt, hr, if_true]
  intro k
  induction k with
  | zero => rfl
  | succ k ih =>
    simp only [currPasses, h1, Option.some_bind]
    exact ih

theorem histPasses_stuck (H : Seed → String → Nat) (Nt : Int) (st : Sim)
    (hr : st.rest = []) (hlt : st.item_idx < Nt) :
    ∀ k, histPasses H Nt k st = some st := by
  have h1 : histPass H Nt st = some st := by
    simp only [histPass, hlt, hr, if_true]
  intro k
  induction k with
  | zero => rfl
  | succ k ih =>
    simp only [histPasses, h1, Option.some_bind]
    exact ih

theorem replayCurr_passes (H : Seed → String → Nat) (Ni : Int) (rest : List String) :
    ∀ st : Sim, st.rest = rest → st.status = Status.running →
      ((replayCurr H Ni rest st).status = Status.running ∧
        ∃ k, currPasses H Ni k st = some (replayCurr H Ni rest st) ∧
          currPass H Ni (replayCurr H Ni rest st) = none) ∨
      ((replayCurr H Ni rest st).status = Status.spinning ∧
        ∀ k, currPasses H Ni k st ≠ none) := by
  induction rest with
  | nil =>
    intro st hr hs
    by_cases hlt : st.item_idx < Ni
    · right
      have e : replayCurr H Ni [] st = { st with rest := [], status := Status.spinning } := by
        simp only [replayCurr, hlt, if_true]
      rw [e]
      refine ⟨rfl, fun k => ?_⟩
      rw [currPasses_stuck H Ni st hr hlt k]
      exact Option.some_ne_none _
    · left
      have e : replayCurr H Ni [] st = st := by
        simp only [replayCurr, hlt, if_false]
        rw [← hr]
      rw [e]
      exact ⟨hs, 0, rfl, by simp only [currPass, hlt, if_false]⟩
  | cons id tl ih =>
    intro st hr hs
    by_cases hlt : st.item_idx < Ni
    · by_cases hnb : nonBlank id = true
      · have e : replayCurr H Ni (id :: tl) st =
            replayCurr H Ni tl
              { st with
                flow_map := incr st.flow_map id
                curr_map := incr st.curr_map id
                cms_curr := Update H st.cms_curr id 1
                item_idx := wrap64 (st.item_idx + 1)
                rest := tl } := by
          have e0 : replayCurr H Ni (id :: tl) st =
              replayCurr H Ni tl
                { st with
                  flow_map := incr st.flow_map id
                  curr_map := incr st.curr_map id
                  cms_curr := Update H st.cms_curr id 1
                  item_idx := wrap64 (st.item_idx + 1) } := by
            simp only [replayCurr, hlt, hnb, if_true]
          rw [e0]
          exact (replayCurr_rest H Ni tl _ tl).symm
        have p : currPass H Ni st =
            some { st with
                flow_map := incr st.flow_map id
                curr_map := incr st.curr_map id
                cms_curr := Update H st.cms_curr id 1
                item_idx := wrap64 (st.item_idx + 1)
                rest := tl } := by
          simp only [currPass, hlt, hr, hnb, if_true]
        rcases ih
            { st with
              flow_map := incr st.flow_map id
              curr_map := incr st.curr_map id
              cms_curr := Update H st.cms_curr id 1
              item_idx := wrap64 (st.item_idx + 1)
              rest := tl } rfl hs with ⟨h1, k, h2, h3⟩ | ⟨h1, h2⟩
        · left
          rw [e]
          refine ⟨h1, k + 1, ?_, h3⟩
          simp only [currPasses, p, Option.some_bind]
          exact h2
        · right
          rw [e]
          refine ⟨h1, fun k => ?_⟩
          cases k with
          | zero => exact Option.some_ne_none _
          | succ k =>
            simp only [currPasses, p, Option.some_bind]
            exact h2 k
      · have e : replayCurr H Ni (id :: tl) st = replayCurr H Ni tl { st with rest := tl } := by
          have e0 : replayCurr H Ni (id :: tl) st = replayCurr H Ni tl st := by
            simp only [replayCurr, hlt, hnb, if_true, if_false]
            rfl
          rw [e0]
          exact (replayCurr_rest H Ni tl st tl).symm
        have p : currPass H Ni st = some { st with rest := tl } := by
          simp only [currPass, hlt, hr, hnb, if_true, if_false]
          rfl
        rcases ih { st with rest := tl } rfl hs with ⟨h1, k, h2, h3⟩ | ⟨h1, h2⟩
        · left
          rw [e]
          refine ⟨h1, k + 1, ?_, h3⟩
          simp only [currPasses, p, Option.some_bind]
          exact h2
        · right
          rw [e]
          refine ⟨h1, fun k => ?_⟩
          cases k with
          | zero => exact Option.some_ne_none _
          | succ k =>
            simp only [currPasses, p, Option.some_bind]
            exact h2 k
    · left
      have e : replayCurr H Ni (id :: tl) st = st := by
        simp only [replayCurr, hlt, if_false]
        rw [← hr]
      rw [e]
      exact ⟨hs, 0, rfl, by simp only [currPass, hlt, if_false]⟩

theorem replayHist_passes (H : Seed → String → Nat) (Nt : Int) (rest : List String) :
    ∀ st : Sim, st.rest = rest → st.status = Status.running →
      ((replayHist H Nt rest st).status = Status.running ∧
        ∃ k, histPasses H Nt k st = some (replayHist H Nt rest st) ∧
          histPass H Nt (replayHist H Nt rest st) = none) ∨
      ((replayHist H Nt rest st).status = Status.spinning ∧
        ∀ k, histPasses H Nt k st ≠ none) := by
  induction rest with
  | nil =>
    intro st hr hs
    by_cases hlt : st.item_idx < Nt
    · right
      have e : replayHist H Nt [] st = { st with rest := [], status := Status.spinning } := by
        simp only [replayHist, hlt, if_true]
      rw [e]
      refine ⟨rfl, fun k => ?_⟩
      rw [histPasses_stuck H Nt st hr hlt k]
      exact Option.some_ne_none _
    · left
      have e : replayHist H Nt [] st = st := by
        simp only [replayHist, hlt, if_false]
        rw [← hr]
      rw [e]
      exact ⟨hs, 0, rfl, by simp only [histPass, hlt, if_false]⟩
  | cons id tl ih =>
    intro st hr hs
    by_cases hlt : st.item_idx < Nt
    · by_cases hnb : nonBlank id = true
      · have e : replayHist H Nt (id :: tl) st =
            replayHist H Nt tl
              { st with
                flow_map := incr st.flow_map id
                cms_hist := Update H st.cms_hist id 1
                item_idx := wrap64 (st.item_idx + 1)
                rest := tl } := by
          have e0 : replayHist H Nt (id :: tl) st =
              replayHist H Nt tl
                { st with
                  flow_map := incr st.flow_map id
                  cms_hist := Update H st.cms_hist id 1
                  item_idx := wrap64 (st.item_idx + 1) } := by
            simp only [replayHist, hlt, hnb, if_true]
          rw [e0]
          exact (replayHist_rest H Nt tl _ tl).symm
        have p : histPass H Nt st =
            some { st with
                flow_map := incr st.flow_map id
                cms_hist := Update H st.cms_hist id 1
                item_idx := wrap64 (st.item_idx + 1)
                rest := tl } := by
          simp only [histPass, hlt, hr, hnb, if_true]
        rcases ih
            { st with
              flow_map := incr st.flow_map id
              cms_hist := Update H st.cms_hist id 1
              item_idx := wrap64 (st.item_idx + 1)
              rest := tl } rfl hs with ⟨h1, k, h2, h3⟩ | ⟨h1, h2⟩
        · left
          rw [e]
          refine ⟨h1, k + 1, ?_, h3⟩
          simp only [histPasses, p, Option.some_bind]
          exact h2
        · right
          rw [e]
          refine ⟨h1, fun k => ?_⟩
          cases k with
          | zero => exact Option.some_ne_none _
          | succ k =>
            simp only [histPasses, p, Option.some_bind]
            exact h2 k
      · have e : replayHist H Nt (id :: tl) st = replayHist H Nt tl { st with rest := tl } := by
          have e0 : replayHist H Nt (id :: tl) st = replayHist H Nt tl st := by
            simp only [replayHist, hlt, hnb, if_true, if_false]
            rfl
          rw [e0]
          exact (replayHist_rest H Nt tl st tl).symm
        have p : histPass H Nt st = some { st with rest := tl } := by
          simp only [histPass, hlt, hr, hnb, if_true, if_false]
          rfl
        rcases ih { st with rest := tl } rfl hs with ⟨h1, k, h2, h3⟩ | ⟨h1, h2⟩
        · left
          rw [e]
          refine ⟨h1, k + 1, ?_, h3⟩
          simp only [histPasses, p, Option.some_bind]
          exact h2
        · right
          rw [e]
          refine ⟨h1, fun k => ?_⟩
          cases k with
          | zero => exact Option.some_ne_none _
          | succ k =>
            simp only [histPasses, p, Option.some_bind]
            exact h2 k
    · left
      have e : replayHist H Nt (id :: tl) st = st := by
        simp only [replayHist, hlt, if_false]
        rw [← hr]
      rw [e]
      exact ⟨hs, 0, rfl, by simp only [histPass, hlt, if_false]⟩

theorem replayCurr_runs (H : Seed → String → Nat) (Ni : Int) (rest : List String) :
    ∀ st : Sim, st.status = Status.running → MinInt ≤ st.item_idx →
      st.item_idx + ((rest.filter nonBlank).length : Int) ≤ MaxInt →
      Ni ≤ st.item_idx + ((rest.filter nonBlank).length : Int) →
      (replayCurr H Ni rest st).status = Status.running := by
  induction rest with
  | nil =>
    intro st hs _ _ hT
    have hlt : ¬ st.item_idx < Ni := by
      simp only [List.filter_nil, List.length_nil, Nat.cast_zero, add_zero] at hT
      omega
    simp only [replayCurr, hlt, if_false]
    exact hs
  | cons id tl ih =>
    intro st hs h0 hmax hT
    by_cases hlt : st.item_idx < Ni
    · by_cases hnb : nonBlank id = true
      · rw [filter_cons_nonBlank tl hnb] at hmax hT
        push_cast at hmax hT
        have hidx : wrap64 (st.item_idx + 1) = st.item_idx + 1 :=
          wrap64_of_range _ (by omega) (by omega)
        have e : replayCurr H Ni (id :: tl) st =
            replayCurr H Ni tl
              { st with
                flow_map := incr st.flow_map id
                curr_map := incr st.curr_map id
                cms_curr := Update H st.cms_curr id 1
                item_idx := wrap64 (st.item_idx + 1) } := by
          simp only [replayCurr, hlt, hnb, if_true]
        rw [e]
        apply ih
        · exact hs
        · show MinInt ≤ wrap64 (st.item_idx + 1)
          rw [hidx]
          omega
        · show wrap64 (st.item_idx + 1) + _ ≤ MaxInt
          rw [hidx]
          omega
        · show Ni ≤ wrap64 (st.item_idx + 1) + _
          rw [hidx]
          omega
      · rw [filter_cons_blank tl hnb] at hmax hT
        have e : replayCurr H Ni (id :: tl) st = replayCurr H Ni tl st := by
          simp only [replayCurr, hlt, hnb, if_true, if_false]
          rfl
        rw [e]
        exact ih st hs h0 hmax hT
    · simp only [replayCurr, hlt, if_false]
      exact hs

theorem replayHist_runs (H : Seed → String → Nat) (Nt : Int) (rest : List String) :
    ∀ st : Sim, st.status = Status.running → MinInt ≤ st.item_idx →
      st.item_idx + ((rest.filter nonBlank).length : Int) ≤ MaxInt →
      Nt ≤ st.item_idx + ((rest.filter nonBlank).length : Int) →
      (replayHist H Nt rest st).status = Status.running := by
  induction rest with
  | nil =>
    intro st hs _ _ hT
    have hlt : ¬ st.item_idx < Nt := by
      simp only [List.filter_nil, List.length_nil, Nat.cast_zero, add_zero] at hT
      omega
    simp only [replayHist, hlt, if_false]
    exact hs
  | cons id tl ih =>
    intro st hs h0 hmax hT
    by_cases hlt : st.item_idx < Nt
    · by_cases hnb : nonBlank id = true
      · rw [filter_cons_nonBlank tl hnb] at hmax hT
        push_cast at hmax hT
        have hidx : wrap64 (st.item_idx + 1) = st.item_idx + 1 :=
          wrap64_of_range _ (by omega) (by omega)
        have e : replayHist H Nt (id :: tl) st =
            replayHist H Nt tl
              { st with
                flow_map := incr st.flow_map id
                cms_hist := Update H st.cms_hist id 1
                item_idx := wrap64 (st.item_idx + 1) } := by
          simp only [replayHist, hlt, hnb, if_true]
        rw [e]
        apply ih
        · exact hs
        · show MinInt ≤ wrap64 (st.item_idx + 1)
          rw [hidx]
          omega
        · show wrap64 (st.item_idx + 1) + _ ≤ MaxInt
          rw [hidx]
          omega
        · show Nt ≤ wrap64 (st.item_idx + 1) + _
          rw [hidx]
          omega
      · rw [filter_cons_blank tl hnb] at hmax hT
        have e : replayHist H Nt (id :: tl) st = replayHist H Nt tl st := by
          simp only [replayHist, hlt, hnb, if_true, if_false]
          rfl
        rw [e]
        exact ih st hs h0 hmax hT
    · simp only [replayHist, hlt, if_false]
      exact hs

theorem Core_range {H : Seed → String → Nat} {cms0 : CMS} {N : Int} {items : List String}
    {st : Sim} {hist cur rest : List String} (hc : Core H cms0 N items st hist cur rest)
    (hN : N ≤ MaxInt) :
    MinInt ≤ st.item_idx ∧ st.item_idx + ((rest.filter nonBlank).length : Int) = N ∧
      st.item_idx + ((rest.filter nonBlank).length : Int) ≤ MaxInt := by
  obtain ⟨_, _, _, c4, c5, _⟩ := hc
  have h0 : (0 : Int) ≤ ((hist ++ cur).length : Int) := Int.ofNat_nonneg _
  have hmin : MinInt ≤ 0 := by decide
  push_cast at c5
  rw [c4]
  exact ⟨by omega, c5, by omega⟩

theorem innerStep_runs {H : Seed → String → Nat} {cms0 : CMS} (N B Nt : Int)
    (items : List String) (hN : N ≤ MaxInt) (st : Sim) (fi : Flt)
    (hist cur : List String) (hc : Core H cms0 N items st hist cur st.rest)
    (hs : st.status = Status.running) (hNi : NiOf Nt B fi ≤ N) :
    (∃ cur', Core H cms0 N items (innerStep H N B Nt st fi) hist cur'
        (innerStep H N B Nt st fi).rest) ∧
      (innerStep H N B Nt st fi).status = Status.running ∧
      (innerStep H N B Nt st fi).out.length = st.out.length + 1 := by
  obtain ⟨cur', r1, r2, _, _⟩ :=
    replayCurr_spec H cms0 N (NiOf Nt B fi) items hN st.rest st hist cur hc
  obtain ⟨g0, g1, g2⟩ := Core_range hc hN
  have hrun : (replayCurr H (NiOf Nt B fi) st.rest st).status = Status.running :=
    replayCurr_runs H (NiOf Nt B fi) st.rest st hs g0 g2 (by omega)
  have e : innerStep H N B Nt st fi =
      { replayCurr H (NiOf Nt B fi) st.rest st with
        out := (replayCurr H (NiOf Nt B fi) st.rest st).out ++
          [evaluate H N B Nt (NiOf Nt B fi)
            (replayCurr H (NiOf Nt B fi) st.rest st)] } := by
    unfold innerStep
    rw [if_neg (not_not.mpr hs), if_neg (not_not.mpr hrun)]
  rw [e]
  refine ⟨⟨cur', r1⟩, hrun, ?_⟩
  show ((replayCurr H (NiOf Nt B fi) st.rest st).out ++ [_]).length = _
  rw [r2, List.length_append, List.length_singleton]

theorem catchUp_runs {H : Seed → String → Nat} {mk : Nat → Seed} {d w : Int} {cms0 : CMS}
    (hnew : New mk d w = Except.ok cms0) (N : Int) (items : List String) (st : Sim)
    (hist cur : List String) (hc : Core H cms0 N items st hist cur st.rest)
    (hs : st.status = Status.running) :
    Core H cms0 N items (catchUp st) (hist ++ cur) [] (catchUp st).rest ∧
      (catchUp st).status = Status.running ∧ (catchUp st).out = st.out := by
  have e : catchUp st =
      { st with
        cms_hist := (Merge st.cms_hist st.cms_curr).1.1
        cms_curr := Clear (Merge st.cms_hist st.cms_curr).1.2
        curr_map := [] } := by
    unfold catchUp
    rw [if_neg (not_not.mpr hs)]
  obtain ⟨c1, c2, c3, c4, c5, c6⟩ := hc
  have hm := @Merge_applyUpdates H mk d w cms0 hnew (unitUpdates hist) (unitUpdates cur)
    (unitUpdates hist ++ unitUpdates cur) (List.Perm.refl _)
  rw [← c1, ← c2, ← unitUpdates_append] at hm
  rw [e]
  refine ⟨⟨?_, ?_, ?_, ?_, ?_, ?_⟩, hs, rfl⟩
  · show (Merge st.cms_hist st.cms_curr).1.1 = _
    rw [hm]
  · show Clear (Merge st.cms_hist st.cms_curr).1.2 = _
    rw [hm]
    show Clear st.cms_curr = cms0
    rw [c2]
    exact Clear_applyUpdates hnew _
  · show IsFreqMap st.flow_map (hist ++ cur ++ [])
    rw [List.append_nil]
    exact c3
  · show st.item_idx = _
    rw [List.append_nil]
    exact c4
  · show _ = N
    rw [List.append_nil]
    exact c5
  · show _ = items
    rw [List.append_nil]
    exact c6

theorem outerStep_runs {H : Seed → String → Nat} {mk : Nat → Seed} {d w : Int} {cms0 : CMS}
    (hnew : New mk d w = Except.ok cms0) (mkCurr : Flt → Nat → Seed) (N B : Int)
    (items : List String) (hN : N ≤ MaxInt) (st : Sim) (fb : Flt) (hist : List String)
    (hc : Core H cms0 N items st hist [] st.rest) (hs : st.status = Status.running)
    (hNt : NtOf N B fb ≤ N) (hNi : ∀ fi ∈ failed_items, NiOf (NtOf N B fb) B fi ≤ N) :
    (∃ hist', Core H cms0 N items (outerStep H mkCurr N B st fb) hist' []
        (outerStep H mkCurr N B st fb).rest) ∧
      (outerStep H mkCurr N B st fb).status = Status.running ∧
      (outerStep H mkCurr N B st fb).out.length = st.out.length + 3 := by
  obtain ⟨hist', r1, r2, _, _⟩ :=
    replayHist_spec H cms0 N (NtOf N B fb) items hN st.rest st hist hc
  obtain ⟨g0, g1, g2⟩ := Core_range hc hN
  have hrun : (replayHist H (NtOf N B fb) st.rest st).status = Status.running :=
    replayHist_runs H (NtOf N B fb) st.rest st hs g0 g2 (by omega)
  have e : outerStep H mkCurr N B st fb =
      catchUp (failed_items.foldl (innerStep H N B (NtOf N B fb))
        (newCurr (mkCurr fb) (replayHist H (NtOf N B fb) st.rest st))) := by
    unfold outerStep
    rw [if_neg (not_not.mpr hs), if_neg (not_not.mpr hrun)]
  have hnc := newCurr_spec hnew (mkCurr fb) N items _ hist' r1
  have hc0 : Core H cms0 N items
      (newCurr (mkCurr fb) (replayHist H (NtOf N B fb) st.rest st)) hist' []
      (newCurr (mkCurr fb) (replayHist H (NtOf N B fb) st.rest st)).rest := by
    rw [hnc]
    obtain ⟨c1, c2, c3, c4, c5, c6⟩ := r1
    exact ⟨c1, rfl, c3, c4, c5, c6⟩
  have hs0 : (newCurr (mkCurr fb) (replayHist H (NtOf N B fb) st.rest st)).status =
      Status.running := by
    rw [hnc]
    exact hrun
  have ho0 : (newCurr (mkCurr fb) (replayHist H (NtOf N B fb) st.rest st)).out = st.out := by
    rw [hnc]
    exact r2
  have f1 : (⟨false, 13421773, -27⟩ : Flt) ∈ failed_items := by
    rw [failed_items_eq]
    simp
  have f2 : (⟨false, 8388608, -24⟩ : Flt) ∈ failed_items := by
    rw [failed_items_eq]
    simp
  have f3 : (⟨false, 15099494, -24⟩ : Flt) ∈ failed_items := by
    rw [failed_items_eq]
    simp
  obtain ⟨⟨cur1, k1⟩, s1, o1⟩ :=
    innerStep_runs N B (NtOf N B fb) items hN _ _ hist' [] hc0 hs0 (hNi _ f1)
  obtain ⟨⟨cur2, k2⟩, s2, o2⟩ :=
    innerStep_runs N B (NtOf N B fb) items hN _ _ hist' cur1 k1 s1 (hNi _ f2)
  obtain ⟨⟨cur3, k3⟩, s3, o3⟩ :=
    innerStep_runs N B (NtOf N B fb) items hN _ _ hist' cur2 k2 s2 (hNi _ f3)
  obtain ⟨k4, s4, o4⟩ := catchUp_runs hnew N items _ hist' cur3 k3 s3
  rw [e, failed_items_eq]
  simp only [List.foldl_cons, List.foldl_nil]
  refine ⟨⟨_, k4⟩, s4, ?_⟩
  rw [o4, o3, o2, o1, ho0]

theorem simulate_runs {H : Seed → String → Nat} {mk : Nat → Seed} {d w : Int} {cms0 : CMS}
    (hnew : New mk d w = Except.ok cms0) (mkCurr : Flt → Nat → Seed) (lines : List String)
    (B : Int) (hN0 : countItems lines ≠ 0) (hN : countItems lines ≤ MaxInt) (hB : B ≠ 0)
    (htar : ∀ fb ∈ failed_batches, NtOf (countItems lines) B fb ≤ countItems lines ∧
      ∀ fi ∈ failed_items, NiOf (NtOf (countItems lines) B fb) B fi ≤ countItems lines) :
    (simulate H mkCurr cms0 lines B).status = Status.running ∧
      (simulate H mkCurr cms0 lines B).out.length = 9 := by
  unfold simulate
  rw [if_neg hN0, if_neg hB]
  have hinit : Core H cms0 (countItems lines) (lines.filter nonBlank)
      { item_idx := 0, flow_map := [], curr_map := [], cms_hist := cms0,
        cms_curr := cms0, rest := lines, out := [], status := Status.running } [] [] lines := by
    refine ⟨rfl, rfl, IsFreqMap_nil, rfl, ?_, ?_⟩
    · simp [countItems]
    · simp
  have f1 : (⟨false, 11184811, -25⟩ : Flt) ∈ failed_batches := by
    rw [failed_batches_eq]
    simp
  have f2 : (⟨false, 8388608, -24⟩ : Flt) ∈ failed_batches := by
    rw [failed_batches_eq]
    simp
  have f3 : (⟨false, 11184811, -24⟩ : Flt) ∈ failed_batches := by
    rw [failed_batches_eq]
    simp
  obtain ⟨⟨h1, k1⟩, s1, o1⟩ := outerStep_runs hnew mkCurr (countItems lines) B _ hN _ _ []
    hinit rfl (htar _ f1).1 (htar _ f1).2
  obtain ⟨⟨h2, k2⟩, s2, o2⟩ := outerStep_runs hnew mkCurr (countItems lines) B _ hN _ _ h1
    k1 s1 (htar _ f2).1 (htar _ f2).2
  obtain ⟨⟨h3, k3⟩, s3, o3⟩ := outerStep_runs hnew mkCurr (countItems lines) B _ hN _ _ h2
    k2 s2 (htar _ f3).1 (htar _ f3).2
  have hfin : ∀ st : Sim, (finish st).out = st.out ∧ (finish st).status = st.status := by
    intro st
    unfold finish
    split <;> exact ⟨rfl, rfl⟩
  rw [(hfin _).1, (hfin _).2, failed_batches_eq]
  simp only [List.foldl_cons, List.foldl_nil]
  refine ⟨s3, ?_⟩
  rw [o3, o2, o1]
  rfl

theorem simulate_terminates {H : Seed → String → Nat} {mk : Nat → Seed} {d w : Int}
    {cms0 : CMS} (hnew : New mk d w = Except.ok cms0) (mkCurr : Flt → Nat → Seed)
    (lines : List String) (B : Int) (hB : 1 ≤ B) (hBN : B ≤ countItems lines)
    (hN : countItems lines ≤ MaxInt) :
    (simulate H mkCurr cms0 lines B).status = Status.running ∧
      (simulate H mkCurr cms0 lines B).out.length = 9 := by
  apply simulate_runs hnew mkCurr lines B (by omega) hN (by omega)
  intro fb hfb
  obtain ⟨n0, n12, n23, n3, n4, _⟩ := NtOf_spec (countItems lines) B hB (by omega) hN
  obtain ⟨t0, t1, _⟩ := NtOf_facts (countItems lines) B hB (by omega) (by omega) hN fb hfb
  have key : NtOf (countItems lines) B fb ≤ NtOf (countItems lines) B ⟨false, 11184811, -24⟩ := by
    rw [failed_batches_eq] at hfb
    simp only [List.mem_cons, List.mem_singleton, List.not_mem_nil, or_false] at hfb
    rcases hfb with h | h | h <;> subst h <;> omega
  have n4' := n4 hBN
  refine ⟨by omega, fun fi hfi => ?_⟩
  obtain ⟨_, i1⟩ := NiOf_spec (NtOf (countItems lines) B fb) B (by omega) t0 t1 fi hfi
  omega

theorem replayCurr_beyond_end {H : Seed → String → Nat} {cms0 : CMS} (N Ni : Int)
    (items : List String) (hN : N ≤ MaxInt) (st : Sim) (hist cur : List String)
    (hc : Core H cms0 N items st hist cur st.rest) (hs : st.status = Status.running)
    (hNi : N < Ni) :
    (replayCurr H Ni st.rest st).status = Status.spinning ∧
      ∀ k, currPasses H Ni k st ≠ none := by
  obtain ⟨cur', r1, _, _, r4⟩ := replayCurr_spec H cms0 N Ni items hN st.rest st hist cur hc
  rcases replayCurr_passes H Ni st.rest st rfl hs with ⟨h1, _⟩ | h
  · obtain ⟨_, g1, _⟩ := Core_range r1 hN
    have h2 := (r4 h1).2
    have h3 : (0 : Int) ≤ (((replayCurr H Ni st.rest st).rest.filter nonBlank).length : Int) :=
      Int.ofNat_nonneg _
    omega
  · exact h

set_option maxRecDepth 100000 in
/-- C12 (the code departs from the claim): on the trace of three lines `a`, `b`, `a`
with batch size 5 (`N = 3`, `q = N / B = 0`) every checkpoint `Nt` is 0 and the crash
indices `Ni` are 0, 2 and 4.  Two rows are written; then the loop `for item_idx < Ni`
with `Ni = 4` reads the third line and finds the scanner exhausted with `item_idx = 3`:
from there every pass through its body leaves the state unchanged, so the loop is
never left and the pass does not terminate. -/
theorem C12_replay_never_ends :
    New (fun i => i + 7) 2 2 = Except.ok ⟨2, 2, [[0, 0], [0, 0]], [7, 8]⟩ ∧
    countItems ["a", "b", "a"] = 3 ∧
    scenarios 3 5 =
      [(0, 0), (0, 2), (0, 4), (0, 0), (0, 2), (0, 4), (0, 0), (0, 2), (0, 4)] ∧
    (simulate (fun s k => s + (k.data.map Char.toNat).sum) (fun _ i => i)
      ⟨2, 2, [[0, 0], [0, 0]], [7, 8]⟩ ["a", "b", "a"] 5).status = Status.spinning ∧
    (simulate (fun s k => s + (k.data.map Char.toNat).sum) (fun _ i => i)
      ⟨2, 2, [[0, 0], [0, 0]], [7, 8]⟩ ["a", "b", "a"] 5).item_idx = 3 ∧
    (simulate (fun s k => s + (k.data.map Char.toNat).sum) (fun _ i => i)
      ⟨2, 2, [[0, 0], [0, 0]], [7, 8]⟩ ["a", "b", "a"] 5).rest = [] ∧
    (simulate (fun s k => s + (k.data.map Char.toNat).sum) (fun _ i => i)
      ⟨2, 2, [[0, 0], [0, 0]], [7, 8]⟩ ["a", "b", "a"] 5).out.map (fun r => (r.Nt, r.Ni)) =
      [(0, 0), (0, 2)] ∧
    ∀ k, currPasses (fun s k => s + (k.data.map Char.toNat).sum) 4 k
        (simulate (fun s k => s + (k.data.map Char.toNat).sum) (fun _ i => i)
          ⟨2, 2, [[0, 0], [0, 0]], [7, 8]⟩ ["a", "b", "a"] 5) =
      some (simulate (fun s k => s + (k.data.map Char.toNat).sum) (fun _ i => i)
          ⟨2, 2, [[0, 0], [0, 0]], [7, 8]⟩ ["a", "b", "a"] 5) := by
  refine ⟨rfl, by decide, by decide, by decide, by decide, by decide, by decide, ?_⟩
  exact currPasses_stuck _ 4 _ (by decide) (by decide)

end MeasureTraces
